import Mathlib

/-!
# Verification of the `serde_kicad_sexpr` codec

A shallow embedding of the KiCad s-expression serializer/deserializer
(`src/de/mod.rs`, `src/ser/mod.rs`, `src/option.rs`, `src/untagged.rs`)
and proofs about it.

Modelling conventions:

* The deserializer's borrowed `&str` input is a `List Char`; advancing the
  cursor is dropping a prefix.  All cursor functions are translated directly
  from the corresponding Rust functions and keep their names.
* Rust's `char::is_whitespace` (used by `str::trim_start`) and
  `char::is_ascii_whitespace` are modelled on their ASCII fragments
  (`\x09`-`\x0d` and space); inputs of interest are ASCII.
* `f32` values are modelled as exact decimal fractions in lowest terms
  (numerator and denominator): the model of `<f32 as FromStr>::from_str`
  parses the decimal literal exactly instead of rounding to binary floating
  point.  No claim below depends on float rounding.
* serde's derived `Deserialize`/`Serialize` implementations are modelled by
  schema-directed interpreters (`mkD`, `encode_field`): a `FieldShape`
  describes the caller's type the way the derive macro would drive the
  serde API, and the interpreter performs exactly the sequence of calls the
  derived code performs against this crate's (de)serializer.
* Error *variants* are modelled exactly (`ErrorKind` in `src/de/error.rs`);
  the free-text of `Message` errors produced by serde's derived visitors
  (e.g. `invalid type: …`) is reproduced in serde's format but its exact
  wording is not load-bearing for any theorem.
* The Rust decoder can fail to terminate (e.g. a sequence whose element type
  consumes no input).  Decoding loops therefore return `Option`, with `none`
  meaning divergence; the fuel supplied is provably sufficient whenever the
  element consumes input.
-/

deriving instance DecidableEq for Except

namespace SexprCodec

/-- Characters of the input/output text. -/
abbrev Chars := List Char

/-! ## Character classes -/

/-- ASCII fragment of Rust `char::is_whitespace` (as used by
`str::trim_start` in `Deserializer::skip_whitespace`). -/
def isUniWs (c : Char) : Bool :=
  c = ' ' || c = '\t' || c = '\n' || c = '\r' || c = '\x0b' || c = '\x0c'

/-- Rust `char::is_ascii_whitespace`: space, tab, LF, FF, CR. -/
def isAsciiWs (c : Char) : Bool :=
  c = ' ' || c = '\t' || c = '\n' || c = '\x0c' || c = '\r'

/-- Rust `char::is_ascii_alphabetic`. -/
def isAsciiAlpha (c : Char) : Bool :=
  ('A' ≤ c && c ≤ 'Z') || ('a' ≤ c && c ≤ 'z')

/-- Identifier characters: `ch.is_ascii_alphabetic() || ch == '_'`. -/
def isIdentChar (c : Char) : Bool := isAsciiAlpha c || c = '_'

/-- Rust `char::is_ascii_digit`. -/
def isAsciiDigit (c : Char) : Bool := '0' ≤ c && c ≤ '9'

/-! ## Errors (`src/de/error.rs` `ErrorKind`, backtrace omitted) -/

inductive Err where
  | Message (s : String)
  | ExpectedStruct
  | Eof
  | ExpectedSExpr (c : Char)
  | ExpectedSExprIdentifier (expected : Chars) (found : Chars)
  | ExpectedEoe
  | ExpectedIdentifier
  | ExpectedNumber
  | ExpectedString
  | DeserializeOption
  | MissingSExprInfo (s : Chars)
  | NonNewtypeEnumVariant
  | NonUnitEnumVariant
  | TrailingTokens
deriving DecidableEq, Repr

/-! ## Cursor primitives (`impl Deserializer` in `src/de/mod.rs`) -/

/-- `Deserializer::skip_whitespace`: `self.input = self.input.trim_start()`. -/
def skip_whitespace (input : Chars) : Chars := input.dropWhile isUniWs

/-- `Deserializer::peek_char`. -/
def peek_char (input : Chars) : Except Err Char :=
  match input with
  | [] => .error .Eof
  | c :: _ => .ok c

/-- `Deserializer::next_char`: returns the char and the advanced input. -/
def next_char (input : Chars) : Except Err (Char × Chars) :=
  match input with
  | [] => .error .Eof
  | c :: rest => .ok (c, rest)

/-- The token classes of `enum Token`. -/
inductive Token where
  | String
  | Int
  | Float
  | SExpr
deriving DecidableEq, Repr

/-- The character scan inside `Deserializer::peek_token`; `int` is the
mutable flag, cleared on `'.'`. -/
def peek_token_loop : Chars → Bool → Token
  | [], int => if int then .Int else .Float
  | c :: cs, int =>
    if c = '(' then .SExpr
    else if c = '.' then peek_token_loop cs false
    else if c = '-' then peek_token_loop cs int
    else if isAsciiWs c then (if int then .Int else .Float)
    else if isAsciiDigit c then peek_token_loop cs int
    else .String

/-- `Deserializer::peek_token`. -/
def peek_token (input : Chars) : Except Err Token :=
  match input with
  | [] => .error .Eof
  | _ => .ok (peek_token_loop input true)

/-- `Deserializer::peek_identifier`: the maximal leading run of identifier
characters, or `none` if empty. -/
def peek_identifier (input : Chars) : Option Chars :=
  let run := input.takeWhile isIdentChar
  if run.isEmpty then none else some run

/-- `Deserializer::peek_sexpr_identifier`. -/
def peek_sexpr_identifier (input : Chars) : Except Err Chars :=
  match input with
  | [] => .error .Eof
  | c :: rest =>
    if c ≠ '(' then .error (.ExpectedSExpr c)
    else
      let run := rest.takeWhile isIdentChar
      if run.isEmpty then .error .ExpectedIdentifier else .ok run

/-- `Deserializer::consume`. -/
def consume (input : Chars) (len : Nat) : Except Err Chars :=
  if input.length < len then .error .Eof else .ok (input.drop len)

/-- The maximal run scanned by `parse_number` and the bare-string branch of
`parse_string`: characters that are neither ASCII whitespace nor `)`. -/
def atomRun (input : Chars) : Chars :=
  input.takeWhile (fun c => !isAsciiWs c && c ≠ ')')

/-! ## Numeric literals

`parse_number::<T>` scans `atomRun` and defers to `T::from_str`.  The models
of Rust's integer `FromStr` (with the type's range) and of `f32`/`f64`
`FromStr` (exact decimal value, no rounding, `inf`/`nan` omitted) follow. -/

/-- Numeric value of a digit run (most significant first). -/
def digitsToNat (ds : Chars) : Nat :=
  ds.foldl (fun acc c => acc * 10 + (c.toNat - '0'.toNat)) 0

/-- Rust `<iN/uN as FromStr>::from_str`, for the integer type with range
`[lo, hi]`; signedness (acceptance of a leading `-`) is `lo < 0`.
Error strings are those of Rust's `ParseIntError`. -/
def parseIntRange (lo hi : Int) (tok : Chars) : Except String Int :=
  match tok with
  | [] => .error "cannot parse integer from empty string"
  | c :: rest =>
    let (neg, digits) :=
      if c = '+' then (false, rest)
      else if c = '-' && lo < 0 then (true, rest)
      else (false, tok)
    if digits.isEmpty then .error "invalid digit found in string"
    else if digits.all isAsciiDigit then
      let v : Int := if neg then -(digitsToNat digits : Int) else (digitsToNat digits : Int)
      if v < lo then .error "number too small to fit in target type"
      else if hi < v then .error "number too large to fit in target type"
      else .ok v
    else .error "invalid digit found in string"

/-- Exponent suffix of a float literal: `(e|E) sign? digits`, which must
consume the whole remainder. -/
def parseFloatExp (t : Chars) : Except String Int :=
  match t with
  | [] => .ok 0
  | c :: r =>
    if c = 'e' || c = 'E' then
      let (esgn, r1) : Bool × Chars :=
        match r with
        | '+' :: r1 => (false, r1)
        | '-' :: r1 => (true, r1)
        | _ => (false, r)
      let ed := r1.takeWhile isAsciiDigit
      if ed.isEmpty || !(r1.drop ed.length).isEmpty then .error "invalid float literal"
      else .ok (if esgn then -(digitsToNat ed : Int) else (digitsToNat ed : Int))
    else .error "invalid float literal"

/-- Euclid's algorithm with explicit fuel (`fuel > b` suffices), so that
it reduces inside the kernel. -/
def gcdFuel : Nat → Nat → Nat → Nat
  | 0, a, _ => a
  | fuel + 1, a, b => if b = 0 then a else gcdFuel fuel b (a % b)

/-- A decimal fraction reduced to lowest terms (`den > 0` at every call
site). -/
def decFrac (mant : Int) (den : Nat) : Int × Nat :=
  let g := gcdFuel (den + 1) mant.natAbs den
  if g = 0 then (0, 1) else (mant / (g : Int), den / g)

/-- Rust `<f32/f64 as FromStr>::from_str` on finite decimal literals, with
the exact decimal value as a reduced fraction (`inf`/`nan` spellings and
binary rounding are outside the modelled fragment). -/
def parseFloat (tok : Chars) : Except String (Int × Nat) :=
  let (neg, t1) : Bool × Chars :=
    match tok with
    | '+' :: r => (false, r)
    | '-' :: r => (true, r)
    | _ => (false, tok)
  let ip := t1.takeWhile isAsciiDigit
  let t2 := t1.drop ip.length
  let (fp, t3) : Chars × Chars :=
    match t2 with
    | '.' :: r => (r.takeWhile isAsciiDigit, r.drop (r.takeWhile isAsciiDigit).length)
    | _ => ([], t2)
  if ip.isEmpty && fp.isEmpty then .error "invalid float literal"
  else
    match parseFloatExp t3 with
    | .error e => .error e
    | .ok e =>
      let mant : Int := (digitsToNat ip) * 10 ^ fp.length + digitsToNat fp
      let mant := if neg then -mant else mant
      let q : Int × Nat :=
        if 0 ≤ e then decFrac (mant * 10 ^ e.toNat) (10 ^ fp.length)
        else decFrac mant (10 ^ (fp.length + (-e).toNat))
      .ok q

/-- `Deserializer::parse_number::<T>`, generic over the scalar parser.
Returns the outcome together with the (possibly advanced) input; the input
advances only after a successful parse, exactly as in the source. -/
def parse_number {α : Type} (parse : Chars → Except String α) (input : Chars) :
    (Except Err α) × Chars :=
  let run := atomRun input
  if run.isEmpty then (.error .ExpectedNumber, input)
  else
    match parse run with
    | .error msg => (.error (.Message msg), input)
    | .ok v => (.ok v, input.drop run.length)

/-! ## String literals (`Deserializer::parse_string`)

The quoted branch accumulates chunks up to each `"` and post-processes
escapes with `find(r"\\")`/`replace_range` plus a `start_idx` cursor.  The
model replays that algorithm: `collapseBS` is the left-to-right greedy
collapse performed by the `while let Some(idx) = …find(r"\\")` loop, and its
boolean result records whether the final character of the chunk is the
result of a collapse (equivalently, whether `start_idx` ended up at
`value.len() - 1`, which is the negation of the source's
`start_idx < value.len() - 1` test whenever the chunk ends in `\"`). -/

/-- Greedy left-to-right collapse of `\\` pairs; the boolean is true iff the
final character of the result was produced by a collapse. -/
def collapseBS : Chars → Chars × Bool
  | '\\' :: '\\' :: rest =>
    match rest with
    | [] => (['\\'], true)
    | _ => let (r, b) := collapseBS rest; ('\\' :: r, b)
  | c :: rest => let (r, b) := collapseBS rest; (c :: r, b)
  | [] => ([], false)

/-- The chunk loop of the quoted branch of `parse_string`.  Each iteration
consumes the chunk up to and including the next `"`; the fuel (initially
`input.length + 1`) strictly exceeds the possible number of iterations. -/
def parseQuotedLoop : Nat → Chars → Chars → (Except Err Chars) × Chars
  | 0, input, _ => (.error .Eof, input)
  | fuel + 1, input, acc =>
    let body := input.takeWhile (· ≠ '"')
    if body.length ≥ input.length then (.error .Eof, input)
    else
      let rest := input.drop (body.length + 1)
      let (collapsed, endsPair) := collapseBS body
      if collapsed.getLast? = some '\\' && !endsPair then
        parseQuotedLoop fuel rest (acc ++ collapsed.dropLast ++ ['"'])
      else
        (.ok (acc ++ collapsed), rest)

/-- `Deserializer::parse_string`.  Returns the decoded string (or error) and
the state of the input afterwards. -/
def parse_string (input : Chars) : (Except Err Chars) × Chars :=
  match input with
  | [] => (.error .Eof, input)
  | '(' :: _ => (.error .ExpectedString, input)
  | '"' :: rest => parseQuotedLoop (rest.length + 1) rest []
  | _ =>
    let run := atomRun input
    if run.isEmpty then (.error .Eof, input)
    else (.ok run, input.drop run.length)

/-! ## Values and shapes

`Value` is the universe of caller values the codec transports.  `FieldShape`
is the schema a derived `Deserialize`/`Serialize` impl communicates through
the serde API: which `deserialize_*`/`serialize_*` method is invoked for a
field, together with the static data (names, field lists, integer ranges)
the derived code passes along.  `Fields`/`Shapes` are inlined list types so
that the schema interpreters below are structurally recursive. -/

mutual
inductive Value where
  | vBool (b : Bool)
  | vInt (n : Int)
  | vFloat (num : Int) (den : Nat)
  | vStr (s : Chars)
  | vNone
  | vSome (v : Value)
  | vUnit
  | vStruct (vs : Values)
  | vTuple (vs : Values)
  | vSeq (vs : Values)
  | vVariant (i : Nat)
deriving DecidableEq, Repr

/-- A list of values (inlined so that equality is derivable and the
interpreters are structurally recursive). -/
inductive Values where
  | nil
  | cons (v : Value) (rest : Values)
deriving DecidableEq, Repr
end

/-- Package a `List Value` as a `Values`. -/
def Values.ofList : List Value → Values
  | [] => .nil
  | v :: vs => .cons v (Values.ofList vs)

theorem Values.ofList_injective : ∀ {xs ys : List Value},
    Values.ofList xs = Values.ofList ys → xs = ys
  | [], [], _ => rfl
  | [], _ :: _, h => by cases h
  | _ :: _, [], h => by cases h
  | x :: xs, y :: ys, h => by
    injection h with h1 h2
    rw [h1, Values.ofList_injective h2]

mutual
/-- The shape of one field of a record (equivalently: of one value request
made through serde).  `fInt lo hi tn` stands for the integer types, with
their range and type name; `fOpt` is an optional field using the crate's
custom `serde_sexpr::Option` logic; `fUnit`/`fStruct`/`fTuple` are unit /
named-field / tuple structs with their (possibly renamed) sexpr name;
`fSeq` is a `Vec`; `fEnum` an enum with only unit variants. -/
inductive FieldShape where
  | fBool
  | fInt (lo hi : Int) (tn : String)
  | fFloat
  | fStr
  | fOpt (inner : FieldShape)
  | fUnit (name : Chars)
  | fStruct (name : Chars) (fields : Fields)
  | fTuple (name : Chars) (elems : Shapes)
  | fSeq (elem : FieldShape)
  | fEnum (variants : List Chars)
deriving DecidableEq, Repr

/-- Named fields of a record shape. -/
inductive Fields where
  | nil
  | cons (name : Chars) (shape : FieldShape) (rest : Fields)
deriving DecidableEq, Repr

/-- Positional element shapes of a tuple struct. -/
inductive Shapes where
  | nil
  | cons (shape : FieldShape) (rest : Shapes)
deriving DecidableEq, Repr
end

/-- serde's `Error::invalid_type` message. -/
def invalidType (unexp exp : String) : Err :=
  .Message ("invalid type: " ++ unexp ++ ", expected " ++ exp)

/-- serde's display of `Unexpected::Bool(true)`. -/
def boolTrueUnexp : String := "boolean `true`"

/-- serde's display of `Unexpected::Option` (produced by a default
`visit_none`). -/
def noneUnexp : String := "Option value"

/-- serde's `Error::unknown_variant` message (expected-list rendering
approximated). -/
def unknownVariantMsg (got : Chars) (variants : List Chars) : Err :=
  .Message ("unknown variant `" ++ got.asString ++ "`, expected one of " ++
    String.intercalate ", " (variants.map (fun v => "`" ++ v.asString ++ "`")))

/-! ## The field deserializers

`D` packages, for one shape, the behaviour of the three deserializers a
record field can be handed in `SExpr::next_value_seed_impl`:

* `field`: `Field { de, ident }` (the general value decoder), given the
  optional field name and the input; the result is the outcome, the state
  of the input afterwards (also on error), and whether a visitor callback
  interceptable by `option.rs`'s `OptionVisitor` was invoked (`visit_none`
  deliberately does not count, matching `OptionVisitor::visit_none`).
  `none` models non-termination of the Rust code.
* `tru`: the `TrueField` deserializer (no input access).
* `miss`: the `MissingField` deserializer (no input access). -/
structure D where
  field : Option Chars → Chars → Option ((Except Err Value) × Chars × Bool)
  tru : (Except Err Value) × Bool
  miss : (Except Err Value) × Bool

/-- `SExpr::consume_beginning`: skip whitespace, match `(name`, consume it.
Returns the input state also on error (whitespace already skipped). -/
def consume_beginning (name : Chars) (input : Chars) : (Except Err Unit) × Chars :=
  let inp := skip_whitespace input
  match peek_sexpr_identifier inp with
  | .error e => (.error e, inp)
  | .ok peeked =>
    if peeked ≠ name then (.error (.ExpectedSExprIdentifier name peeked), inp)
    else
      match consume inp (name.length + 1) with
      | .error e => (.error e, inp)
      | .ok rest => (.ok (), rest)

/-- `SExpr::check_eoe` for a record with `nfields` declared fields:
skip whitespace; if `skip_to` is unset and the next char is `)`, consume it
and set the `nfields + 1` sentinel. -/
def check_eoe (nfields : Nat) (input : Chars) (skipTo : Option Nat) :
    Except Err (Chars × Option Nat) :=
  let inp := skip_whitespace input
  match skipTo with
  | some _ => .ok (inp, skipTo)
  | none =>
    match inp with
    | [] => .error .Eof
    | ')' :: rest => .ok (rest, some (nfields + 1))
    | _ => .ok (inp, none)

/-- First index at or after the running offset whose name equals `ident`. -/
def firstIdxFrom {β : Type} (ident : Chars) : List (Chars × β) → Nat → Option Nat
  | [], _ => none
  | c :: cs, i => if c.1 = ident then some i else firstIdxFrom ident cs (i + 1)

/-- First index `i ≥ start` with `fds[i].name = ident` (the search loop in
`next_value_seed_impl`). -/
def findLater (fds : List (Chars × D)) (start : Nat) (ident : Chars) : Option Nat :=
  firstIdxFrom ident (fds.drop start) start

/-- `SExpr::next_value_seed_impl`, for the field at `index`.  Returns the
outcome, the input state, and the updated `skip_to`. -/
def next_value_seed (fds : List (Chars × D)) (index : Nat) (skipTo : Option Nat)
    (input : Chars) : Option ((Except Err Value) × Chars × Option Nat) :=
  if h : index < fds.length then
    let nd := fds.get ⟨index, h⟩
    match skipTo with
    | some k =>
      if k = index then some (nd.2.tru.1, input, none)
      else some (nd.2.miss.1, input, skipTo)
    | none =>
      let fallthrough : Option ((Except Err Value) × Chars × Option Nat) :=
        match nd.2.field (some nd.1) input with
        | none => none
        | some (r, rest, _) => some (r, rest, none)
      match peek_identifier input with
      | some ident =>
        if nd.1 = ident then some (nd.2.tru.1, input.drop ident.length, none)
        else
          match findLater fds (index + 1) ident with
          | some i => some (nd.2.miss.1, input.drop ident.length, some i)
          | none => fallthrough
      | none => fallthrough
  else some (.error (.Message "There was no key and there is no value"), input, skipTo)

/-- The empty-name skipping loop at the top of `SExpr::next_key_seed`:
while the current field is named `""` and `skip_to` is set, emit its default
(an empty sequence, via `#[serde(default)]`) and advance.  `countdown` is
`fds.length - index` at the call site. -/
def skipEmpties (fds : List (Chars × D)) :
    Nat → Nat → Option Nat → (List Value × Nat × Option Nat)
  | 0, index, st => ([], index, st)
  | cd + 1, index, st =>
    if h : index < fds.length then
      if (fds.get ⟨index, h⟩).1 = ([] : Chars) then
        match st with
        | some k =>
          let st' := if k = index then none else st
          let (vs, i', s') := skipEmpties fds cd (index + 1) st'
          (Value.vSeq .nil :: vs, i', s')
        | none => ([], index, st)
      else ([], index, st)
    else ([], index, st)

/-- The `MapAccess` loop performed by a derived struct visitor against
`SExpr`: `next_key_seed` (check-eoe, empty-name skipping, end test) and
`next_value_seed` (value, `index += 1`, check-eoe), until the keys run out.
Produces the field values in declaration order (skipped empty-name fields
contribute their `vSeq []` default).  `countdown` is at least
`fds.length + 1 - index`. -/
def visit_map (fds : List (Chars × D)) :
    Nat → Nat → Option Nat → Chars → Option ((Except Err (List Value)) × Chars)
  | 0, _, _, _ => none
  | cd + 1, index, skipTo, input =>
    match check_eoe fds.length input skipTo with
    | .error e => some (.error e, skip_whitespace input)
    | .ok (input1, skipTo1) =>
      let (skipped, index2, skipTo2) := skipEmpties fds (fds.length - index) index skipTo1
      if index2 ≥ fds.length then some (.ok skipped, input1)
      else
        match next_value_seed fds index2 skipTo2 input1 with
        | none => none
        | some (.error e, rest, _) => some (.error e, rest)
        | some (.ok v, rest, skipTo3) =>
          match check_eoe fds.length rest skipTo3 with
          | .error e => some (.error e, skip_whitespace rest)
          | .ok (rest2, skipTo4) =>
            match visit_map fds cd (index2 + 1) skipTo4 rest2 with
            | none => none
            | some (.error e, rest3) => some (.error e, rest3)
            | some (.ok vs, rest3) => some (.ok (skipped ++ v :: vs), rest3)

/-- `SExprTuple::check_eoe` (with its sticky `end` flag). -/
def tuple_check_eoe (input : Chars) (ended : Bool) : Except Err (Chars × Bool) :=
  if ended then .ok (input, true)
  else
    let inp := skip_whitespace input
    match inp with
    | [] => .error .Eof
    | ')' :: rest => .ok (rest, true)
    | _ => .ok (inp, false)

/-- The `SeqAccess` loop a derived tuple-struct visitor performs against
`SExprTuple`: one `next_element_seed` per declared element (check-eoe,
element via `Field { ident: None }`, check-eoe); premature end is the
derived visitor's `invalid_length` error. -/
def visit_tuple : List D → Chars → Bool → Option ((Except Err (List Value)) × Chars × Bool)
  | [], input, ended => some (.ok [], input, ended)
  | d :: ds, input, ended =>
    match tuple_check_eoe input ended with
    | .error e => some (.error e, skip_whitespace input, ended)
    | .ok (input1, ended1) =>
      if ended1 then some (.error (.Message "invalid length"), input1, ended1)
      else
        match d.field none input1 with
        | none => none
        | some (.error e, rest, _) => some (.error e, rest, ended1)
        | some (.ok v, rest, _) =>
          match tuple_check_eoe rest ended1 with
          | .error e => some (.error e, skip_whitespace rest, ended1)
          | .ok (rest2, ended2) =>
            match visit_tuple ds rest2 ended2 with
            | none => none
            | some (.error e, rest3, ended3) => some (.error e, rest3, ended3)
            | some (.ok vs, rest3, ended3) => some (.ok (v :: vs), rest3, ended3)

/-- The `SeqAccess` loop a derived `Vec` visitor performs against
`SExprTuple` (`next_element_seed` until the closing parenthesis).  A
zero-progress iteration makes the Rust loop diverge, modelled by `none`;
`fuel` therefore starts at `input.length + 1`. -/
def visit_seq_tuple (f : Chars → Option ((Except Err Value) × Chars × Bool)) :
    Nat → Chars → Bool → Option ((Except Err (List Value)) × Chars)
  | 0, _, _ => none
  | fuel + 1, input, ended =>
    match tuple_check_eoe input ended with
    | .error e => some (.error e, skip_whitespace input)
    | .ok (input1, ended1) =>
      if ended1 then some (.ok [], input1)
      else
        match f input1 with
        | none => none
        | some (.error e, rest, _) => some (.error e, rest)
        | some (.ok v, rest, _) =>
          match tuple_check_eoe rest ended1 with
          | .error e => some (.error e, skip_whitespace rest)
          | .ok (rest2, ended2) =>
            if rest2.length < input.length then
              match visit_seq_tuple f fuel rest2 ended2 with
              | none => none
              | some (.error e, rest3) => some (.error e, rest3)
              | some (.ok vs, rest3) => some (.ok (v :: vs), rest3)
            else none

/-- The `SeqAccess` loop of `impl SeqAccess for Field` (the empty-name
trailing sequence): skip whitespace, stop *without consuming* on `)`,
otherwise decode an element via `Field { ident: None }`.  Zero progress
again models divergence. -/
def visit_seq_field (f : Chars → Option ((Except Err Value) × Chars × Bool)) :
    Nat → Chars → Option ((Except Err (List Value)) × Chars)
  | 0, _ => none
  | fuel + 1, input =>
    let inp := skip_whitespace input
    match inp with
    | [] => some (.error .Eof, inp)
    | ')' :: _ => some (.ok [], inp)
    | _ =>
      match f inp with
      | none => none
      | some (.error e, rest, _) => some (.error e, rest)
      | some (.ok v, rest, _) =>
        if rest.length < input.length then
          match visit_seq_field f fuel rest with
          | none => none
          | some (.error e, rest') => some (.error e, rest')
          | some (.ok vs, rest') => some (.ok (v :: vs), rest')
        else none

/-! ## The per-shape deserializer behaviours -/

/-- `Field::deserialize_bool` / `TrueField` / `MissingField` for a `bool`
field: `false` without touching the input, `true`, `false`. -/
def boolD : D where
  field := fun _ input => some (.ok (.vBool false), input, true)
  tru := (.ok (.vBool true), true)
  miss := (.ok (.vBool false), true)

/-- Integer fields (`forward_to_parse_number!`), with range `[lo, hi]` and
type name `tn` (used in serde's derived error messages). -/
def intD (lo hi : Int) (tn : String) : D where
  field := fun _ input =>
    match parse_number (parseIntRange lo hi) input with
    | (.error e, rest) => some (.error e, rest, false)
    | (.ok n, rest) => some (.ok (.vInt n), rest, true)
  tru := (.error (invalidType boolTrueUnexp tn), true)
  miss := (.error (invalidType noneUnexp tn), false)

/-- Float fields (`f32`/`f64`). -/
def floatD : D where
  field := fun _ input =>
    match parse_number parseFloat input with
    | (.error e, rest) => some (.error e, rest, false)
    | (.ok q, rest) => some (.ok (.vFloat q.1 q.2), rest, true)
  tru := (.error (invalidType boolTrueUnexp "f32"), true)
  miss := (.error (invalidType noneUnexp "f32"), false)

/-- String fields (`Field::deserialize_string`). -/
def strD : D where
  field := fun _ input =>
    match parse_string input with
    | (.error e, rest) => some (.error e, rest, false)
    | (.ok s, rest) => some (.ok (.vStr s), rest, true)
  tru := (.error (invalidType boolTrueUnexp "a string"), true)
  miss := (.error (invalidType noneUnexp "a string"), false)

/-- The crate's custom optional logic (`option.rs::deserialize_option`)
wrapped around the inner shape's behaviour: try to deserialize as if the
value were present; a failure with the touched flag unset becomes
`Ok(None)` (with the input state left however the trial left it), a failure
with the flag set propagates, success becomes `Some`. -/
def optD (d : D) : D where
  field := fun ident input =>
    match d.field ident input with
    | none => none
    | some (.ok v, rest, t) => some (.ok (.vSome v), rest, t)
    | some (.error e, rest, t) =>
      if t then some (.error e, rest, t) else some (.ok .vNone, rest, false)
  tru :=
    match d.tru with
    | (.ok v, t) => (.ok (.vSome v), t)
    | (.error e, t) => if t then (.error e, t) else (.ok .vNone, false)
  miss :=
    match d.miss with
    | (.ok v, t) => (.ok (.vSome v), t)
    | (.error e, t) => if t then (.error e, t) else (.ok .vNone, false)

/-- Unit-struct fields (`Field::deserialize_unit_struct`): match `(name`,
then one `next_char` that must be `)` (note: that char is consumed even when
the check fails). -/
def unitD (name : Chars) : D where
  field := fun _ input =>
    match consume_beginning name input with
    | (.error e, st) => some (.error e, st, false)
    | (.ok (), st) =>
      match st with
      | [] => some (.error .Eof, st, false)
      | c :: rest =>
        if c = ')' then some (.ok .vUnit, rest, true)
        else some (.error .ExpectedEoe, rest, false)
  tru := (.error (invalidType boolTrueUnexp ("unit struct " ++ name.asString)), true)
  miss := (.error (invalidType noneUnexp ("unit struct " ++ name.asString)), false)

/-- Record fields (`Field::deserialize_struct` → `SExpr::new` +
`visit_map`).  The touched flag is set as soon as `visit_map` is invoked,
i.e. once `(name` was matched. -/
def structD (name : Chars) (fds : List (Chars × D)) : D where
  field := fun _ input =>
    match consume_beginning name input with
    | (.error e, st) => some (.error e, st, false)
    | (.ok (), st) =>
      match visit_map fds (fds.length + 1) 0 none st with
      | none => none
      | some (.error e, rest) => some (.error e, rest, true)
      | some (.ok vs, rest) => some (.ok (.vStruct (.ofList vs)), rest, true)
  tru := (.error (invalidType boolTrueUnexp ("struct " ++ name.asString)), true)
  miss := (.error (invalidType noneUnexp ("struct " ++ name.asString)), false)

/-- Tuple-struct fields (`Field::deserialize_tuple_struct`, also newtype
structs with a single element shape). -/
def tupD (name : Chars) (ds : List D) : D where
  field := fun _ input =>
    match consume_beginning name input with
    | (.error e, st) => some (.error e, st, false)
    | (.ok (), st) =>
      match visit_tuple ds st false with
      | none => none
      | some (.error e, rest, _) => some (.error e, rest, true)
      | some (.ok vs, rest, _) => some (.ok (.vTuple (.ofList vs)), rest, true)
  tru := (.error (invalidType boolTrueUnexp ("tuple struct " ++ name.asString)), true)
  miss := (.error (invalidType noneUnexp ("tuple struct " ++ name.asString)), false)

/-- Sequence fields (`Field::deserialize_seq`).  With no ident the error is
`MissingSExprInfo` (or whatever `peek_sexpr_identifier` raises); the empty
ident decodes the remaining elements of the enclosing expression (the
visitor is entered before any input is read, so the touched flag is set on
every outcome); a nonempty ident opens a nested `(ident …)` list. -/
def seqD (elemD : D) : D where
  field := fun ident input =>
    match ident with
    | none =>
      match peek_sexpr_identifier input with
      | .error e => some (.error e, input, false)
      | .ok id => some (.error (.MissingSExprInfo id), input, false)
    | some [] =>
      match visit_seq_field (elemD.field none) (input.length + 1) input with
      | none => none
      | some (.error e, rest) => some (.error e, rest, true)
      | some (.ok vs, rest) => some (.ok (.vSeq (.ofList vs)), rest, true)
    | some nm =>
      match consume_beginning nm input with
      | (.error e, st) => some (.error e, st, false)
      | (.ok (), st) =>
        match visit_seq_tuple (elemD.field none) (st.length + 1) st false with
        | none => none
        | some (.error e, rest) => some (.error e, rest, true)
        | some (.ok vs, rest) => some (.ok (.vSeq (.ofList vs)), rest, true)
  tru := (.error (invalidType boolTrueUnexp "a sequence"), true)
  miss := (.error (invalidType noneUnexp "a sequence"), false)

/-- `i64::MIN` as an integer. -/
def i64min : Int := -(2 ^ 63)
/-- `i64::MAX`. -/
def i64max : Int := 2 ^ 63 - 1
/-- `u64::MAX`. -/
def u64max : Int := 2 ^ 64 - 1

/-- Unit-variant enum fields (`Field::deserialize_enum` with a derived
enum of unit variants): `visit_enum` is entered before any input is read
(touched on every outcome); `Field::variant_seed` classifies the next
token.  An s-expr yields the variant name but then fails with
`NonNewtypeEnumVariant` (the access is `NewtypeVariant` but the derived
code requests `unit_variant`); a string token resolves the variant by name
via `parse_string`; integer tokens reach the derived identifier visitor's
`visit_u64` (an index) or fail with serde `invalid_type` messages. -/
def enumD (variants : List Chars) : D where
  field := fun _ input =>
    match peek_token input with
    | .error e => some (.error e, input, true)
    | .ok .SExpr =>
      match peek_sexpr_identifier input with
      | .error e => some (.error e, input, true)
      | .ok id =>
        if variants.contains id then some (.error .NonNewtypeEnumVariant, input, true)
        else some (.error (unknownVariantMsg id variants), input, true)
    | .ok .String =>
      match parse_string input with
      | (.error e, rest) => some (.error e, rest, true)
      | (.ok s, rest) =>
        match variants.findIdx? (fun v => v = s) with
        | some i => some (.ok (.vVariant i), rest, true)
        | none => some (.error (unknownVariantMsg s variants), rest, true)
    | .ok .Int =>
      match input with
      | '-' :: _ =>
        match parse_number (parseIntRange i64min i64max) input with
        | (.error e, rest) => some (.error e, rest, true)
        | (.ok n, rest) =>
          some (.error (invalidType ("integer `" ++ toString n ++ "`") "variant identifier"),
            rest, true)
      | _ =>
        match parse_number (parseIntRange 0 u64max) input with
        | (.error e, rest) => some (.error e, rest, true)
        | (.ok n, rest) =>
          if n < variants.length then some (.ok (.vVariant n.toNat), rest, true)
          else
            some (.error (.Message ("invalid value: integer `" ++ toString n ++
              "`, expected variant index 0 <= i < " ++ toString variants.length)), rest, true)
    | .ok .Float =>
      match parse_number parseFloat input with
      | (.error e, rest) => some (.error e, rest, true)
      | (.ok _, rest) =>
        some (.error (invalidType "floating point value" "variant identifier"), rest, true)
  tru := (.error (invalidType boolTrueUnexp "a variant"), true)
  miss := (.error (invalidType noneUnexp "a variant"), false)

mutual
/-- Compile a field shape to the behaviour of the three per-field
deserializers, following what the serde derive macros do with each shape
against this crate's deserializer. -/
def mkD : FieldShape → D
  | .fBool => boolD
  | .fInt lo hi tn => intD lo hi tn
  | .fFloat => floatD
  | .fStr => strD
  | .fOpt s => optD (mkD s)
  | .fUnit nm => unitD nm
  | .fStruct nm flds => structD nm (mkFields flds)
  | .fTuple nm es => tupD nm (mkShapes es)
  | .fSeq e => seqD (mkD e)
  | .fEnum vs => enumD vs

/-- Compile the named fields of a record. -/
def mkFields : Fields → List (Chars × D)
  | .nil => []
  | .cons n s rest => (n, mkD s) :: mkFields rest

/-- Compile tuple element shapes. -/
def mkShapes : Shapes → List D
  | .nil => []
  | .cons s rest => mkD s :: mkShapes rest
end

/-! ## Top-level entry points -/

/-- The shape of the top-level `Deserialize` request: which
`deserialize_*` method the derived impl for the requested type invokes on
`&mut Deserializer`. -/
inductive TopShape where
  | tStruct (name : Chars) (fields : Fields)
  | tUnitStruct (name : Chars)
  | tTupleStruct (name : Chars) (elems : Shapes)
  | tPrim
deriving Repr

/-- `Deserializer::check_no_trailing_tokens`, returning the (trimmed)
state. -/
def check_no_trailing_tokens (input : Chars) : (Except Err Unit) × Chars :=
  let inp := skip_whitespace input
  if inp.isEmpty then (.ok (), inp) else (.error .TrailingTokens, inp)

/-- Top-level decoding: the composition performed by `from_str` for the
given top shape.  Returns the outcome and the final state of the input
buffer; `none` models non-termination.  `tPrim` covers every shape that
`forward_to_deserialize_any!` routes to `deserialize_any` (bool, the
integers, floats, char, str/string, bytes, option, unit, seq, tuple, map,
identifier): the answer is `ExpectedStruct` before the input is read. -/
def topDecode : TopShape → Chars → Option ((Except Err Value) × Chars)
  | .tStruct nm flds, input =>
    let fds := mkFields flds
    match consume_beginning nm input with
    | (.error e, st) => some (.error e, st)
    | (.ok (), st) =>
      match visit_map fds (fds.length + 1) 0 none st with
      | none => none
      | some (.error e, rest) => some (.error e, rest)
      | some (.ok vs, rest) =>
        match check_no_trailing_tokens rest with
        | (.error e, rest') => some (.error e, rest')
        | (.ok (), rest') => some (.ok (.vStruct (.ofList vs)), rest')
  | .tUnitStruct nm, input =>
    match consume_beginning nm input with
    | (.error e, st) => some (.error e, st)
    | (.ok (), st) =>
      match st with
      | [] => some (.error .Eof, st)
      | c :: rest =>
        if c = ')' then
          match check_no_trailing_tokens rest with
          | (.error e, rest') => some (.error e, rest')
          | (.ok (), rest') => some (.ok .vUnit, rest')
        else some (.error .ExpectedEoe, rest)
  | .tTupleStruct nm es, input =>
    let ds := mkShapes es
    match consume_beginning nm input with
    | (.error e, st) => some (.error e, st)
    | (.ok (), st) =>
      match visit_tuple ds st false with
      | none => none
      | some (.error e, rest, _) => some (.error e, rest)
      | some (.ok vs, rest, _) =>
        match check_no_trailing_tokens rest with
        | (.error e, rest') => some (.error e, rest')
        | (.ok (), rest') => some (.ok (.vTuple (.ofList vs)), rest')
  | .tPrim, input => some (.error .ExpectedStruct, input)

/-- `de::from_str` for the given top shape (outcome only). -/
def from_str (t : TopShape) (input : Chars) : Option (Except Err Value) :=
  (topDecode t input).map (·.1)

/-- The rendering of the candidate-name list in the `untagged!` macro's
`expecting`/`invalid_value` message (`{:?}` of `&[&str]`). -/
def variantListStr (names : List Chars) : String :=
  "[" ++ String.intercalate ", " (names.map (fun n => "\"" ++ n.asString ++ "\"")) ++ "]"

/-- The `invalid_value` error raised by the `untagged!` visitor when no
candidate name matches. -/
def unexpectedVariantErr (got : Chars) (names : List Chars) : Err :=
  .Message ("invalid value: " ++ got.asString ++
    ", expected any s-expr with a name in " ++ variantListStr names)

/-- The `Deserialize` impl generated by the `untagged!` macro for
candidates `cands` (each candidate being its extracted head name — what
`NameExtractor` returns for the inner type, i.e. its declared sexpr name —
together with its top shape): `deserialize_enum` at top level peeks the
head identifier (`Enum::variant_seed`), the visitor dispatches to the first
candidate with that name (`newtype_variant` then re-enters full
deserialization of the candidate), and fails with `invalid_value` naming
the allowed set otherwise. -/
def untagged_from_str (cands : List (Chars × TopShape)) (input : Chars) :
    Option (Except Err (Nat × Value)) :=
  match peek_sexpr_identifier input with
  | .error e => some (.error e)
  | .ok id =>
    match firstIdxFrom id cands 0 with
    | some i =>
      match cands[i]? with
      | some c => (from_str c.2 input).map (fun r => r.map (fun v => (i, v)))
      | none => none
    | none => some (.error (unexpectedVariantErr id (cands.map (·.1))))

/-! ## The serializer (`src/ser/mod.rs`)

The serializer is modelled chunk-wise: each `serialize_*` call appends to
`buf`, so a call's effect is the emitted chunk; `lvl` (the nesting level)
is the only state that influences the chunk (`indent` is written but never
read).  `mkE` compiles a field shape to the behaviour of
`Field { ser, name }` for values of that shape. -/

/-- The serializer's error type (`src/ser/error.rs`). -/
inductive SerErr where
  | Message (s : String)
  | ExpectedStruct
  | UnnamedBoolean
  | UnnamedSeq
  | Char
  | Bytes
  | Unit
  | ComplexEnum
  | Map
deriving DecidableEq, Repr

/-- `Serializer::newline`: a newline plus two spaces per level. -/
def newlineChunk (lvl : Nat) : Chars := '\n' :: List.replicate (2 * lvl) ' '

/-- The separator `begin_sexpr` emits before `(`: nothing at level 0, a
newline-indent in pretty mode, a single space otherwise. -/
def sepChunk (pretty : Bool) (lvl : Nat) : Chars :=
  if 0 < lvl then (if pretty then newlineChunk lvl else [' ']) else []

/-- `Serializer::begin_sexpr` (the `lvl += 1` is reflected by the callers
emitting children at `lvl + 1`). -/
def begin_sexpr (pretty : Bool) (lvl : Nat) (name : Chars) : Chars :=
  sepChunk pretty lvl ++ '(' :: name

/-- The characters that force quoting in non-aggressive mode
(`const CHARS` in `Serializer::write_str`). -/
def quoteCHARS : List Char := [' ', '\t', '\n', '\r', '(', ')', '"']

/-- `v.replace('\\', r"\\").replace('"', r#"\""#)`. -/
def escapeStr (v : Chars) : Chars :=
  (v.flatMap (fun c => if c = '\\' then ['\\', '\\'] else [c])).flatMap
    (fun c => if c = '"' then ['\\', '"'] else [c])

/-- The quoting decision of `Serializer::write_str`. -/
def need_quotes (v : Chars) (aggressive : Bool) : Bool :=
  v.isEmpty ||
    (if aggressive then v.any (fun c => !isAsciiAlpha c && c ≠ '_')
     else v.any (fun c => quoteCHARS.contains c))

/-- `Serializer::write_str`: a leading space, then the (possibly quoted and
escaped) string. -/
def write_str (v : Chars) (aggressive : Bool) : Chars :=
  ' ' :: (if need_quotes v aggressive then '"' :: (escapeStr v ++ ['"']) else v)

/-- Digit–char accumulator for `natToDec`; `fuel ≥ n` guarantees
completion since `n / 10 < n` for `n > 0`. -/
def natToDecAux : Nat → Nat → Chars → Chars
  | 0, _, acc => acc
  | fuel + 1, n, acc =>
    if n = 0 then acc
    else natToDecAux fuel (n / 10) (Char.ofNat (48 + n % 10) :: acc)

/-- Decimal digits of a natural number, most significant first
(`itoa`'s output format). -/
def natToDec (n : Nat) : Chars :=
  if n = 0 then ['0'] else natToDecAux n n []

/-- `itoa`-formatted integer. -/
def intToDec (n : Int) : Chars :=
  if n < 0 then '-' :: natToDec (-n).toNat else natToDec n.toNat

/-- `Serializer::write_integer`: a leading space plus the decimal digits. -/
def write_integer (n : Int) : Chars := ' ' :: intToDec n

/-- Unpack a `Values`. -/
def Values.toList : Values → List Value
  | .nil => []
  | .cons v vs => v :: Values.toList vs

/-- The behaviour of the field serializer for one shape: given the pretty
flag, the current nesting level, and the field name (if any), serialize a
value to its chunk. -/
abbrev ECode := Bool → Nat → Option Chars → Value → Except SerErr Chars

/-- Sequence/tuple elements: each element is serialized through
`Field { name: None }`. -/
def encElems (f : ECode) (pretty : Bool) (lvl : Nat) : List Value → Except SerErr Chars
  | [] => .ok []
  | v :: vs =>
    match f pretty lvl none v, encElems f pretty lvl vs with
    | .error e, _ => .error e
    | _, .error e => .error e
    | .ok c, .ok cs => .ok (c ++ cs)

/-- Record fields: each field is serialized through
`Field { name: Some key }` (`SerializeStruct::serialize_field`). -/
def encRecordFields (pretty : Bool) (lvl : Nat) :
    List (Chars × ECode) → List Value → Except SerErr Chars
  | [], [] => .ok []
  | (nm, f) :: fds, v :: vs =>
    match f pretty lvl (some nm) v, encRecordFields pretty lvl fds vs with
    | .error e, _ => .error e
    | _, .error e => .error e
    | .ok c, .ok cs => .ok (c ++ cs)
  | _, _ => .error (.Message "value arity does not match shape")

/-- Tuple elements against declared element shapes. -/
def encTupleElems (pretty : Bool) (lvl : Nat) :
    List ECode → List Value → Except SerErr Chars
  | [], [] => .ok []
  | f :: fs, v :: vs =>
    match f pretty lvl none v, encTupleElems pretty lvl fs vs with
    | .error e, _ => .error e
    | _, .error e => .error e
    | .ok c, .ok cs => .ok (c ++ cs)
  | _, _ => .error (.Message "value arity does not match shape")

mutual
/-- Compile a field shape to its serializer behaviour, mirroring
`impl ser::Serializer for Field` case by case. -/
def mkE : FieldShape → ECode
  | .fBool => fun _ _ name v =>
    match v with
    | .vBool b =>
      match name with
      | none => .error .UnnamedBoolean
      | some nm => .ok (if b then write_str nm true else [])
    | _ => .error (.Message "value does not match shape")
  | .fInt _ _ _ => fun _ _ _ v =>
    match v with
    | .vInt n => .ok (write_integer n)
    | _ => .error (.Message "value does not match shape")
  | .fFloat => fun _ _ _ v =>
    match v with
    | .vFloat _ _ => .error (.Message "f32 formatting outside modelled fragment")
    | _ => .error (.Message "value does not match shape")
  | .fStr => fun _ _ _ v =>
    match v with
    | .vStr s => .ok (write_str s true)
    | _ => .error (.Message "value does not match shape")
  | .fOpt s =>
    let f := mkE s
    fun pretty lvl name v =>
      match v with
      | .vNone => .ok []
      | .vSome v' => f pretty lvl name v'
      | _ => .error (.Message "value does not match shape")
  | .fUnit nm => fun pretty lvl _ v =>
    match v with
    | .vUnit => .ok (begin_sexpr pretty lvl nm ++ [')'])
    | _ => .error (.Message "value does not match shape")
  | .fStruct nm flds =>
    let fds := mkFieldsE flds
    fun pretty lvl _ v =>
      match v with
      | .vStruct vs =>
        match encRecordFields pretty (lvl + 1) fds vs.toList with
        | .error e => .error e
        | .ok body => .ok (begin_sexpr pretty lvl nm ++ body ++ [')'])
      | _ => .error (.Message "value does not match shape")
  | .fTuple nm es =>
    let fs := mkShapesE es
    fun pretty lvl _ v =>
      match v with
      | .vTuple vs =>
        match encTupleElems pretty (lvl + 1) fs vs.toList with
        | .error e => .error e
        | .ok body => .ok (begin_sexpr pretty lvl nm ++ body ++ [')'])
      | _ => .error (.Message "value does not match shape")
  | .fSeq e =>
    let f := mkE e
    fun pretty lvl name v =>
      match v with
      | .vSeq vs =>
        match name with
        | none => .error .UnnamedSeq
        | some [] => encElems f pretty lvl vs.toList
        | some nm =>
          match encElems f pretty (lvl + 1) vs.toList with
          | .error e' => .error e'
          | .ok body => .ok (begin_sexpr pretty lvl nm ++ body ++ [')'])
      | _ => .error (.Message "value does not match shape")
  | .fEnum variants => fun _ _ _ v =>
    match v with
    | .vVariant i =>
      match variants.get? i with
      | some vn => .ok (write_str vn false)
      | none => .error (.Message "variant index out of range")
    | _ => .error (.Message "value does not match shape")

/-- Compile record fields to their serializer behaviours. -/
def mkFieldsE : Fields → List (Chars × ECode)
  | .nil => []
  | .cons n s rest => (n, mkE s) :: mkFieldsE rest

/-- Compile tuple element shapes to their serializer behaviours. -/
def mkShapesE : Shapes → List ECode
  | .nil => []
  | .cons s rest => mkE s :: mkShapesE rest
end

/-- `Field`'s serializer behaviour for one shape (convenience wrapper). -/
def encode_field (pretty : Bool) (lvl : Nat) (name : Option Chars)
    (σ : FieldShape) (v : Value) : Except SerErr Chars :=
  mkE σ pretty lvl name v

/-- Top-level serialization (`to_string` / `to_string_pretty` for the
given top shape).  Only structs reach a serializer method that does not
fail with `ExpectedStruct`. -/
def to_string_with (pretty : Bool) : TopShape → Value → Except SerErr Chars
  | .tStruct nm flds, .vStruct vs =>
    match encRecordFields pretty 1 (mkFieldsE flds) vs.toList with
    | .error e => .error e
    | .ok body => .ok ('(' :: nm ++ body ++ [')'])
  | .tUnitStruct nm, .vUnit => .ok ('(' :: nm ++ [')'])
  | .tTupleStruct nm es, .vTuple vs =>
    match encTupleElems pretty 1 (mkShapesE es) vs.toList with
    | .error e => .error e
    | .ok body => .ok ('(' :: nm ++ body ++ [')'])
  | .tPrim, _ => .error .ExpectedStruct
  | _, _ => .error (.Message "value does not match shape")

/-- `ser::to_string`. -/
def to_string (t : TopShape) (v : Value) : Except SerErr Chars :=
  to_string_with false t v

/-- `ser::to_string_pretty`. -/
def to_string_pretty (t : TopShape) (v : Value) : Except SerErr Chars :=
  to_string_with true t v

/-! ## The supported round-trip fragment (for C1)

The predicates below carve out, from the source's behaviours, the fragment
on which serialize-then-deserialize provably restores the value: schemas
whose names are identifier runs, distinct and with at most one trailing
empty-named sequence; no floats (their formatting is outside the modelled
fragment); positional (unnamed) slots restricted to shapes the serializer
can emit there; and, per position, the absence of the grammar ambiguities
the decoder's identifier-peeking and option-trial logic cannot resolve. -/

/-- First pass of `escapeStr`: `v.replace('\\', r"\\")`. -/
def doubleBS (v : Chars) : Chars :=
  v.flatMap (fun c => if c = '\\' then ['\\', '\\'] else [c])

/-- Second pass of `escapeStr`: `.replace('"', r#"\""#)`. -/
def escQ (v : Chars) : Chars :=
  v.flatMap (fun c => if c = '"' then ['\\', '"'] else [c])

/-- A delimiter position: end of input, ASCII whitespace, or `)`.  This is
what follows every emitted chunk, and it stops the decoder's atom and
identifier scans. -/
def delim (tail : Chars) : Bool :=
  match tail with
  | [] => true
  | c :: _ => isAsciiWs c || c = ')'

/-- A nonempty run of identifier characters (usable as a record field,
struct, tuple or sequence name). -/
def identName (nm : Chars) : Bool := !nm.isEmpty && nm.all isIdentChar

/-- The head of a stripped chunk: present, not whitespace, and not the
closing parenthesis (so `check_eoe` neither trims nor closes on it). -/
def goodHead : Chars → Bool
  | [] => false
  | c :: _ => !isUniWs c && !isAsciiWs c && decide (c ≠ ')')

/-- The declared names of a record's fields. -/
def fieldNames : Fields → List Chars
  | .nil => []
  | .cons nm _ rest => nm :: fieldNames rest

/-- Number of declared fields. -/
def sizeF : Fields → Nat
  | .nil => 0
  | .cons _ _ rest => sizeF rest + 1

/-- Number of values in a `Values`. -/
def countV : Values → Nat
  | .nil => 0
  | .cons _ vs => countV vs + 1

/-- Pairwise-distinct name list. -/
def distinctNames : List Chars → Bool
  | [] => true
  | n :: rest => rest.all (fun m => decide (m ≠ n)) && distinctNames rest

/-- A unit-variant name the codec transports faithfully: nonempty, and
either quoted on output (it contains a character of `CHARS`) or made only
of non-whitespace characters at least one of which is not a digit, `.` or
`-` (so the token scan classifies it as a string). -/
def goodVariant (vn : Chars) : Bool :=
  !vn.isEmpty &&
    (if need_quotes vn false then true
     else vn.all (fun c => !isUniWs c && !isAsciiWs c) &&
          vn.any (fun c => !(isAsciiDigit c || c = '.' || c = '-')))

mutual
/-- Shapes supported in positional (unnamed) slots: integers, strings,
unit / record / tuple structs with identifier names, and unit-variant
enums with distinct, faithful variant names.  Booleans, sequences and
optionals need a field name; floats are outside the modelled fragment. -/
def wfShape : FieldShape → Bool
  | .fInt _ _ _ => true
  | .fStr => true
  | .fUnit nm => identName nm
  | .fStruct nm flds => identName nm && wfFields flds
  | .fTuple nm es =>
    identName nm && (match es with | .nil => false | .cons _ _ => true) && wfShapesAll es
  | .fEnum vars => distinctNames vars && vars.all goodVariant
  | _ => false

/-- Shapes supported as a named record field: additionally booleans,
optionals of a positional shape, and sequences of a positional shape. -/
def wfEntry : FieldShape → Bool
  | .fBool => true
  | .fOpt s => wfShape s
  | .fSeq e => wfShape e
  | .fInt _ _ _ => true
  | .fStr => true
  | .fFloat => false
  | .fUnit nm => identName nm
  | .fStruct nm flds => identName nm && wfFields flds
  | .fTuple nm es =>
    identName nm && (match es with | .nil => false | .cons _ _ => true) && wfShapesAll es
  | .fEnum vars => distinctNames vars && vars.all goodVariant

/-- A supported declared field list: every field has an identifier name
not reused later, except that the last field may be named `""` and must
then be a sequence (the crate's trailing-elements idiom). -/
def wfFields : Fields → Bool
  | .nil => true
  | .cons nm s rest =>
    if nm = ([] : Chars) then
      (match s with | .fSeq e => wfShape e | _ => false) &&
      (match rest with | .nil => true | .cons _ _ _ => false)
    else
      identName nm && (fieldNames rest).all (fun m => decide (m ≠ nm)) &&
      wfEntry s && wfFields rest

/-- All tuple element shapes are positionally supported. -/
def wfShapesAll : Shapes → Bool
  | .nil => true
  | .cons s rest => wfShape s && wfShapesAll rest
end

mutual
/-- The value belongs to the shape (and to the modelled fragment):
integers in range, enum indices in bounds, recursive structure aligned. -/
def fits : FieldShape → Value → Bool
  | .fBool, .vBool _ => true
  | .fInt lo hi _, .vInt n => decide (lo ≤ n) && decide (n ≤ hi)
  | .fStr, .vStr _ => true
  | .fOpt _, .vNone => true
  | .fOpt s, .vSome v => fits s v
  | .fUnit _, .vUnit => true
  | .fStruct _ flds, .vStruct vs => fitsRecord flds vs
  | .fTuple _ es, .vTuple vs => fitsElems es vs
  | .fSeq e, .vSeq vs => fitsSeq e vs
  | .fEnum vars, .vVariant i => decide (i < vars.length)
  | _, _ => false

/-- Record values aligned with the declared fields. -/
def fitsRecord : Fields → Values → Bool
  | .nil, .nil => true
  | .cons _ s fr, .cons v vr => fits s v && fitsRecord fr vr
  | _, _ => false

/-- Tuple values aligned with the declared element shapes. -/
def fitsElems : Shapes → Values → Bool
  | .nil, .nil => true
  | .cons s es, .cons v vs => fits s v && fitsElems es vs
  | _, _ => false

/-- Sequence elements all of the element shape. -/
def fitsSeq : FieldShape → Values → Bool
  | _, .nil => true
  | e, .cons v vs => fits e v && fitsSeq e vs
end

/-- The value whose whole emitted chunk is the field's bare name (the
boolean-presence idiom). -/
def isTrueAtom : FieldShape → Value → Bool
  | .fBool, .vBool true => true
  | _, _ => false

/-- Values that emit nothing at a named field: `false` booleans and
absent options. -/
def isSilent : FieldShape → Value → Bool
  | .fBool, .vBool false => true
  | .fOpt _, .vNone => true
  | _, _ => false

/-- Values that emit nothing at the named field `nm` (additionally: the
empty-named trailing sequence with no elements). -/
def isSilentN (nm : Chars) (σ : FieldShape) (v : Value) : Bool :=
  isSilent σ v ||
    (decide (nm = ([] : Chars)) &&
      (match σ, v with | .fSeq _, .vSeq .nil => true | _, _ => false))

/-- The first field/value pair that emits output, with what remains after
it; `none` when every remaining field is silent. -/
def splitSilent : Fields → Values → Option (Chars × FieldShape × Value × Fields × Values)
  | .cons nm σ fr, .cons v vr =>
    if isSilentN nm σ v then splitSilent fr vr else some (nm, σ, v, fr, vr)
  | _, _ => none

/-- All remaining fields are silent. -/
def allSilentF (flds : Fields) (vs : Values) : Bool :=
  match splitSilent flds vs with
  | none => true
  | some _ => false

/-- Length of the leading run of silent field/value pairs (the offset of
the first emitter, when there is one). -/
def silentPrefixLen : Fields → Values → Nat
  | .cons nm σ fr, .cons v vr =>
    if isSilentN nm σ v then silentPrefixLen fr vr + 1 else 0
  | _, _ => 0

/-- The chunk a positional (unnamed) slot of shape `σ` emits for `v`
(empty on the serializer errors that `wfShape`/`fits` exclude). -/
def chunkOfN (pretty : Bool) (lvl : Nat) (σ : FieldShape) (v : Value) : Chars :=
  match mkE σ pretty lvl none v with
  | .ok c => c
  | .error _ => []

/-- The chunk the named field `nm` of shape `σ` emits for `v`. -/
def chunkOf (pretty : Bool) (lvl : Nat) (nm : Chars) (σ : FieldShape) (v : Value) : Chars :=
  match mkE σ pretty lvl (some nm) v with
  | .ok c => c
  | .error _ => []

/-- Concatenated chunks of a record's fields. -/
def chunksFields (pretty : Bool) (lvl : Nat) : Fields → Values → Chars
  | .cons nm σ fr, .cons v vr =>
    chunkOf pretty lvl nm σ v ++ chunksFields pretty lvl fr vr
  | _, _ => []

/-- Concatenated chunks of a tuple's elements. -/
def chunksTup (pretty : Bool) (lvl : Nat) : Shapes → Values → Chars
  | .cons σ es, .cons v vs =>
    chunkOfN pretty lvl σ v ++ chunksTup pretty lvl es vs
  | _, _ => []

/-- Concatenated chunks of a sequence's elements. -/
def chunksSeqE (pretty : Bool) (lvl : Nat) (e : FieldShape) : Values → Chars
  | .cons v vs => chunkOfN pretty lvl e v ++ chunksSeqE pretty lvl e vs
  | .nil => []

/-- The option-absence requirement: when field `nm` of inner shape `s` is
absent, the trial decode performed on whatever follows must fail without
consuming input and without touching a visitor. -/
def trialRejects (s : FieldShape) (nm : Chars) (after : Chars) : Bool :=
  match (mkD s).field (some nm) (skip_whitespace after) with
  | some (.error _, r, false) => decide (r = skip_whitespace after)
  | _ => false

/-- The per-position requirement of the record decode loop, for the field
`(nm, σ, v)` followed by `(fr, vr)` and, after the record's `)`, `tail`:
a boolean-true field needs nothing; a silent field needs the upcoming
head identifier (if any) to either belong to a boolean-true first emitter
(the legitimate skip-ahead) or to match no declared name, and an absent
option additionally needs the trial decode to reject; an emitting field
needs the head identifier of its own chunk to match no declared name. -/
def condAt (pretty : Bool) (lvl : Nat) (nm : Chars) (σ : FieldShape) (v : Value)
    (fr : Fields) (vr : Values) (tail : Chars) : Bool :=
  let after := chunksFields pretty lvl fr vr ++ ')' :: tail
  if isTrueAtom σ v then true
  else if isSilentN nm σ v then
    (match splitSilent fr vr with
     | none => true
     | some (_, σj, vj, _, _) =>
       if isTrueAtom σj vj then true
       else
         (match peek_identifier (skip_whitespace after) with
          | none => true
          | some h =>
            decide (h ≠ nm) && (fieldNames fr).all (fun m => decide (m ≠ h))) &&
         (match σ, v with
          | .fOpt s, .vNone => trialRejects s nm after
          | _, _ => true))
  else
    match peek_identifier (skip_whitespace (chunkOf pretty lvl nm σ v ++ after)) with
    | none => true
    | some h => decide (h ≠ nm) && (fieldNames fr).all (fun m => decide (m ≠ h))

mutual
/-- The positional requirements of a value, threaded with the text that
will follow its chunk at decode time. -/
def condVal (pretty : Bool) (lvl : Nat) : FieldShape → Value → Chars → Bool
  | .fStruct _ flds, .vStruct vs, tail => condFields pretty (lvl + 1) flds vs tail
  | .fTuple _ es, .vTuple vs, tail => condElems pretty (lvl + 1) es vs tail
  | .fSeq e, .vSeq vs, tail => condSeq pretty (lvl + 1) e vs tail
  | .fOpt s, .vSome v, tail => condVal pretty lvl s v tail
  | _, _, _ => true

/-- Positional requirements of a record (each position's `condAt` plus the
recursive requirements of each value). -/
def condFields (pretty : Bool) (lvl : Nat) : Fields → Values → Chars → Bool
  | .nil, .nil, _ => true
  | .cons nm σ fr, .cons v vr, tail =>
    condAt pretty lvl nm σ v fr vr tail &&
    (if nm = ([] : Chars) then
       (match σ, v with
        | .fSeq e, .vSeq el => condSeq pretty lvl e el tail
        | _, _ => false)
     else condVal pretty lvl σ v (chunksFields pretty lvl fr vr ++ ')' :: tail)) &&
    condFields pretty lvl fr vr tail
  | _, _, _ => false

/-- Positional requirements of a tuple's elements. -/
def condElems (pretty : Bool) (lvl : Nat) : Shapes → Values → Chars → Bool
  | .nil, .nil, _ => true
  | .cons σ es, .cons v vs, tail =>
    condVal pretty lvl σ v (chunksTup pretty lvl es vs ++ ')' :: tail) &&
    condElems pretty lvl es vs tail
  | _, _, _ => false

/-- Positional requirements of a sequence's elements. -/
def condSeq (pretty : Bool) (lvl : Nat) (e : FieldShape) : Values → Chars → Bool
  | .nil, _ => true
  | .cons v vs, tail =>
    condVal pretty lvl e v (chunksSeqE pretty lvl e vs ++ ')' :: tail) &&
    condSeq pretty lvl e vs tail
end

/-- The recursive requirement of one named field (the field-level view of
the second conjunct of `condFields`): the trailing empty-named sequence
threads its elements at the record's own level, every other field defers
to `condVal`. -/
def condValN (pretty : Bool) (lvl : Nat) (nm : Chars) (σ : FieldShape) (v : Value)
    (fr : Fields) (vr : Values) (tail : Chars) : Bool :=
  if nm = ([] : Chars) then
    (match σ, v with
     | .fSeq e, .vSeq el => condSeq pretty lvl e el tail
     | _, _ => false)
  else condVal pretty lvl σ v (chunksFields pretty lvl fr vr ++ ')' :: tail)

/-- A sample schema exercising every supported field kind (used by the C1
witness): boolean presence, a boolean that is absent, a nested tuple
struct, an absent and a present optional, a unit-variant enum, a nested
record, and the trailing empty-named sequence. -/
def sampleShape : TopShape :=
  .tStruct ("pad".toList)
    (.cons ("locked".toList) .fBool
      (.cons ("hide".toList) .fBool
        (.cons ("size".toList)
          (.fTuple ("size".toList) (.cons (.fInt (-(10 ^ 5)) (10 ^ 5) "i32")
            (.cons .fStr .nil)))
          (.cons ("drill".toList) (.fOpt (.fInt (-100) 100 "i8"))
            (.cons ("shape".toList) (.fEnum ["circle".toList, "rect".toList])
              (.cons ("at".toList)
                (.fStruct ("at".toList)
                  (.cons ("x".toList) (.fInt (-(10 ^ 5)) (10 ^ 5) "i32") .nil))
                (.cons ("ofs".toList) (.fOpt (.fUnit ("ofs".toList)))
                  (.cons ([] : Chars) (.fSeq .fStr) .nil))))))))

/-- A sample value of `sampleShape`. -/
def sampleValue : Value :=
  .vStruct
    (.cons (.vBool true)
      (.cons (.vBool false)
        (.cons (.vTuple (.cons (.vInt 12) (.cons (.vStr ("a b".toList)) .nil)))
          (.cons .vNone
            (.cons (.vVariant 1)
              (.cons (.vStruct (.cons (.vInt (-3)) .nil))
                (.cons (.vSome .vUnit)
                  (.cons (.vSeq (.cons (.vStr ("np".toList)) .nil)) .nil))))))))

/-- `wfShape`/`wfFields` at the top level. -/
def wfTop : TopShape → Bool
  | .tStruct nm flds => identName nm && wfFields flds
  | .tUnitStruct nm => identName nm
  | .tTupleStruct nm es =>
    identName nm && (match es with | .nil => false | .cons _ _ => true) && wfShapesAll es
  | .tPrim => false

/-- `fits` at the top level. -/
def fitsTop : TopShape → Value → Bool
  | .tStruct _ flds, .vStruct vs => fitsRecord flds vs
  | .tUnitStruct _, .vUnit => true
  | .tTupleStruct _ es, .vTuple vs => fitsElems es vs
  | _, _ => false

/-- The positional requirements at the top level (nothing follows the
outermost closing parenthesis). -/
def condTop (t : TopShape) (v : Value) (pretty : Bool) : Bool :=
  match t, v with
  | .tStruct _ flds, .vStruct vs => condFields pretty 1 flds vs []
  | .tUnitStruct _, .vUnit => true
  | .tTupleStruct _ es, .vTuple vs => condElems pretty 1 es vs []
  | _, _ => false

/-- Every result state of a field deserializer is a suffix of its input
(the per-shape form of the C9 invariant). -/
def DSuffix (d : D) : Prop :=
  ∀ (ident : Option Chars) (input : Chars) (r : Except Err Value) (rest : Chars) (t : Bool),
    d.field ident input = some (r, rest, t) → List.IsSuffix rest input

/-! ## C6 — token classification -/

/-- The classification described by the specification, as one forward scan
dispatching on each character in order: a `(` anywhere before a break fixes
`SExpr`; any character other than a digit, `.`, `-` or whitespace forces
`String`; otherwise the scan ends at whitespace or end of input and the
token is `Int` unless a `.` was seen, in which case `Float`.
Modelled from the spec for comparison with `peek_token`. -/
def classifySpec (input : Chars) : Except Err Token :=
  match input with
  | [] => .error .Eof
  | _ => .ok (go input false)
where
  /-- Scan with `dotSeen` accumulating whether a `.` occurred. -/
  go : Chars → Bool → Token
    | [], dotSeen => if dotSeen then .Float else .Int
    | c :: cs, dotSeen =>
      if c = '(' then .SExpr
      else if isAsciiWs c then (if dotSeen then .Float else .Int)
      else if c = '.' then go cs true
      else if c = '-' || isAsciiDigit c then go cs dotSeen
      else .String

theorem peek_token_loop_eq_go : ∀ (input : Chars) (int : Bool),
    peek_token_loop input int = classifySpec.go input (!int)
  | [], int => by cases int <;> rfl
  | c :: cs, int => by
    by_cases h1 : c = '('
    · simp [peek_token_loop, classifySpec.go, h1]
    by_cases h2 : c = '.'
    · subst h2
      simp [peek_token_loop, classifySpec.go, h1, isAsciiWs,
        peek_token_loop_eq_go cs false]
    by_cases h3 : c = '-'
    · subst h3
      simp [peek_token_loop, classifySpec.go, h1, h2, isAsciiWs,
        peek_token_loop_eq_go cs int]
    by_cases h4 : isAsciiWs c
    · cases int <;> simp [peek_token_loop, classifySpec.go, h1, h2, h3, h4]
    by_cases h5 : isAsciiDigit c
    · simp [peek_token_loop, classifySpec.go, h1, h2, h3, h4, h5,
        peek_token_loop_eq_go cs int]
    · simp [peek_token_loop, classifySpec.go, h1, h2, h3, h4, h5]

/-- C6: token classification of the upcoming input is computed by one
forward scan: a `(` at any point before a break yields `SExpr`; any
character other than a digit, `.`, `-` or whitespace yields `String`;
otherwise the token is `Int` if no `.` was seen and `Float` if one was;
classification of non-empty input never fails, and empty input yields
`Eof`.  Formally: `peek_token` coincides with the scan `classifySpec`
written from the specification's clauses, and in particular is `Eof`
exactly on empty input and `ok` otherwise. -/
theorem C6_peek_token_classification :
    (∀ input : Chars, peek_token input = classifySpec input) ∧
    peek_token [] = .error .Eof ∧
    (∀ input : Chars, input ≠ [] → ∃ t, peek_token input = .ok t) := by
  refine ⟨fun input => ?_, rfl, fun input h => ?_⟩
  · cases input with
    | nil => rfl
    | cons c cs =>
      show Except.ok (peek_token_loop (c :: cs) true) = _
      rw [peek_token_loop_eq_go]
      rfl
  · cases input with
    | nil => exact absurd rfl h
    | cons c cs => exact ⟨_, rfl⟩

/-! ## C10 — non-struct top-level requests -/

/-- C10: requesting a top-level decode of any non-composite shape (the
shapes `forward_to_deserialize_any!` routes to `deserialize_any`: bool,
the integer and float widths, char, str/string, bytes, option, unit, seq,
tuple, map, identifier) fails with `ExpectedStruct` without consuming any
input, for every input — the input is not examined at all. -/
theorem C10_primitive_top_level_expected_struct (input : Chars) :
    topDecode .tPrim input = some (.error .ExpectedStruct, input) := rfl

/-- Witness for `C10_primitive_top_level_expected_struct` (empty and
well-formed inputs equally). -/
theorem C10_primitive_top_level_expected_struct_witness :
    topDecode .tPrim [] = some (.error .ExpectedStruct, []) ∧
    from_str .tPrim ("(locked)".toList) = some (.error .ExpectedStruct) :=
  ⟨C10_primitive_top_level_expected_struct [], by decide⟩

/-! ## C8 — trailing-token rejection -/

/-- C8: after a complete top-level decode, any remaining non-whitespace
input fails the whole decode with `TrailingTokens`.  For each composite
top shape: if the decode up to the trailing check succeeded but the
remaining input is not whitespace-only, the result is `TrailingTokens`. -/
theorem C8_trailing_tokens :
    (∀ (nm : Chars) (flds : Fields) (input st : Chars) (vs : List Value) (rest : Chars),
      consume_beginning nm input = (.ok (), st) →
      visit_map (mkFields flds) ((mkFields flds).length + 1) 0 none st = some (.ok vs, rest) →
      skip_whitespace rest ≠ [] →
      from_str (.tStruct nm flds) input = some (.error .TrailingTokens)) ∧
    (∀ (nm : Chars) (input st rest : Chars),
      consume_beginning nm input = (.ok (), st) → st = ')' :: rest →
      skip_whitespace rest ≠ [] →
      from_str (.tUnitStruct nm) input = some (.error .TrailingTokens)) ∧
    (∀ (nm : Chars) (es : Shapes) (input st : Chars) (vs : List Value) (rest : Chars) (ed : Bool),
      consume_beginning nm input = (.ok (), st) →
      visit_tuple (mkShapes es) st false = some (.ok vs, rest, ed) →
      skip_whitespace rest ≠ [] →
      from_str (.tTupleStruct nm es) input = some (.error .TrailingTokens)) := by
  refine ⟨fun nm flds input st vs rest h1 h2 h3 => ?_,
    fun nm input st rest h1 h2 h3 => ?_,
    fun nm es input st vs rest ed h1 h2 h3 => ?_⟩
  · simp [from_str, topDecode, h1, h2, check_no_trailing_tokens,
      List.isEmpty_iff, h3]
  · subst h2
    simp [from_str, topDecode, h1, check_no_trailing_tokens,
      List.isEmpty_iff, h3]
  · simp [from_str, topDecode, h1, h2, check_no_trailing_tokens,
      List.isEmpty_iff, h3]

/-- Witness: `(locked) extra` fails with `TrailingTokens` (via the
theorem), while `(locked)` succeeds. -/
theorem C8_trailing_tokens_witness :
    from_str (.tUnitStruct ("locked".toList)) ("(locked) extra".toList) =
      some (.error .TrailingTokens) ∧
    from_str (.tUnitStruct ("locked".toList)) ("(locked)".toList) = some (.ok .vUnit) :=
  ⟨C8_trailing_tokens.2.1 ("locked".toList) ("(locked) extra".toList)
      (") extra".toList) (" extra".toList) (by decide) (by decide) (by decide),
    by decide⟩

/-! ## C4 — the optional-value resolver -/

/-- C4: the optional-value resolver returns `Ok(None)` exactly when the
inner trial decode fails with the touched flag unset (and then the input is
left as the trial left it); a failure with the flag set propagates the
error unchanged; success with `x` yields `Ok(Some x)`.  The final conjunct
is the converse direction of "exactly": an `Ok(None)` answer can only arise
from an untouched failure. -/
theorem C4_option_resolver (σ : FieldShape) (ident : Option Chars) (input : Chars) :
    (∀ e rest, (mkD σ).field ident input = some (.error e, rest, false) →
      (mkD (.fOpt σ)).field ident input = some (.ok .vNone, rest, false)) ∧
    (∀ e rest, (mkD σ).field ident input = some (.error e, rest, true) →
      (mkD (.fOpt σ)).field ident input = some (.error e, rest, true)) ∧
    (∀ v rest t, (mkD σ).field ident input = some (.ok v, rest, t) →
      (mkD (.fOpt σ)).field ident input = some (.ok (.vSome v), rest, t)) ∧
    (∀ rest t, (mkD (.fOpt σ)).field ident input = some (.ok .vNone, rest, t) →
      ∃ e, (mkD σ).field ident input = some (.error e, rest, false)) := by
  refine ⟨fun e rest h => ?_, fun e rest h => ?_, fun v rest t h => ?_, fun rest t h => ?_⟩
  · simp [mkD, optD, h]
  · simp [mkD, optD, h]
  · simp [mkD, optD, h]
  · simp only [mkD, optD] at h
    cases hf : (mkD σ).field ident input with
    | none => rw [hf] at h; cases h
    | some res =>
      obtain ⟨r, rest', t'⟩ := res
      rw [hf] at h
      cases r with
      | ok v => simp at h
      | error e =>
        cases t' with
        | true => simp at h
        | false =>
          simp only [Bool.false_eq_true, if_false, Option.some.injEq,
            Prod.mk.injEq] at h
          exact ⟨e, by rw [h.2.1]⟩

/-- Witness for the option resolver: at `rot: Option<i16>` against `-90)`
the trial succeeds (`Some (-90)`); against `)` the trial fails untouched
(`None`); against a malformed-but-touched input the error propagates. -/
theorem C4_option_resolver_witness :
    ((mkD (.fInt (-(2 ^ 15)) (2 ^ 15 - 1) "i16")).field (some ("rot".toList)) ("-90)".toList) =
      some (.ok (.vInt (-90)), [')'], true) ∧
      (mkD (.fOpt (.fInt (-(2 ^ 15)) (2 ^ 15 - 1) "i16"))).field (some ("rot".toList)) ("-90)".toList) =
        some (.ok (.vSome (.vInt (-90))), [')'], true)) ∧
    (∃ e, (mkD (.fInt (-(2 ^ 15)) (2 ^ 15 - 1) "i16")).field (some ("rot".toList)) [')'] =
        some (.error e, [')'], false) ∧
      (mkD (.fOpt (.fInt (-(2 ^ 15)) (2 ^ 15 - 1) "i16"))).field (some ("rot".toList)) [')'] =
        some (.ok .vNone, [')'], false)) := by
  refine ⟨⟨by decide, ?_⟩, ⟨.ExpectedNumber, by decide, ?_⟩⟩
  · exact (C4_option_resolver (.fInt (-(2 ^ 15)) (2 ^ 15 - 1) "i16")
      (some ("rot".toList)) ("-90)".toList)).2.2.1 _ _ _ (by decide)
  · exact (C4_option_resolver (.fInt (-(2 ^ 15)) (2 ^ 15 - 1) "i16")
      (some ("rot".toList)) [')']).1 .ExpectedNumber _ (by decide)

/-! ## C5 — string quoting on encode (corrected) -/

theorem escapeStr_cons (c : Char) (cs : Chars) :
    escapeStr (c :: cs) =
      (if c = '\\' then ['\\', '\\'] else if c = '"' then ['\\', '"'] else [c]) ++
        escapeStr cs := by
  simp only [escapeStr, List.flatMap_cons, List.flatMap_append]
  by_cases h1 : c = '\\'
  · subst h1; simp
  · by_cases h2 : c = '"'
    · subst h2; simp
    · simp [h1, h2]

/-- `replace('\\', r"\\")` then `replace('"', r#"\""#)` is the single
left-to-right pass escaping each `\` and `"` with a backslash. -/
theorem escapeStr_flatMap (v : Chars) :
    escapeStr v = v.flatMap (fun c =>
      if c = '\\' then ['\\', '\\'] else if c = '"' then ['\\', '"'] else [c]) := by
  induction v with
  | nil => rfl
  | cons c cs ih => rw [escapeStr_cons, List.flatMap_cons, ih]

/-- C5 counterexample: the claim says a string value is quoted exactly when
empty or containing whitespace/parenthesis/quote, and that the aggressive
rule applies to enum variant tags.  In the code it is the opposite: the
string value `1` (nonempty, no whitespace/parenthesis/quote character) *is*
quoted, and the variant tag `a-b` (which contains a non-alphabetic
non-underscore character, so the aggressive rule would quote it) is *not*
quoted. -/
theorem C5_counterexample :
    (¬ ("1".toList = [] ∨ ∃ c ∈ "1".toList, c ∈ quoteCHARS)) ∧
    encode_field false 1 (some ("f".toList)) .fStr (.vStr ("1".toList)) =
      .ok [' ', '"', '1', '"'] ∧
    (∃ c ∈ "a-b".toList, ¬ (isAsciiAlpha c = true ∨ c = '_')) ∧
    encode_field false 1 (some ("f".toList)) (.fEnum ["a-b".toList]) (.vVariant 0) =
      .ok (' ' :: "a-b".toList) := by
  refine ⟨by decide, by decide, ⟨'-', by decide, by decide⟩, by decide⟩

/-- C5 amended: on encode, a string *value* (and the field-name atom of a
`true` boolean) is quoted by the aggressive rule — exactly when empty or
containing any character that is not an ASCII letter or underscore — while
a unit enum variant tag is quoted by the basic rule — exactly when empty or
containing whitespace, parenthesis or quote characters; inside a quoted
string, `\` and `"` are escaped with a backslash. -/
theorem C5_amended (v : Chars) :
    (need_quotes v true = true ↔ v = [] ∨ ∃ c ∈ v, ¬ (isAsciiAlpha c = true ∨ c = '_')) ∧
    (need_quotes v false = true ↔ v = [] ∨ ∃ c ∈ v, c ∈ quoteCHARS) ∧
    (write_str v true =
      ' ' :: (if need_quotes v true then '"' :: (escapeStr v ++ ['"']) else v)) ∧
    (encode_field false 1 none .fStr (.vStr v) = .ok (write_str v true)) ∧
    (∀ nm : Chars, encode_field false 1 (some nm) .fBool (.vBool true) =
      .ok (write_str nm true)) ∧
    (∀ (variants : List Chars) (i : Nat) (vn : Chars), variants[i]? = some vn →
      encode_field false 1 none (.fEnum variants) (.vVariant i) =
      .ok (write_str vn false)) ∧
    (escapeStr v = v.flatMap (fun c =>
      if c = '\\' then ['\\', '\\'] else if c = '"' then ['\\', '"'] else [c])) := by
  refine ⟨?_, ?_, rfl, rfl, fun nm => rfl, fun variants i vn h => ?_, escapeStr_flatMap v⟩
  · simp [need_quotes, List.isEmpty_iff, List.any_eq_true, not_or, Bool.and_eq_true,
      Bool.not_eq_true']
  · simp [need_quotes, List.isEmpty_iff, List.any_eq_true, quoteCHARS]
  · simp [encode_field, mkE, h]

/-- Witness for `C5_amended`'s variant conjunct, at the repository's own
variant tag `thru-hole` (unquoted because it has no whitespace, parenthesis
or quote — even though it fails the aggressive rule). -/
theorem C5_amended_witness :
    encode_field false 1 none (.fEnum ["thru-hole".toList, "smd".toList]) (.vVariant 0) =
      .ok (' ' :: "thru-hole".toList) ∧
    need_quotes ("thru-hole".toList) true = true := by
  constructor
  · rw [(C5_amended []).2.2.2.2.2.1 ["thru-hole".toList, "smd".toList] 0
      ("thru-hole".toList) (by decide)]
    decide
  · decide

/-! ## C2 — boolean field detection and the skip-to mechanism (corrected) -/

/-- C2 counterexample: with declared fields `[a, b]` (both booleans) and
input `b)`, the claim says the identifier `b` is *not* consumed when the
out-of-order match sets `skip-to`; in the code the identifier *is* consumed
at that point — the remaining input is `)` and no longer begins with an
identifier. -/
theorem C2_counterexample :
    next_value_seed [("a".toList, mkD .fBool), ("b".toList, mkD .fBool)] 0 none
        ("b)".toList) =
      some (.ok (.vBool false), [')'], some 1) ∧
    peek_identifier [')'] = none := by decide

/-- C2 amended: when the next token is a bare identifier equal to the
current declared field name, it is consumed and the field yields `true`;
when it instead equals a *later* declared field name (first such index
`i`), the identifier is consumed immediately, `skip-to` is set to `i`, and
the current field yields the `MissingField` result; once `index` reaches
`i` (`skip-to = index`), the field yields `true` without reading input, and
while `skip-to` is set to a different index the field yields the
`MissingField` result without reading input. -/
theorem C2_amended (fds : List (Chars × D)) (index : Nat) (input : Chars)
    (ident : Chars) (h : index < fds.length) :
    (peek_identifier input = some ident → (fds.get ⟨index, h⟩).1 = ident →
      next_value_seed fds index none input =
        some ((fds.get ⟨index, h⟩).2.tru.1, input.drop ident.length, none)) ∧
    (∀ i, peek_identifier input = some ident → (fds.get ⟨index, h⟩).1 ≠ ident →
      findLater fds (index + 1) ident = some i →
      next_value_seed fds index none input =
        some ((fds.get ⟨index, h⟩).2.miss.1, input.drop ident.length, some i)) ∧
    (next_value_seed fds index (some index) input =
      some ((fds.get ⟨index, h⟩).2.tru.1, input, none)) ∧
    (∀ k, k ≠ index → next_value_seed fds index (some k) input =
      some ((fds.get ⟨index, h⟩).2.miss.1, input, some k)) := by
  refine ⟨fun hp he => ?_, fun i hp hne hf => ?_, ?_, fun k hk => ?_⟩
  · have he' : fds[index].1 = ident := by simpa [List.get_eq_getElem] using he
    simp [next_value_seed, h, hp, he', List.get_eq_getElem]
  · have hne' : ¬ fds[index].1 = ident := by simpa [List.get_eq_getElem] using hne
    simp [next_value_seed, h, hp, hne', hf, List.get_eq_getElem]
  · simp [next_value_seed, h, List.get_eq_getElem]
  · simp [next_value_seed, h, hk, List.get_eq_getElem]

/-- Witness for `C2_amended`, discharging the hypotheses on the
`[a, b]`/`b)` instance: detection consumes the identifier and sets
`skip-to := 1`; at index 1 with `skip-to = 1` the field yields `true`
without consuming. -/
theorem C2_amended_witness :
    next_value_seed [("a".toList, mkD .fBool), ("b".toList, mkD .fBool)] 0 none
        ("b)".toList) = some (.ok (.vBool false), [')'], some 1) ∧
    next_value_seed [("a".toList, mkD .fBool), ("b".toList, mkD .fBool)] 1 (some 1)
        [')'] = some (.ok (.vBool true), [')'], none) := by
  constructor
  · exact (C2_amended [("a".toList, mkD .fBool), ("b".toList, mkD .fBool)] 0
      ("b)".toList) ("b".toList) (by decide)).2.1 1 (by decide) (by decide) (by decide)
  · exact (C2_amended [("a".toList, mkD .fBool), ("b".toList, mkD .fBool)] 1
      [')'] ("b".toList) (by decide)).2.2.1

/-! ## C3 — end-of-expression and the `n + 1` sentinel -/

theorem skip_whitespace_idem (input : Chars) :
    skip_whitespace (skip_whitespace input) = skip_whitespace input := by
  induction input with
  | nil => rfl
  | cons c cs ih =>
    by_cases h : isUniWs c
    · simpa [skip_whitespace, h] using ih
    · simp [skip_whitespace, h]

/-- `MissingField` values of a trailing segment of the declared fields:
the sentinel loop must produce exactly these. -/
theorem visit_map_sentinel : ∀ (cd : Nat) (fds : List (Chars × D)) (index : Nat)
    (input : Chars) (missVals : List Value),
    index ≤ fds.length →
    fds.length + 1 - index ≤ cd →
    (fds.drop index).map (fun nd => nd.2.miss.1) = missVals.map .ok →
    (∀ nd ∈ fds.drop index, nd.1 ≠ ([] : Chars)) →
    visit_map fds cd index (some (fds.length + 1)) input =
      some (.ok missVals, skip_whitespace input)
  | 0, fds, index, input, missVals, hle, hcd, hmiss, hne => by omega
  | cd + 1, fds, index, input, missVals, hle, hcd, hmiss, hne => by
    simp only [visit_map, check_eoe]
    by_cases hidx : index < fds.length
    · have hget : fds[index] ∈ fds.drop index := by
        have : fds[index]? = some fds[index] := by
          simp [List.getElem?_eq_getElem hidx]
        rw [List.mem_iff_getElem?]
        exact ⟨0, by simp [List.getElem?_drop, List.getElem?_eq_getElem hidx]⟩
      have hne0 : fds[index].1 ≠ ([] : Chars) := hne _ hget
      have hskip : skipEmpties fds (fds.length - index) index (some (fds.length + 1)) =
          ([], index, some (fds.length + 1)) := by
        cases hfi : fds.length - index with
        | zero => omega
        | succ k =>
          simp only [skipEmpties, dif_pos hidx]
          rw [if_neg (by simp [hne0])]
      rw [hskip]
      simp only [if_neg (by omega : ¬ index ≥ fds.length)]
      have hne2 : ¬ (fds.length + 1 = index) := by omega
      have hnv : next_value_seed fds index (some (fds.length + 1)) (skip_whitespace input) =
          some (fds[index].2.miss.1, skip_whitespace input, some (fds.length + 1)) := by
        simp [next_value_seed, hidx, hne2, List.get_eq_getElem]
      rw [hnv]
      have hdrop : fds.drop index = fds[index] :: fds.drop (index + 1) :=
        List.drop_eq_getElem_cons hidx
      rw [hdrop, List.map_cons] at hmiss
      cases missVals with
      | nil => cases hmiss
      | cons mv mvs =>
        rw [List.map_cons] at hmiss
        injection hmiss with h1 h2
        rw [h1]
        simp only [check_eoe, skip_whitespace_idem]
        rw [visit_map_sentinel cd fds (index + 1) (skip_whitespace input) mvs
          (by omega) (by omega) h2
          (fun nd hnd => hne nd (by rw [hdrop]; exact List.mem_cons_of_mem _ hnd))]
        simp [skip_whitespace_idem]
    · have hdrop : fds.drop index = [] := List.drop_eq_nil_of_le (by omega)
      rw [hdrop] at hmiss hne
      cases missVals with
      | cons mv mvs => cases hmiss
      | nil =>
        have hskip : skipEmpties fds (fds.length - index) index (some (fds.length + 1)) =
            ([], index, some (fds.length + 1)) := by
          cases hfi : fds.length - index with
          | zero => rfl
          | succ k => omega
        rw [hskip]
        simp [if_pos (by omega : index ≥ fds.length)]

/-- C3: when the closing parenthesis is reached while `skip-to` is unset,
`check_eoe` consumes it and sets the sentinel `n + 1`; under that sentinel
every remaining declared field resolves to its `MissingField` result
(boolean `false` / option absent) with no further reads — the input is
only ever whitespace-trimmed, never consumed. -/
theorem C3_eoe_sentinel :
    (∀ (n : Nat) (input rest : Chars), skip_whitespace input = ')' :: rest →
      check_eoe n input none = .ok (rest, some (n + 1))) ∧
    (∀ (fds : List (Chars × D)) (index : Nat) (h : index < fds.length) (inp : Chars),
      next_value_seed fds index (some (fds.length + 1)) inp =
        some ((fds.get ⟨index, h⟩).2.miss.1, inp, some (fds.length + 1))) ∧
    (∀ (cd : Nat) (fds : List (Chars × D)) (index : Nat) (input : Chars)
        (missVals : List Value),
      index ≤ fds.length →
      fds.length + 1 - index ≤ cd →
      (fds.drop index).map (fun nd => nd.2.miss.1) = missVals.map .ok →
      (∀ nd ∈ fds.drop index, nd.1 ≠ ([] : Chars)) →
      visit_map fds cd index (some (fds.length + 1)) input =
        some (.ok missVals, skip_whitespace input)) := by
  refine ⟨fun n input rest hskip => ?_, fun fds index h inp => ?_, visit_map_sentinel⟩
  · simp [check_eoe, hskip]
  · have hne2 : ¬ (fds.length + 1 = index) := by omega
    simp [next_value_seed, h, hne2, List.get_eq_getElem]

/-- Witness for C3: decoding `(at 1.23 -4.56)` against the schema
`[x, y, rot]` (`rot` optional) yields `rot = None`, and the sentinel
equations hold on the concrete tail `)`. -/
theorem C3_eoe_sentinel_witness :
    check_eoe 3 (" )tail".toList) none = .ok ("tail".toList, some 4) ∧
    from_str (.tStruct ("at".toList)
        (.cons ("x".toList) .fFloat (.cons ("y".toList) .fFloat
          (.cons ("rot".toList) (.fOpt (.fInt (-(2 ^ 15)) (2 ^ 15 - 1) "i16")) .nil))))
        ("(at 1.23 -4.56)".toList) =
      some (.ok (.vStruct (.ofList [.vFloat 123 100,
        .vFloat (-114) 25, .vNone]))) := by
  constructor
  · exact C3_eoe_sentinel.1 3 (" )tail".toList) ("tail".toList) (by decide)
  · decide

/-! ## C7 — untagged-variant dispatch -/

/-- A successful `firstIdxFrom` search finds a matching element, and under
distinctness of the keys it is the unique match. -/
theorem firstIdxFrom_some {β : Type} (ident : Chars) :
    ∀ (l : List (Chars × β)) (off i : Nat), firstIdxFrom ident l off = some i →
      ∃ k, i = off + k ∧ ∃ c, l[k]? = some c ∧ c.1 = ident ∧
        ((l.map (·.1)).Nodup → ∀ j c', l[j]? = some c' → c'.1 = ident → j = k)
  | [], off, i, h => by cases h
  | c :: cs, off, i, h => by
    by_cases hc : c.1 = ident
    · rw [firstIdxFrom, if_pos hc] at h
      injection h with h
      refine ⟨0, h.symm, c, by simp, hc, fun hnodup j c' hj hc' => ?_⟩
      cases j with
      | zero => rfl
      | succ j =>
        exfalso
        simp only [List.map_cons, List.nodup_cons] at hnodup
        refine hnodup.1 ?_
        rw [hc, ← hc']
        refine List.mem_map_of_mem _ ?_
        rw [List.getElem?_cons_succ] at hj
        exact List.getElem?_mem hj
    · rw [firstIdxFrom, if_neg hc] at h
      obtain ⟨k, hik, c', hget, hcid, huniq⟩ := firstIdxFrom_some ident cs (off + 1) i h
      refine ⟨k + 1, by omega, c', by simpa using hget, hcid,
        fun hnodup j ck hj hck => ?_⟩
      simp only [List.map_cons, List.nodup_cons] at hnodup
      cases j with
      | zero =>
        exfalso
        rw [List.getElem?_cons_zero] at hj
        injection hj with hj
        subst hj
        exact hc hck
      | succ j =>
        rw [List.getElem?_cons_succ] at hj
        exact congrArg Nat.succ (huniq hnodup.2 j ck hj hck)

/-- `firstIdxFrom` fails exactly on lists with no matching key. -/
theorem firstIdxFrom_none {β : Type} (ident : Chars) :
    ∀ (l : List (Chars × β)) (off : Nat), (∀ c ∈ l, c.1 ≠ ident) →
      firstIdxFrom ident l off = none
  | [], _, _ => rfl
  | c :: cs, off, h => by
    rw [firstIdxFrom, if_neg (h c (List.mem_cons_self c cs))]
    exact firstIdxFrom_none ident cs (off + 1) (fun c' hc' => h c' (List.mem_cons_of_mem c hc'))

/-- C7: untagged dispatch peeks the head identifier and decodes via the
matching candidate; with pairwise-distinct candidate names the match is the
*unique* candidate with that name; if no candidate matches, the decode
fails with the `invalid_value` error naming the allowed set. -/
theorem C7_untagged_dispatch (cands : List (Chars × TopShape)) (input : Chars)
    (id : Chars) (hpeek : peek_sexpr_identifier input = .ok id) :
    (∀ i, firstIdxFrom id cands 0 = some i →
      ∃ c, cands[i]? = some c ∧ c.1 = id ∧
        untagged_from_str cands input =
          (from_str c.2 input).map (fun r => r.map (fun v => (i, v))) ∧
        ((cands.map (·.1)).Nodup →
          ∀ j c', cands[j]? = some c' → c'.1 = id → j = i)) ∧
    ((∀ c ∈ cands, c.1 ≠ id) →
      untagged_from_str cands input =
        some (.error (unexpectedVariantErr id (cands.map (·.1))))) := by
  constructor
  · intro i hfind
    obtain ⟨k, hik, c, hget, hcid, huniq⟩ := firstIdxFrom_some id cands 0 i hfind
    have hk : i = k := by omega
    subst hk
    refine ⟨c, hget, hcid, ?_, huniq⟩
    simp [untagged_from_str, hpeek, hfind, hget]
  · intro hnone
    have hfind : firstIdxFrom id cands 0 = none := firstIdxFrom_none id cands 0 hnone
    simp [untagged_from_str, hpeek, hfind]

/-- Witness for C7 on the repository's own `untagged!` test: candidates
`Foo` (head `foo`) and `Bar` (head `bar`); `(foo)` yields variant 0,
`(bar)` yields variant 1, `(baz)` fails naming `["foo", "bar"]`. -/
theorem C7_untagged_dispatch_witness :
    untagged_from_str [("foo".toList, .tUnitStruct ("foo".toList)),
        ("bar".toList, .tUnitStruct ("bar".toList))] ("(foo)".toList) =
      some (.ok (0, .vUnit)) ∧
    untagged_from_str [("foo".toList, .tUnitStruct ("foo".toList)),
        ("bar".toList, .tUnitStruct ("bar".toList))] ("(bar)".toList) =
      some (.ok (1, .vUnit)) ∧
    untagged_from_str [("foo".toList, .tUnitStruct ("foo".toList)),
        ("bar".toList, .tUnitStruct ("bar".toList))] ("(baz)".toList) =
      some (.error (unexpectedVariantErr ("baz".toList) ["foo".toList, "bar".toList])) := by
  refine ⟨by decide, by decide, ?_⟩
  exact (C7_untagged_dispatch [("foo".toList, .tUnitStruct ("foo".toList)),
    ("bar".toList, .tUnitStruct ("bar".toList))] ("(baz)".toList) ("baz".toList)
    (by decide)).2 (by decide)

/-! ## C9 — the monotone cursor invariant

Every decoding operation leaves the remaining input a suffix of what it was
before, on success and on error alike.  `DSuffix` states this for a
compiled field deserializer; it is proved for every shape, every loop, and
the top-level entry points. -/

/-- The remaining input after a field decode is a suffix of the input
before it, on every outcome. -/
theorem skip_whitespace_suffix (input : Chars) :
    List.IsSuffix (skip_whitespace input) input :=
  List.dropWhile_suffix _

theorem parse_number_suffix {α : Type} (parse : Chars → Except String α) (input : Chars)
    (r : Except Err α) (rest : Chars) (h : parse_number parse input = (r, rest)) :
    List.IsSuffix rest input := by
  unfold parse_number at h
  by_cases he : (atomRun input).isEmpty
  · rw [if_pos he] at h
    cases h
    exact List.suffix_refl _
  · rw [if_neg he] at h
    cases hp : parse (atomRun input) with
    | error msg => rw [hp] at h; cases h; exact List.suffix_refl _
    | ok v => rw [hp] at h; cases h; exact List.drop_suffix _ _

theorem parseQuotedLoop_suffix : ∀ (fuel : Nat) (input acc : Chars)
    (r : Except Err Chars) (rest : Chars),
    parseQuotedLoop fuel input acc = (r, rest) → List.IsSuffix rest input
  | 0, input, acc, r, rest, h => by
    cases h
    exact List.suffix_refl _
  | fuel + 1, input, acc, r, rest, h => by
    rw [parseQuotedLoop] at h
    by_cases hb : (input.takeWhile (· ≠ '"')).length ≥ input.length
    · rw [if_pos hb] at h
      cases h
      exact List.suffix_refl _
    · rw [if_neg hb] at h
      dsimp only at h
      split at h
      · exact (parseQuotedLoop_suffix fuel _ _ r rest h).trans (List.drop_suffix _ _)
      · cases h
        exact List.drop_suffix _ _

theorem parse_string_suffix (input : Chars) (r : Except Err Chars) (rest : Chars)
    (h : parse_string input = (r, rest)) : List.IsSuffix rest input := by
  unfold parse_string at h
  split at h
  · cases h; exact List.suffix_refl _
  · cases h; exact List.suffix_refl _
  · exact (parseQuotedLoop_suffix _ _ _ r rest h).trans (List.suffix_cons _ _)
  · dsimp only at h
    split at h
    · cases h; exact List.suffix_refl _
    · cases h; exact List.drop_suffix _ _

theorem consume_beginning_suffix (name input : Chars) (r : Except Err Unit) (rest : Chars)
    (h : consume_beginning name input = (r, rest)) : List.IsSuffix rest input := by
  unfold consume_beginning at h
  dsimp only at h
  split at h
  · cases h; exact skip_whitespace_suffix input
  · split at h
    · cases h; exact skip_whitespace_suffix input
    · split at h
      · cases h; exact skip_whitespace_suffix input
      · rename_i rest' heq
        unfold consume at heq
        split at heq
        · cases heq
        · cases heq
          cases h
          exact (List.drop_suffix _ _).trans (skip_whitespace_suffix input)

theorem check_eoe_suffix (n : Nat) (input : Chars) (st : Option Nat)
    (out : Chars × Option Nat) (h : check_eoe n input st = .ok out) :
    List.IsSuffix out.1 input := by
  unfold check_eoe at h
  dsimp only at h
  split at h
  · cases h; exact skip_whitespace_suffix input
  · split at h
    · cases h
    · rename_i heq
      cases h
      refine List.IsSuffix.trans ?_ (skip_whitespace_suffix input)
      rw [heq]
      exact List.suffix_cons _ _
    · cases h; exact skip_whitespace_suffix input

theorem tuple_check_eoe_suffix (input : Chars) (ended : Bool)
    (out : Chars × Bool) (h : tuple_check_eoe input ended = .ok out) :
    List.IsSuffix out.1 input := by
  unfold tuple_check_eoe at h
  split at h
  · cases h; exact List.suffix_refl _
  · dsimp only at h
    split at h
    · cases h
    · rename_i heq
      cases h
      refine List.IsSuffix.trans ?_ (skip_whitespace_suffix input)
      rw [heq]
      exact List.suffix_cons _ _
    · cases h; exact skip_whitespace_suffix input

theorem next_value_seed_suffix (fds : List (Chars × D))
    (hd : ∀ p ∈ fds, DSuffix p.2) (index : Nat) (st : Option Nat) (input : Chars)
    (r : Except Err Value) (rest : Chars) (st' : Option Nat)
    (h : next_value_seed fds index st input = some (r, rest, st')) :
    List.IsSuffix rest input := by
  unfold next_value_seed at h
  by_cases hidx : index < fds.length
  · rw [dif_pos hidx] at h
    dsimp only at h
    cases st with
    | some k =>
      dsimp only at h
      by_cases hk : k = index
      · rw [if_pos hk] at h
        cases h
        exact List.suffix_refl _
      · rw [if_neg hk] at h
        cases h
        exact List.suffix_refl _
    | none =>
      dsimp only at h
      cases hpi : peek_identifier input with
      | some ident =>
        rw [hpi] at h
        dsimp only at h
        by_cases hn : (fds.get ⟨index, hidx⟩).1 = ident
        · rw [if_pos hn] at h
          cases h
          exact List.drop_suffix _ _
        · rw [if_neg hn] at h
          cases hfl : findLater fds (index + 1) ident with
          | some i =>
            rw [hfl] at h
            cases h
            exact List.drop_suffix _ _
          | none =>
            rw [hfl] at h
            dsimp only at h
            cases hfe : (fds.get ⟨index, hidx⟩).2.field (some (fds.get ⟨index, hidx⟩).1) input with
            | none => rw [hfe] at h; cases h
            | some out =>
              obtain ⟨r2, rest2, t2⟩ := out
              rw [hfe] at h
              cases h
              exact hd _ (List.get_mem fds index hidx) _ _ _ _ _ hfe
      | none =>
        rw [hpi] at h
        dsimp only at h
        cases hfe : (fds.get ⟨index, hidx⟩).2.field (some (fds.get ⟨index, hidx⟩).1) input with
        | none => rw [hfe] at h; cases h
        | some out =>
          obtain ⟨r2, rest2, t2⟩ := out
          rw [hfe] at h
          cases h
          exact hd _ (List.get_mem fds index hidx) _ _ _ _ _ hfe
  · rw [dif_neg hidx] at h
    cases h
    exact List.suffix_refl _

theorem visit_map_suffix : ∀ (cd : Nat) (fds : List (Chars × D)),
    (∀ p ∈ fds, DSuffix p.2) → ∀ (index : Nat) (st : Option Nat) (input : Chars)
      (r : Except Err (List Value)) (rest : Chars),
      visit_map fds cd index st input = some (r, rest) → List.IsSuffix rest input
  | 0, fds, hd, index, st, input, r, rest, h => by cases h
  | cd + 1, fds, hd, index, st, input, r, rest, h => by
    rw [visit_map] at h
    cases hce1 : check_eoe fds.length input st with
    | error e =>
      rw [hce1] at h
      cases h
      exact skip_whitespace_suffix input
    | ok out1 =>
      obtain ⟨inp1, st1⟩ := out1
      rw [hce1] at h
      have hs1 : List.IsSuffix inp1 input := check_eoe_suffix _ _ _ _ hce1
      dsimp only at h
      rcases hse : skipEmpties fds (fds.length - index) index st1 with ⟨skipped, index2, st2⟩
      rw [hse] at h
      dsimp only at h
      by_cases hend : index2 ≥ fds.length
      · rw [if_pos hend] at h
        cases h
        exact hs1
      · rw [if_neg hend] at h
        cases hnv : next_value_seed fds index2 st2 inp1 with
        | none => rw [hnv] at h; cases h
        | some out2 =>
          obtain ⟨r2, rest2, st3⟩ := out2
          rw [hnv] at h
          have hs2 : List.IsSuffix rest2 inp1 :=
            next_value_seed_suffix fds hd _ _ _ _ _ _ hnv
          cases r2 with
          | error e =>
            dsimp only at h
            cases h
            exact hs2.trans hs1
          | ok v =>
            dsimp only at h
            cases hce2 : check_eoe fds.length rest2 st3 with
            | error e =>
              rw [hce2] at h
              cases h
              exact ((skip_whitespace_suffix rest2).trans hs2).trans hs1
            | ok out3 =>
              obtain ⟨rest3, st4⟩ := out3
              rw [hce2] at h
              have hs3 : List.IsSuffix rest3 rest2 := check_eoe_suffix _ _ _ _ hce2
              dsimp only at h
              cases hrec : visit_map fds cd (index2 + 1) st4 rest3 with
              | none => rw [hrec] at h; cases h
              | some out4 =>
                obtain ⟨r4, rest4⟩ := out4
                rw [hrec] at h
                have hs4 : List.IsSuffix rest4 rest3 :=
                  visit_map_suffix cd fds hd _ _ _ _ _ hrec
                cases r4 with
                | error e =>
                  cases h
                  exact ((hs4.trans hs3).trans hs2).trans hs1
                | ok vs =>
                  cases h
                  exact ((hs4.trans hs3).trans hs2).trans hs1

theorem visit_tuple_suffix : ∀ (ds : List D), (∀ d ∈ ds, DSuffix d) →
    ∀ (input : Chars) (ended : Bool) (r : Except Err (List Value)) (rest : Chars)
      (ed' : Bool), visit_tuple ds input ended = some (r, rest, ed') →
      List.IsSuffix rest input
  | [], _, input, ended, r, rest, ed', h => by
    cases h
    exact List.suffix_refl _
  | d :: ds, hd, input, ended, r, rest, ed', h => by
    rw [visit_tuple] at h
    cases hce1 : tuple_check_eoe input ended with
    | error e =>
      rw [hce1] at h
      cases h
      exact skip_whitespace_suffix input
    | ok out1 =>
      obtain ⟨inp1, ed1⟩ := out1
      rw [hce1] at h
      have hs1 : List.IsSuffix inp1 input := tuple_check_eoe_suffix _ _ _ hce1
      dsimp only at h
      by_cases hend : ed1 = true
      · rw [if_pos hend] at h
        cases h
        exact hs1
      · rw [if_neg hend] at h
        cases hfe : d.field none inp1 with
        | none => rw [hfe] at h; cases h
        | some out2 =>
          obtain ⟨r2, rest2, t2⟩ := out2
          rw [hfe] at h
          have hs2 : List.IsSuffix rest2 inp1 :=
            hd d (List.mem_cons_self d ds) _ _ _ _ _ hfe
          cases r2 with
          | error e =>
            dsimp only at h
            cases h
            exact hs2.trans hs1
          | ok v =>
            dsimp only at h
            cases hce2 : tuple_check_eoe rest2 ed1 with
            | error e =>
              rw [hce2] at h
              cases h
              exact ((skip_whitespace_suffix rest2).trans hs2).trans hs1
            | ok out3 =>
              obtain ⟨rest3, ed3⟩ := out3
              rw [hce2] at h
              have hs3 : List.IsSuffix rest3 rest2 := tuple_check_eoe_suffix _ _ _ hce2
              dsimp only at h
              cases hrec : visit_tuple ds rest3 ed3 with
              | none => rw [hrec] at h; cases h
              | some out4 =>
                obtain ⟨r4, rest4, ed4⟩ := out4
                rw [hrec] at h
                have hs4 : List.IsSuffix rest4 rest3 :=
                  visit_tuple_suffix ds (fun d' hd' => hd d' (List.mem_cons_of_mem d hd'))
                    _ _ _ _ _ hrec
                cases r4 with
                | error e =>
                  cases h
                  exact ((hs4.trans hs3).trans hs2).trans hs1
                | ok vs =>
                  cases h
                  exact ((hs4.trans hs3).trans hs2).trans hs1

theorem visit_seq_tuple_suffix (f : Chars → Option ((Except Err Value) × Chars × Bool))
    (hf : ∀ input r rest t, f input = some (r, rest, t) → List.IsSuffix rest input) :
    ∀ (fuel : Nat) (input : Chars) (ended : Bool) (r : Except Err (List Value))
      (rest : Chars), visit_seq_tuple f fuel input ended = some (r, rest) →
      List.IsSuffix rest input
  | 0, input, ended, r, rest, h => by cases h
  | fuel + 1, input, ended, r, rest, h => by
    rw [visit_seq_tuple] at h
    cases hce1 : tuple_check_eoe input ended with
    | error e =>
      rw [hce1] at h
      cases h
      exact skip_whitespace_suffix input
    | ok out1 =>
      obtain ⟨inp1, ed1⟩ := out1
      rw [hce1] at h
      have hs1 : List.IsSuffix inp1 input := tuple_check_eoe_suffix _ _ _ hce1
      dsimp only at h
      by_cases hend : ed1 = true
      · rw [if_pos hend] at h
        cases h
        exact hs1
      · rw [if_neg hend] at h
        cases hfe : f inp1 with
        | none => rw [hfe] at h; cases h
        | some out2 =>
          obtain ⟨r2, rest2, t2⟩ := out2
          rw [hfe] at h
          have hs2 : List.IsSuffix rest2 inp1 := hf _ _ _ _ hfe
          cases r2 with
          | error e =>
            dsimp only at h
            cases h
            exact hs2.trans hs1
          | ok v =>
            dsimp only at h
            cases hce2 : tuple_check_eoe rest2 ed1 with
            | error e =>
              rw [hce2] at h
              cases h
              exact ((skip_whitespace_suffix rest2).trans hs2).trans hs1
            | ok out3 =>
              obtain ⟨rest3, ed3⟩ := out3
              rw [hce2] at h
              have hs3 : List.IsSuffix rest3 rest2 := tuple_check_eoe_suffix _ _ _ hce2
              dsimp only at h
              by_cases hprog : rest3.length < input.length
              · rw [if_pos hprog] at h
                cases hrec : visit_seq_tuple f fuel rest3 ed3 with
                | none => rw [hrec] at h; cases h
                | some out4 =>
                  obtain ⟨r4, rest4⟩ := out4
                  rw [hrec] at h
                  have hs4 : List.IsSuffix rest4 rest3 :=
                    visit_seq_tuple_suffix f hf fuel _ _ _ _ hrec
                  cases r4 with
                  | error e =>
                    cases h
                    exact ((hs4.trans hs3).trans hs2).trans hs1
                  | ok vs =>
                    cases h
                    exact ((hs4.trans hs3).trans hs2).trans hs1
              · rw [if_neg hprog] at h
                cases h

theorem visit_seq_field_suffix (f : Chars → Option ((Except Err Value) × Chars × Bool))
    (hf : ∀ input r rest t, f input = some (r, rest, t) → List.IsSuffix rest input) :
    ∀ (fuel : Nat) (input : Chars) (r : Except Err (List Value)) (rest : Chars),
      visit_seq_field f fuel input = some (r, rest) → List.IsSuffix rest input
  | 0, input, r, rest, h => by cases h
  | fuel + 1, input, r, rest, h => by
    rw [visit_seq_field] at h
    split at h
    · cases h
      exact skip_whitespace_suffix input
    · cases h
      exact skip_whitespace_suffix input
    · cases hfe : f (skip_whitespace input) with
      | none => rw [hfe] at h; cases h
      | some out =>
        obtain ⟨r2, rest2, t2⟩ := out
        rw [hfe] at h
        have hs2 : List.IsSuffix rest2 input :=
          (hf _ _ _ _ hfe).trans (skip_whitespace_suffix input)
        cases r2 with
        | error e =>
          cases h
          exact hs2
        | ok v =>
          dsimp only at h
          by_cases hprog : rest2.length < input.length
          · rw [if_pos hprog] at h
            cases hrec : visit_seq_field f fuel rest2 with
            | none => rw [hrec] at h; cases h
            | some out4 =>
              obtain ⟨r4, rest4⟩ := out4
              rw [hrec] at h
              have hs4 : List.IsSuffix rest4 rest2 :=
                visit_seq_field_suffix f hf fuel _ _ _ hrec
              cases r4 with
              | error e =>
                cases h
                exact hs4.trans hs2
              | ok vs =>
                cases h
                exact hs4.trans hs2
          · rw [if_neg hprog] at h
            cases h

theorem boolD_suffix : DSuffix boolD := by
  intro ident input r rest t h
  cases h
  exact List.suffix_refl _

theorem intD_suffix (lo hi : Int) (tn : String) : DSuffix (intD lo hi tn) := by
  intro ident input r rest t h
  unfold intD at h
  dsimp only at h
  rcases hp : parse_number (parseIntRange lo hi) input with ⟨pr, prest⟩
  rw [hp] at h
  cases pr <;> (dsimp only at h; cases h; exact parse_number_suffix _ _ _ _ hp)

theorem floatD_suffix : DSuffix floatD := by
  intro ident input r rest t h
  unfold floatD at h
  dsimp only at h
  rcases hp : parse_number parseFloat input with ⟨pr, prest⟩
  rw [hp] at h
  cases pr <;> (dsimp only at h; cases h; exact parse_number_suffix _ _ _ _ hp)

theorem strD_suffix : DSuffix strD := by
  intro ident input r rest t h
  unfold strD at h
  dsimp only at h
  rcases hp : parse_string input with ⟨pr, prest⟩
  rw [hp] at h
  cases pr <;> (dsimp only at h; cases h; exact parse_string_suffix _ _ _ hp)

theorem optD_suffix (d : D) (hd : DSuffix d) : DSuffix (optD d) := by
  intro ident input r rest t h
  unfold optD at h
  dsimp only at h
  cases hf : d.field ident input with
  | none => rw [hf] at h; cases h
  | some out =>
    obtain ⟨r2, rest2, t2⟩ := out
    rw [hf] at h
    have hs := hd ident input r2 rest2 t2 hf
    cases r2 with
    | ok v => cases h; exact hs
    | error e =>
      dsimp only at h
      by_cases ht : t2 = true
      · rw [if_pos ht] at h; cases h; exact hs
      · rw [if_neg ht] at h; cases h; exact hs

theorem unitD_suffix (nm : Chars) : DSuffix (unitD nm) := by
  intro ident input r rest t h
  unfold unitD at h
  dsimp only at h
  rcases hcb : consume_beginning nm input with ⟨cr, st⟩
  rw [hcb] at h
  have hs := consume_beginning_suffix nm input cr st hcb
  cases cr with
  | error e => cases h; exact hs
  | ok u =>
    dsimp only at h
    cases st with
    | nil => cases h; exact hs
    | cons c tl =>
      dsimp only at h
      by_cases hc : c = ')'
      · rw [if_pos hc] at h
        cases h
        exact (List.suffix_cons c _).trans hs
      · rw [if_neg hc] at h
        cases h
        exact (List.suffix_cons c _).trans hs

theorem structD_suffix (nm : Chars) (fds : List (Chars × D))
    (hd : ∀ p ∈ fds, DSuffix p.2) : DSuffix (structD nm fds) := by
  intro ident input r rest t h
  unfold structD at h
  dsimp only at h
  rcases hcb : consume_beginning nm input with ⟨cr, st⟩
  rw [hcb] at h
  have hs := consume_beginning_suffix nm input cr st hcb
  cases cr with
  | error e => cases h; exact hs
  | ok u =>
    dsimp only at h
    cases hvm : visit_map fds (fds.length + 1) 0 none st with
    | none => rw [hvm] at h; cases h
    | some out =>
      obtain ⟨r2, rest2⟩ := out
      rw [hvm] at h
      have hs2 := visit_map_suffix _ fds hd _ _ _ _ _ hvm
      cases r2 <;> (dsimp only at h; cases h; exact hs2.trans hs)

theorem tupD_suffix (nm : Chars) (ds : List D) (hd : ∀ d ∈ ds, DSuffix d) :
    DSuffix (tupD nm ds) := by
  intro ident input r rest t h
  unfold tupD at h
  dsimp only at h
  rcases hcb : consume_beginning nm input with ⟨cr, st⟩
  rw [hcb] at h
  have hs := consume_beginning_suffix nm input cr st hcb
  cases cr with
  | error e => cases h; exact hs
  | ok u =>
    dsimp only at h
    cases hvt : visit_tuple ds st false with
    | none => rw [hvt] at h; cases h
    | some out =>
      obtain ⟨r2, rest2, ed2⟩ := out
      rw [hvt] at h
      have hs2 := visit_tuple_suffix ds hd _ _ _ _ _ hvt
      cases r2 <;> (dsimp only at h; cases h; exact hs2.trans hs)

theorem seqD_suffix (elemD : D) (hd : DSuffix elemD) : DSuffix (seqD elemD) := by
  intro ident input r rest t h
  unfold seqD at h
  dsimp only at h
  have hfe : ∀ input r rest t, elemD.field none input = some (r, rest, t) →
      List.IsSuffix rest input := fun i r' re t' hh => hd none i r' re t' hh
  cases ident with
  | none =>
    dsimp only at h
    cases hp : peek_sexpr_identifier input with
    | error e => rw [hp] at h; cases h; exact List.suffix_refl _
    | ok id => rw [hp] at h; cases h; exact List.suffix_refl _
  | some nm =>
    cases nm with
    | nil =>
      dsimp only at h
      cases hvf : visit_seq_field (elemD.field none) (input.length + 1) input with
      | none => rw [hvf] at h; cases h
      | some out =>
        obtain ⟨r2, rest2⟩ := out
        rw [hvf] at h
        have hs2 := visit_seq_field_suffix _ hfe _ _ _ _ hvf
        cases r2 <;> (dsimp only at h; cases h; exact hs2)
    | cons c tl =>
      dsimp only at h
      rcases hcb : consume_beginning (c :: tl) input with ⟨cr, st⟩
      rw [hcb] at h
      have hs := consume_beginning_suffix _ input cr st hcb
      cases cr with
      | error e => cases h; exact hs
      | ok u =>
        dsimp only at h
        cases hvt : visit_seq_tuple (elemD.field none) (st.length + 1) st false with
        | none => rw [hvt] at h; cases h
        | some out =>
          obtain ⟨r2, rest2⟩ := out
          rw [hvt] at h
          have hs2 := visit_seq_tuple_suffix _ hfe _ _ _ _ _ hvt
          cases r2 <;> (dsimp only at h; cases h; exact hs2.trans hs)

theorem enumD_suffix (variants : List Chars) : DSuffix (enumD variants) := by
  intro ident input r rest t h
  unfold enumD at h
  dsimp only at h
  cases hpt : peek_token input with
  | error e => rw [hpt] at h; cases h; exact List.suffix_refl _
  | ok tok =>
    rw [hpt] at h
    cases tok with
    | SExpr =>
      dsimp only at h
      cases hp : peek_sexpr_identifier input with
      | error e => rw [hp] at h; cases h; exact List.suffix_refl _
      | ok id =>
        rw [hp] at h
        dsimp only at h
        by_cases hc : variants.contains id
        · rw [if_pos hc] at h; cases h; exact List.suffix_refl _
        · rw [if_neg hc] at h; cases h; exact List.suffix_refl _
    | String =>
      dsimp only at h
      rcases hp : parse_string input with ⟨pr, prest⟩
      rw [hp] at h
      have hs := parse_string_suffix input pr prest hp
      cases pr with
      | error e => cases h; exact hs
      | ok s =>
        dsimp only at h
        cases hfi : variants.findIdx? (fun v => v = s) with
        | none => rw [hfi] at h; cases h; exact hs
        | some i => rw [hfi] at h; cases h; exact hs
    | Int =>
      dsimp only at h
      split at h
      · rename_i tail
        rcases hp : parse_number (parseIntRange i64min i64max) ('-' :: tail) with ⟨pr, prest⟩
        rw [hp] at h
        have hs := parse_number_suffix _ _ _ _ hp
        cases pr <;> (dsimp only at h; cases h; exact hs)
      · rcases hp : parse_number (parseIntRange 0 u64max) input with ⟨pr, prest⟩
        rw [hp] at h
        have hs := parse_number_suffix _ _ _ _ hp
        cases pr with
        | error e => dsimp only at h; cases h; exact hs
        | ok n =>
          dsimp only at h
          by_cases hn : n < (variants.length : Int)
          · rw [if_pos hn] at h
            cases h
            exact hs
          · rw [if_neg hn] at h
            cases h
            exact hs
    | Float =>
      dsimp only at h
      rcases hp : parse_number parseFloat input with ⟨pr, prest⟩
      rw [hp] at h
      have hs := parse_number_suffix _ _ _ _ hp
      cases pr <;> (dsimp only at h; cases h; exact hs)

mutual
/-- Every compiled field deserializer only ever advances the input. -/
theorem mkD_suffix : ∀ σ : FieldShape, DSuffix (mkD σ)
  | .fBool => boolD_suffix
  | .fInt lo hi tn => intD_suffix lo hi tn
  | .fFloat => floatD_suffix
  | .fStr => strD_suffix
  | .fOpt s => optD_suffix _ (mkD_suffix s)
  | .fUnit nm => unitD_suffix nm
  | .fStruct nm flds => structD_suffix nm _ (mkFields_suffix flds)
  | .fTuple nm es => tupD_suffix nm _ (mkShapes_suffix es)
  | .fSeq e => seqD_suffix _ (mkD_suffix e)
  | .fEnum vs => enumD_suffix vs

/-- Every compiled record field deserializer only ever advances the
input. -/
theorem mkFields_suffix : ∀ flds : Fields, ∀ p ∈ mkFields flds, DSuffix p.2
  | .nil => by intro p hp; cases hp
  | .cons n s rest => by
    intro p hp
    rcases List.mem_cons.mp hp with h | h
    · rw [h]
      exact mkD_suffix s
    · exact mkFields_suffix rest p h

/-- Every compiled tuple element deserializer only ever advances the
input. -/
theorem mkShapes_suffix : ∀ es : Shapes, ∀ d ∈ mkShapes es, DSuffix d
  | .nil => by intro d hd; cases hd
  | .cons s rest => by
    intro d hd
    rcases List.mem_cons.mp hd with h | h
    · rw [h]
      exact mkD_suffix s
    · exact mkShapes_suffix rest d h
end

theorem check_no_trailing_tokens_suffix (input : Chars) (r : Except Err Unit)
    (rest : Chars) (h : check_no_trailing_tokens input = (r, rest)) :
    List.IsSuffix rest input := by
  unfold check_no_trailing_tokens at h
  dsimp only at h
  split at h <;> (cases h; exact skip_whitespace_suffix input)

/-- C9: monotone-cursor invariant.  Every decoding operation — the cursor
primitives, every compiled field deserializer for every shape, and every
top-level decode — leaves the deserializer's remaining input a suffix of
what it was before the operation, on success and on error alike (the input
is never re-extended and, being a value, never mutated). -/
theorem C9_monotone_cursor :
    (∀ input : Chars, List.IsSuffix (skip_whitespace input) input) ∧
    (∀ (input : Chars) (c : Char) (rest : Chars), next_char input = .ok (c, rest) →
      List.IsSuffix rest input) ∧
    (∀ (input : Chars) (n : Nat) (rest : Chars), consume input n = .ok rest →
      List.IsSuffix rest input) ∧
    (∀ (input : Chars) (r : Except Err Chars) (rest : Chars),
      parse_string input = (r, rest) → List.IsSuffix rest input) ∧
    (∀ σ : FieldShape, DSuffix (mkD σ)) ∧
    (∀ (t : TopShape) (input : Chars) (r : Except Err Value) (rest : Chars),
      topDecode t input = some (r, rest) → List.IsSuffix rest input) := by
  refine ⟨skip_whitespace_suffix, ?_, ?_, parse_string_suffix, mkD_suffix, ?_⟩
  · intro input c rest h
    cases input with
    | nil => cases h
    | cons c' tl =>
      cases h
      exact List.suffix_cons _ _
  · intro input n rest h
    unfold consume at h
    split at h
    · cases h
    · cases h
      exact List.drop_suffix _ _
  · intro t input r rest h
    cases t with
    | tStruct nm flds =>
      rw [topDecode] at h
      rcases hcb : consume_beginning nm input with ⟨cr, st⟩
      rw [hcb] at h
      have hs := consume_beginning_suffix nm input cr st hcb
      cases cr with
      | error e => cases h; exact hs
      | ok u =>
        dsimp only at h
        cases hvm : visit_map (mkFields flds) ((mkFields flds).length + 1) 0 none st with
        | none => rw [hvm] at h; cases h
        | some out =>
          obtain ⟨r2, rest2⟩ := out
          rw [hvm] at h
          have hs2 := visit_map_suffix _ _ (mkFields_suffix flds) _ _ _ _ _ hvm
          cases r2 with
          | error e => cases h; exact hs2.trans hs
          | ok vs =>
            dsimp only at h
            rcases hct : check_no_trailing_tokens rest2 with ⟨tr, rest3⟩
            rw [hct] at h
            have hs3 := check_no_trailing_tokens_suffix rest2 tr rest3 hct
            cases tr <;> (dsimp only at h; cases h; exact (hs3.trans hs2).trans hs)
    | tUnitStruct nm =>
      rw [topDecode] at h
      rcases hcb : consume_beginning nm input with ⟨cr, st⟩
      rw [hcb] at h
      have hs := consume_beginning_suffix nm input cr st hcb
      cases cr with
      | error e => cases h; exact hs
      | ok u =>
        dsimp only at h
        cases st with
        | nil => cases h; exact hs
        | cons c tl =>
          dsimp only at h
          by_cases hc : c = ')'
          · rw [if_pos hc] at h
            rcases hct : check_no_trailing_tokens tl with ⟨tr, rest3⟩
            rw [hct] at h
            have hs3 := check_no_trailing_tokens_suffix tl tr rest3 hct
            cases tr <;>
              (dsimp only at h; cases h;
                exact (hs3.trans (List.suffix_cons c _)).trans hs)
          · rw [if_neg hc] at h
            cases h
            exact (List.suffix_cons c _).trans hs
    | tTupleStruct nm es =>
      rw [topDecode] at h
      rcases hcb : consume_beginning nm input with ⟨cr, st⟩
      rw [hcb] at h
      have hs := consume_beginning_suffix nm input cr st hcb
      cases cr with
      | error e => cases h; exact hs
      | ok u =>
        dsimp only at h
        cases hvt : visit_tuple (mkShapes es) st false with
        | none => rw [hvt] at h; cases h
        | some out =>
          obtain ⟨r2, rest2, ed2⟩ := out
          rw [hvt] at h
          have hs2 := visit_tuple_suffix _ (mkShapes_suffix es) _ _ _ _ _ hvt
          cases r2 with
          | error e => cases h; exact hs2.trans hs
          | ok vs =>
            dsimp only at h
            rcases hct : check_no_trailing_tokens rest2 with ⟨tr, rest3⟩
            rw [hct] at h
            have hs3 := check_no_trailing_tokens_suffix rest2 tr rest3 hct
            cases tr <;> (dsimp only at h; cases h; exact (hs3.trans hs2).trans hs)
    | tPrim =>
      cases h
      exact List.suffix_refl _

/-- Witness for C9 at a concrete decode: decoding the nested `at` record
out of a longer buffer leaves a suffix of the original input. -/
theorem C9_monotone_cursor_witness :
    topDecode (.tUnitStruct ("locked".toList)) ("(locked) extra".toList) =
      some (.error .TrailingTokens, "extra".toList) ∧
    List.IsSuffix ("extra".toList) ("(locked) extra".toList) :=
  ⟨by decide, C9_monotone_cursor.2.2.2.2.2 (.tUnitStruct ("locked".toList))
      ("(locked) extra".toList) (.error .TrailingTokens) ("extra".toList) (by decide)⟩

/-! ## C1 — round trip: infrastructure

Character-class facts, scan lemmas, and the inverse relationship between
the emitted decimal/string/name syntax and the corresponding parsers. -/

theorem identChar_ne (c : Char) (h : isIdentChar c = true) (d : Char)
    (hd : isIdentChar d = false) : c ≠ d := by
  intro he
  rw [he, hd] at h
  cases h

theorem identChar_props (c : Char) (h : isIdentChar c = true) :
    isUniWs c = false ∧ isAsciiWs c = false ∧ isAsciiDigit c = false := by
  refine ⟨?_, ?_, ?_⟩
  · by_contra hw
    rw [Bool.not_eq_false] at hw
    simp only [isUniWs, Bool.or_eq_true, decide_eq_true_eq] at hw
    rcases hw with ((((h1 | h1) | h1) | h1) | h1) | h1 <;>
      (subst h1; revert h; decide)
  · by_contra hw
    rw [Bool.not_eq_false] at hw
    simp only [isAsciiWs, Bool.or_eq_true, decide_eq_true_eq] at hw
    rcases hw with (((h1 | h1) | h1) | h1) | h1 <;>
      (subst h1; revert h; decide)
  · by_contra hd
    rw [Bool.not_eq_false] at hd
    simp only [isAsciiDigit, Bool.and_eq_true, decide_eq_true_eq] at hd
    obtain ⟨h0, h9⟩ := hd
    simp only [isIdentChar, isAsciiAlpha, Bool.or_eq_true, Bool.and_eq_true,
      decide_eq_true_eq] at h
    rcases h with (⟨hA, _⟩ | ⟨ha, _⟩) | h_
    · exact absurd (le_trans hA h9) (by decide)
    · exact absurd (le_trans ha h9) (by decide)
    · subst h_; exact absurd h9 (by decide)

theorem digit_ne (c : Char) (h : isAsciiDigit c = true) (d : Char)
    (hd : isAsciiDigit d = false) : c ≠ d := by
  intro he
  rw [he, hd] at h
  cases h

theorem digit_props (c : Char) (h : isAsciiDigit c = true) :
    isUniWs c = false ∧ isAsciiWs c = false ∧ isIdentChar c = false := by
  simp only [isAsciiDigit, Bool.and_eq_true, decide_eq_true_eq] at h
  obtain ⟨h0, h9⟩ := h
  refine ⟨?_, ?_, ?_⟩
  · by_contra hw
    rw [Bool.not_eq_false] at hw
    simp only [isUniWs, Bool.or_eq_true, decide_eq_true_eq] at hw
    rcases hw with ((((h1 | h1) | h1) | h1) | h1) | h1 <;>
      (subst h1; revert h0 h9; decide)
  · by_contra hw
    rw [Bool.not_eq_false] at hw
    simp only [isAsciiWs, Bool.or_eq_true, decide_eq_true_eq] at hw
    rcases hw with (((h1 | h1) | h1) | h1) | h1 <;>
      (subst h1; revert h0 h9; decide)
  · by_contra hw
    rw [Bool.not_eq_false] at hw
    simp only [isIdentChar, isAsciiAlpha, Bool.or_eq_true, Bool.and_eq_true,
      decide_eq_true_eq] at hw
    rcases hw with (⟨hA, _⟩ | ⟨ha, _⟩) | h_
    · exact absurd (le_trans hA h9) (by decide)
    · exact absurd (le_trans ha h9) (by decide)
    · subst h_; exact absurd h9 (by decide)

theorem takeWhile_append_all {p : Char → Bool} :
    ∀ (a b : Chars), (∀ c ∈ a, p c = true) →
      (a ++ b).takeWhile p = a ++ b.takeWhile p
  | [], _, _ => rfl
  | c :: a, b, h => by
    have hc : p c = true := h c (List.mem_cons_self ..)
    rw [List.cons_append, List.takeWhile_cons, if_pos hc,
      takeWhile_append_all a b (fun x hx => h x (List.mem_cons_of_mem c hx)),
      List.cons_append]

theorem takeWhile_eq_nil {p : Char → Bool} (b : Chars)
    (h : ∀ c r, b = c :: r → p c = false) : b.takeWhile p = [] := by
  cases b with
  | nil => rfl
  | cons c r => rw [List.takeWhile_cons, if_neg (by rw [h c r rfl]; exact Bool.false_ne_true)]

theorem dropWhile_append_all {p : Char → Bool} :
    ∀ (a b : Chars), (∀ c ∈ a, p c = true) →
      (a ++ b).dropWhile p = b.dropWhile p
  | [], _, _ => rfl
  | c :: a, b, h => by
    have hc : p c = true := h c (List.mem_cons_self ..)
    rw [List.cons_append, List.dropWhile_cons, if_pos hc,
      dropWhile_append_all a b (fun x hx => h x (List.mem_cons_of_mem c hx))]

theorem dropWhile_head_false {p : Char → Bool} (c : Char) (r : Chars)
    (h : p c = false) : (c :: r).dropWhile p = c :: r := by
  rw [List.dropWhile_cons, if_neg (by rw [h]; exact Bool.false_ne_true)]

theorem skip_whitespace_append (a b : Chars) (h : ∀ c ∈ a, isUniWs c = true) :
    skip_whitespace (a ++ b) = skip_whitespace b :=
  dropWhile_append_all a b h

theorem skip_whitespace_eq_self (b : Chars)
    (h : ∀ c r, b = c :: r → isUniWs c = false) : skip_whitespace b = b := by
  cases b with
  | nil => rfl
  | cons c r => exact dropWhile_head_false c r (h c r rfl)

theorem skip_whitespace_length_le (b : Chars) :
    (skip_whitespace b).length ≤ b.length := by
  induction b with
  | nil => exact Nat.le_refl _
  | cons c cs ih =>
    by_cases hp : isUniWs c
    · rw [skip_whitespace, List.dropWhile_cons, if_pos hp]
      exact Nat.le_trans ih (by simp)
    · rw [skip_whitespace, List.dropWhile_cons, if_neg hp]

theorem get_of_drop_cons {α : Type} (l : List α) (i : Nat) (x : α) (r : List α)
    (hd : l.drop i = x :: r) : ∃ h : i < l.length, l.get ⟨i, h⟩ = x := by
  have hlen : (l.drop i).length = l.length - i := List.length_drop ..
  rw [hd] at hlen
  have hi : i < l.length := by
    simp only [List.length_cons] at hlen
    omega
  refine ⟨hi, ?_⟩
  have h0 : (l.drop i)[0]? = some x := by rw [hd]; simp
  rw [List.getElem?_drop] at h0
  simp only [Nat.add_zero] at h0
  rw [List.getElem?_eq_getElem hi] at h0
  rw [List.get_eq_getElem]
  exact Option.some.inj h0

theorem drop_succ_of_drop_cons {α : Type} (l : List α) (i : Nat) (x : α) (r : List α)
    (hd : l.drop i = x :: r) : l.drop (i + 1) = r := by
  have h1 : (l.drop i).drop 1 = r := by rw [hd]; simp
  rw [List.drop_drop] at h1
  exact h1

/-! ### Decimal integers: printing then parsing -/

theorem digitsToNat_go : ∀ (ds : Chars) (init : Nat),
    ds.foldl (fun acc c => acc * 10 + (c.toNat - '0'.toNat)) init =
      init * 10 ^ ds.length + digitsToNat ds
  | [], init => by simp [digitsToNat]
  | c :: ds, init => by
    have h1 := digitsToNat_go ds (init * 10 + (c.toNat - '0'.toNat))
    have h2 := digitsToNat_go ds (0 * 10 + (c.toNat - '0'.toNat))
    simp only [digitsToNat, List.foldl_cons] at h1 h2 ⊢
    rw [h1, h2]
    have hp : 10 ^ (ds.length + 1) = 10 ^ ds.length * 10 := pow_succ 10 _
    rw [List.length_cons, hp]
    set A := 10 ^ ds.length
    ring_nf
    omega

theorem digitChar_spec (m : Nat) (hm : m < 10) :
    (Char.ofNat (48 + m)).toNat = 48 + m ∧
      isAsciiDigit (Char.ofNat (48 + m)) = true := by
  interval_cases m <;> exact ⟨by decide, by decide⟩

theorem natToDecAux_digits : ∀ (fuel n : Nat) (acc : Chars),
    (∀ c ∈ acc, isAsciiDigit c = true) →
    ∀ c ∈ natToDecAux fuel n acc, isAsciiDigit c = true
  | 0, _, _, hacc => hacc
  | fuel + 1, n, acc, hacc => by
    rw [natToDecAux]
    by_cases hn : n = 0
    · rw [if_pos hn]; exact hacc
    · rw [if_neg hn]
      refine natToDecAux_digits fuel (n / 10) _ ?_
      intro c hc
      rcases List.mem_cons.mp hc with hc | hc
      · subst hc
        exact (digitChar_spec (n % 10) (Nat.mod_lt n (by norm_num))).2
      · exact hacc c hc

theorem natToDecAux_ne_nil : ∀ (fuel n : Nat) (acc : Chars),
    acc ≠ [] ∨ (0 < fuel ∧ 0 < n) → natToDecAux fuel n acc ≠ []
  | 0, _, acc, h => by
    rcases h with h | ⟨h, _⟩
    · exact h
    · omega
  | fuel + 1, n, acc, h => by
    rw [natToDecAux]
    by_cases hn : n = 0
    · rw [if_pos hn]
      rcases h with h | ⟨_, h⟩
      · exact h
      · omega
    · rw [if_neg hn]
      exact natToDecAux_ne_nil fuel (n / 10) _ (Or.inl (by simp))

theorem natToDecAux_val : ∀ (fuel n : Nat) (acc : Chars), n ≤ fuel →
    digitsToNat (natToDecAux fuel n acc) = n * 10 ^ acc.length + digitsToNat acc
  | 0, n, acc, h => by
    have hn : n = 0 := Nat.le_zero.mp h
    subst hn
    simp [natToDecAux]
  | fuel + 1, n, acc, h => by
    rw [natToDecAux]
    by_cases hn : n = 0
    · rw [if_pos hn, hn]; simp
    · rw [if_neg hn]
      have hdiv : n / 10 ≤ fuel := by
        have hlt : n / 10 < n := Nat.div_lt_self (Nat.pos_of_ne_zero hn) (by norm_num)
        omega
      rw [natToDecAux_val fuel (n / 10) _ hdiv]
      have hd := digitChar_spec (n % 10) (Nat.mod_lt n (by norm_num))
      have hdt : digitsToNat (Char.ofNat (48 + n % 10) :: acc) =
          (n % 10) * 10 ^ acc.length + digitsToNat acc := by
        simp only [digitsToNat, List.foldl_cons]
        rw [digitsToNat_go acc (0 * 10 + ((Char.ofNat (48 + n % 10)).toNat - '0'.toNat))]
        rw [hd.1]
        simp only [Nat.zero_mul, Nat.zero_add]
        congr 1
        have h48 : 48 + n % 10 - '0'.toNat = n % 10 := by
          have h0 : '0'.toNat = 48 := by decide
          omega
        rw [h48]
      rw [hdt, List.length_cons]
      have hp : 10 ^ (acc.length + 1) = 10 ^ acc.length * 10 := pow_succ 10 _
      rw [hp]
      have hnm := Nat.div_add_mod n 10
      set A := 10 ^ acc.length
      have : n / 10 * (A * 10) + (n % 10 * A + digitsToNat acc) =
          (10 * (n / 10) + n % 10) * A + digitsToNat acc := by ring
      rw [this, hnm]

theorem natToDec_spec (n : Nat) :
    digitsToNat (natToDec n) = n ∧ natToDec n ≠ [] ∧
      ∀ c ∈ natToDec n, isAsciiDigit c = true := by
  by_cases hn : n = 0
  · subst hn
    exact ⟨by decide, by decide, by decide⟩
  · rw [natToDec, if_neg hn]
    refine ⟨?_, ?_, ?_⟩
    · rw [natToDecAux_val n n [] (Nat.le_refl n)]
      simp [digitsToNat]
    · exact natToDecAux_ne_nil n n [] (Or.inr ⟨Nat.pos_of_ne_zero hn, Nat.pos_of_ne_zero hn⟩)
    · exact natToDecAux_digits n n [] (by intro c hc; cases hc)

theorem delim_head_stops_atom (t : Chars) (h : delim t = true) (c : Char) (r : Chars)
    (hcr : t = c :: r) : (!isAsciiWs c && decide (c ≠ ')')) = false := by
  subst hcr
  simp only [delim, Bool.or_eq_true, decide_eq_true_eq] at h
  rcases h with h | h
  · simp [h]
  · simp [h]

theorem delim_head_not_ident (t : Chars) (h : delim t = true) (c : Char) (r : Chars)
    (hcr : t = c :: r) : isIdentChar c = false := by
  subst hcr
  simp only [delim, Bool.or_eq_true, decide_eq_true_eq] at h
  by_contra hw
  rw [Bool.not_eq_false] at hw
  rcases h with h | h
  · rw [(identChar_props c hw).2.1] at h; cases h
  · exact identChar_ne c hw ')' (by decide) h

theorem atomRun_append (tok tail : Chars)
    (htok : ∀ c ∈ tok, isAsciiWs c = false ∧ c ≠ ')') (htail : delim tail = true) :
    atomRun (tok ++ tail) = tok := by
  unfold atomRun
  rw [takeWhile_append_all tok tail ?hall, takeWhile_eq_nil tail ?hstop, List.append_nil]
  case hall =>
    intro c hc
    obtain ⟨hw, hp⟩ := htok c hc
    simp [hw, hp]
  case hstop =>
    intro c r hcr
    exact delim_head_stops_atom tail htail c r hcr

theorem peek_identifier_head_false (c : Char) (t : Chars) (h : isIdentChar c = false) :
    peek_identifier (c :: t) = none := by
  unfold peek_identifier
  simp [List.takeWhile_cons, h]

theorem peek_identifier_name (nm tail : Chars) (h1 : nm ≠ [])
    (h2 : ∀ c ∈ nm, isIdentChar c = true) (h3 : delim tail = true) :
    peek_identifier (nm ++ tail) = some nm := by
  unfold peek_identifier
  rw [takeWhile_append_all nm tail h2,
    takeWhile_eq_nil tail (fun c r hcr => delim_head_not_ident tail h3 c r hcr),
    List.append_nil]
  rw [if_neg (by simpa [List.isEmpty_iff] using h1)]

theorem peek_identifier_some_ne_nil (input h : Chars)
    (hp : peek_identifier input = some h) : h ≠ [] := by
  simp only [peek_identifier] at hp
  split at hp
  · cases hp
  · rename_i hne
    cases hp
    simpa [List.isEmpty_iff] using hne

theorem intToDec_chars (n : Int) : ∀ c ∈ intToDec n,
    isAsciiWs c = false ∧ isUniWs c = false ∧ c ≠ ')' ∧ isIdentChar c = false := by
  intro c hc
  unfold intToDec at hc
  have digitCase : ∀ m : Nat, c ∈ natToDec m →
      isAsciiWs c = false ∧ isUniWs c = false ∧ c ≠ ')' ∧ isIdentChar c = false := by
    intro m hm
    have hd := (natToDec_spec m).2.2 c hm
    obtain ⟨hu, ha, hi⟩ := digit_props c hd
    exact ⟨ha, hu, digit_ne c hd ')' (by decide), hi⟩
  by_cases hn : n < 0
  · rw [if_pos hn] at hc
    rcases List.mem_cons.mp hc with hc | hc
    · subst hc
      exact ⟨by decide, by decide, by decide, by decide⟩
    · exact digitCase _ hc
  · rw [if_neg hn] at hc
    exact digitCase _ hc

theorem parseIntRange_intToDec (lo hi n : Int) (h1 : lo ≤ n) (h2 : n ≤ hi) :
    parseIntRange lo hi (intToDec n) = .ok n := by
  by_cases hn : n < 0
  · have hdig := natToDec_spec (-n).toNat
    rw [intToDec, if_pos hn]
    have hlo : lo < 0 := lt_of_le_of_lt h1 hn
    simp only [parseIntRange]
    rw [if_neg (by decide : ¬('-' : Char) = '+')]
    have hb : (decide True && decide (lo < 0)) = true := by simp [hlo]
    rw [hb, if_pos (rfl : true = true)]
    dsimp only
    rw [if_neg (by simpa [List.isEmpty_iff] using hdig.2.1),
      if_pos (List.all_eq_true.mpr hdig.2.2), if_pos (rfl : true = true)]
    have hval : -(↑(digitsToNat (natToDec (-n).toNat)) : Int) = n := by
      rw [hdig.1, Int.toNat_of_nonneg (by omega)]
      omega
    rw [hval, if_neg (by omega), if_neg (by omega)]
  · have hdig := natToDec_spec n.toNat
    rw [intToDec, if_neg hn]
    obtain ⟨d, rest, hcons⟩ : ∃ d rest, natToDec n.toNat = d :: rest := by
      cases hh : natToDec n.toNat with
      | nil => exact absurd hh hdig.2.1
      | cons d rest => exact ⟨d, rest, rfl⟩
    have hddig : isAsciiDigit d = true := hdig.2.2 d (by rw [hcons]; exact List.mem_cons_self ..)
    rw [hcons]
    simp only [parseIntRange]
    rw [if_neg (digit_ne d hddig '+' (by decide))]
    have hb : (decide (d = '-') && decide (lo < 0)) = false := by
      simp [digit_ne d hddig '-' (by decide)]
    rw [hb, if_neg (by simp : ¬(false = true))]
    dsimp only
    rw [if_neg (by simp [List.isEmpty_iff] : ¬(d :: rest).isEmpty = true)]
    rw [if_pos (by rw [← hcons]; exact List.all_eq_true.mpr hdig.2.2)]
    rw [if_neg (by simp : ¬(false = true))]
    have hval : (↑(digitsToNat (d :: rest)) : Int) = n := by
      rw [← hcons, hdig.1, Int.toNat_of_nonneg (by omega)]
    rw [hval, if_neg (by omega), if_neg (by omega)]

theorem parse_number_intToDec (lo hi n : Int) (tail : Chars) (h1 : lo ≤ n) (h2 : n ≤ hi)
    (hd : delim tail = true) :
    parse_number (parseIntRange lo hi) (intToDec n ++ tail) = (.ok n, tail) := by
  have hchars : ∀ c ∈ intToDec n, isAsciiWs c = false ∧ c ≠ ')' := by
    intro c hc
    obtain ⟨ha, _, hp, _⟩ := intToDec_chars n c hc
    exact ⟨ha, hp⟩
  have hrun : atomRun (intToDec n ++ tail) = intToDec n := atomRun_append _ _ hchars hd
  have hne : intToDec n ≠ [] := by
    unfold intToDec
    by_cases hn : n < 0
    · rw [if_pos hn]; simp
    · rw [if_neg hn]; exact (natToDec_spec _).2.1
  unfold parse_number
  rw [hrun, if_neg (by simpa [List.isEmpty_iff] using hne),
    parseIntRange_intToDec lo hi n h1 h2]
  rw [List.drop_left]

theorem peek_identifier_intToDec (n : Int) (tail : Chars) :
    peek_identifier (intToDec n ++ tail) = none := by
  obtain ⟨d, rest, hcons⟩ : ∃ d rest, intToDec n = d :: rest := by
    unfold intToDec
    by_cases hn : n < 0
    · rw [if_pos hn]; exact ⟨_, _, rfl⟩
    · rw [if_neg hn]
      cases hh : natToDec n.toNat with
      | nil => exact absurd hh (natToDec_spec _).2.1
      | cons d rest => exact ⟨d, rest, rfl⟩
  have hni : isIdentChar d = false :=
    (intToDec_chars n d (by rw [hcons]; exact List.mem_cons_self ..)).2.2.2
  rw [hcons, List.cons_append]
  exact peek_identifier_head_false d _ hni

/-! ### Quoted strings: escaping then parsing -/

theorem dropWhile_head_prop {p : Char → Bool} :
    ∀ (l : Chars) (c : Char) (r : Chars), l.dropWhile p = c :: r → p c = false
  | [], _, _, h => by cases h
  | x :: xs, c, r, h => by
    by_cases hx : p x
    · rw [List.dropWhile_cons, if_pos hx] at h
      exact dropWhile_head_prop xs c r h
    · rw [List.dropWhile_cons, if_neg hx] at h
      injection h with h1 _
      subst h1
      simp only [Bool.not_eq_true] at hx
      exact hx

theorem escapeStr_def (v : Chars) : escapeStr v = escQ (doubleBS v) := rfl

theorem doubleBS_cons (c : Char) (w : Chars) :
    doubleBS (c :: w) = (if c = '\\' then ['\\', '\\'] else [c]) ++ doubleBS w :=
  List.flatMap_cons ..

theorem escQ_cons (c : Char) (w : Chars) :
    escQ (c :: w) = (if c = '"' then ['\\', '"'] else [c]) ++ escQ w :=
  List.flatMap_cons ..

theorem doubleBS_append (a b : Chars) : doubleBS (a ++ b) = doubleBS a ++ doubleBS b :=
  List.flatMap_append ..

theorem escQ_append (a b : Chars) : escQ (a ++ b) = escQ a ++ escQ b :=
  List.flatMap_append ..

theorem escQ_noquote : ∀ (w : Chars), (∀ c ∈ w, c ≠ '"') → escQ w = w
  | [], _ => rfl
  | c :: w, h => by
    rw [escQ_cons, if_neg (h c (List.mem_cons_self ..)),
      escQ_noquote w (fun x hx => h x (List.mem_cons_of_mem c hx))]
    rfl

theorem doubleBS_noquote (w : Chars) (h : ∀ c ∈ w, c ≠ '"') :
    ∀ c ∈ doubleBS w, c ≠ '"' := by
  intro c hc
  obtain ⟨a, ha, hfa⟩ := List.mem_flatMap.mp hc
  by_cases hab : a = '\\'
  · rw [if_pos hab] at hfa
    rcases List.mem_cons.mp hfa with h1 | h1
    · subst h1; decide
    · rcases List.mem_cons.mp h1 with h2 | h2
      · subst h2; decide
      · cases h2
  · rw [if_neg hab] at hfa
    rcases List.mem_cons.mp hfa with h1 | h1
    · rw [h1]; exact h a ha
    · cases h1

theorem doubleBS_ne_nil (w : Chars) (h : w ≠ []) : doubleBS w ≠ [] := by
  cases w with
  | nil => exact absurd rfl h
  | cons c w' =>
    rw [doubleBS_cons]
    by_cases hc : c = '\\'
    · rw [if_pos hc]; simp
    · rw [if_neg hc]; simp

theorem collapseBS_bs_bs (rest : Chars) (h : rest ≠ []) :
    collapseBS ('\\' :: '\\' :: rest) =
      ('\\' :: (collapseBS rest).1, (collapseBS rest).2) := by
  cases rest with
  | nil => exact absurd rfl h
  | cons d ds =>
    rw [collapseBS]
    simp

theorem collapseBS_cons_ne (c : Char) (rest : Chars) (h : c ≠ '\\') :
    collapseBS (c :: rest) = (c :: (collapseBS rest).1, (collapseBS rest).2) := by
  rw [collapseBS.eq_def]
  split
  · rename_i heq
    injection heq with h1 _
    exact absurd h1 h
  · rename_i c' rest' heq
    injection heq with h1 h2
    subst h1
    rw [← h2]
  · rename_i heq
    cases heq

theorem collapseBS_doubleBS : ∀ (w : Chars),
    collapseBS (doubleBS w) = (w, decide (w.getLast? = some '\\'))
  | [] => rfl
  | c :: w' => by
    by_cases hc : c = '\\'
    · subst hc
      rw [doubleBS_cons, if_pos rfl]
      cases hw : w' with
      | nil => decide
      | cons x xs =>
        show collapseBS ('\\' :: '\\' :: doubleBS (x :: xs)) = _
        rw [collapseBS_bs_bs _ (doubleBS_ne_nil _ (by simp)),
          collapseBS_doubleBS (x :: xs)]
        dsimp only
        rw [List.getLast?_cons_cons]
    · rw [doubleBS_cons, if_neg hc]
      show collapseBS (c :: doubleBS w') = _
      rw [collapseBS_cons_ne c _ hc, collapseBS_doubleBS w']
      dsimp only
      cases w' with
      | nil => simp [hc]
      | cons x xs => rw [List.getLast?_cons_cons]

theorem collapseBS_doubleBS_concat : ∀ (w : Chars),
    collapseBS (doubleBS w ++ ['\\']) = (w ++ ['\\'], false)
  | [] => by decide
  | c :: w' => by
    by_cases hc : c = '\\'
    · subst hc
      rw [doubleBS_cons, if_pos rfl]
      show collapseBS ('\\' :: '\\' :: (doubleBS w' ++ ['\\'])) = _
      rw [collapseBS_bs_bs _ (by simp), collapseBS_doubleBS_concat w']
      rfl
    · rw [doubleBS_cons, if_neg hc]
      show collapseBS (c :: (doubleBS w' ++ ['\\'])) = _
      rw [collapseBS_cons_ne c _ hc, collapseBS_doubleBS_concat w']
      rfl

theorem length_le_flatMap (f : Char → List Char) (hf : ∀ c, 1 ≤ (f c).length) :
    ∀ (l : Chars), l.length ≤ (l.flatMap f).length
  | [] => Nat.le_refl _
  | c :: l => by
    rw [List.flatMap_cons, List.length_append, List.length_cons]
    have := length_le_flatMap f hf l
    have := hf c
    omega

theorem escapeStr_length (v : Chars) : v.length ≤ (escapeStr v).length := by
  rw [escapeStr_def]
  refine le_trans (le_trans ?_ (length_le_flatMap _ ?_ (doubleBS v))) (Nat.le_refl _)
  · exact length_le_flatMap _ (fun c => by by_cases hc : c = '\\' <;> simp [doubleBS, hc]) v
  · intro c
    by_cases hc : c = '"' <;> simp [hc]

theorem quotedLoop_noquote (w : Chars) (hw : ∀ c ∈ w, c ≠ '"')
    (fuel : Nat) (acc tail : Chars) (hfuel : 1 ≤ fuel) :
    parseQuotedLoop fuel (doubleBS w ++ '"' :: tail) acc = (.ok (acc ++ w), tail) := by
  cases fuel with
  | zero => omega
  | succ f =>
    simp only [parseQuotedLoop]
    have hbody : (doubleBS w ++ '"' :: tail).takeWhile (· ≠ '"') = doubleBS w := by
      rw [takeWhile_append_all _ _ ?h1, takeWhile_eq_nil _ ?h2, List.append_nil]
      case h1 =>
        intro c hc
        simpa using doubleBS_noquote w hw c hc
      case h2 =>
        intro c r hcr
        injection hcr with e1 _
        rw [← e1]
        simp
    rw [hbody]
    have hlen : ¬ ((doubleBS w).length ≥ (doubleBS w ++ '"' :: tail).length) := by
      rw [List.length_append, List.length_cons]
      omega
    rw [if_neg hlen]
    have hrest : (doubleBS w ++ '"' :: tail).drop ((doubleBS w).length + 1) = tail := by
      simp [List.drop_append]
    rw [hrest, collapseBS_doubleBS w]
    have hcond : (decide (w.getLast? = some '\\') && !(decide (w.getLast? = some '\\'))) =
        false := Bool.and_not_self _
    rw [hcond, if_neg (by simp : ¬(false = true))]

theorem quotedLoop_esc : ∀ (N : Nat) (v : Chars), v.length ≤ N →
    ∀ (fuel : Nat) (acc tail : Chars), v.length + 1 ≤ fuel →
      parseQuotedLoop fuel (escapeStr v ++ '"' :: tail) acc = (.ok (acc ++ v), tail) := by
  intro N
  induction N with
  | zero =>
    intro v hv fuel acc tail hfuel
    have hvnil : v = [] := List.eq_nil_of_length_eq_zero (Nat.le_zero.mp hv)
    subst hvnil
    have h := quotedLoop_noquote [] (by intro c hc; cases hc) fuel acc tail (by omega)
    simpa [doubleBS] using h
  | succ N ih =>
    intro v hv fuel acc tail hfuel
    cases hsplit : v.dropWhile (· ≠ '"') with
    | nil =>
      have hcomp : v.takeWhile (· ≠ '"') = v := by
        conv_rhs => rw [← List.takeWhile_append_dropWhile (p := (· ≠ '"')) (l := v)]
        rw [hsplit, List.append_nil]
      have hnq : ∀ c ∈ v, c ≠ '"' := by
        intro c hc
        have hmem : c ∈ v.takeWhile (· ≠ '"') := by rw [hcomp]; exact hc
        simpa using List.mem_takeWhile_imp hmem
      have hesc : escapeStr v = doubleBS v := by
        rw [escapeStr_def, escQ_noquote _ (doubleBS_noquote v hnq)]
      rw [hesc]
      exact quotedLoop_noquote v hnq fuel acc tail (by omega)
    | cons q v' =>
      have hq : q = '"' := by
        have h := dropWhile_head_prop v q v' hsplit
        simpa using h
      subst hq
      have hv_eq : v = v.takeWhile (· ≠ '"') ++ '"' :: v' := by
        conv_lhs => rw [← List.takeWhile_append_dropWhile (p := (· ≠ '"')) (l := v)]
        rw [hsplit]
      generalize hw : v.takeWhile (· ≠ '"') = w at hv_eq
      have hwnq : ∀ c ∈ w, c ≠ '"' := by
        intro c hc
        rw [← hw] at hc
        simpa using List.mem_takeWhile_imp hc
      have hesc : escapeStr v = doubleBS w ++ '\\' :: '"' :: escapeStr v' := by
        rw [hv_eq, escapeStr_def, doubleBS_append, doubleBS_cons,
          if_neg (by decide : ¬('"' : Char) = '\\'), escQ_append,
          escQ_noquote _ (doubleBS_noquote w hwnq)]
        rw [List.singleton_append, escQ_cons, if_pos rfl]
        rfl
      obtain ⟨f, rfl⟩ : ∃ f, fuel = f + 1 := ⟨fuel - 1, by omega⟩
      rw [hesc]
      have hassoc : (doubleBS w ++ '\\' :: '"' :: escapeStr v') ++ '"' :: tail
          = (doubleBS w ++ ['\\']) ++ '"' :: (escapeStr v' ++ '"' :: tail) := by
        simp
      rw [hassoc]
      simp only [parseQuotedLoop]
      have hbody : ((doubleBS w ++ ['\\']) ++ '"' :: (escapeStr v' ++ '"' :: tail)).takeWhile
          (· ≠ '"') = doubleBS w ++ ['\\'] := by
        rw [takeWhile_append_all _ _ ?h1, takeWhile_eq_nil _ ?h2, List.append_nil]
        case h1 =>
          intro c hc
          rcases List.mem_append.mp hc with hc | hc
          · simpa using doubleBS_noquote w hwnq c hc
          · rcases List.mem_cons.mp hc with hc | hc
            · rw [hc]; decide
            · cases hc
        case h2 =>
          intro c r hcr
          injection hcr with e1 _
          rw [← e1]
          simp
      rw [hbody]
      have hlen : ¬ ((doubleBS w ++ ['\\']).length ≥
          ((doubleBS w ++ ['\\']) ++ '"' :: (escapeStr v' ++ '"' :: tail)).length) := by
        rw [List.length_append (doubleBS w ++ ['\\'])]
        simp
      rw [if_neg hlen]
      have hrest : ((doubleBS w ++ ['\\']) ++ '"' :: (escapeStr v' ++ '"' :: tail)).drop
          ((doubleBS w ++ ['\\']).length + 1) = escapeStr v' ++ '"' :: tail := by
        rw [List.drop_append]
        rfl
      rw [hrest, collapseBS_doubleBS_concat w]
      have hcond : (decide ((w ++ ['\\']).getLast? = some '\\') && !false) = true := by
        rw [List.getLast?_concat]
        simp
      rw [hcond, if_pos rfl, List.dropLast_concat]
      have hlenv : v.length = w.length + 1 + v'.length := by
        rw [hv_eq]
        simp
        omega
      have hih := ih v' (by omega) f (acc ++ w ++ ['"']) tail (by omega)
      rw [hih, hv_eq]
      simp

theorem parse_string_quoted (v tail : Chars) :
    parse_string ('"' :: (escapeStr v ++ '"' :: tail)) = (.ok v, tail) := by
  unfold parse_string
  split
  · rename_i heq; cases heq
  · rename_i heq
    injection heq with e1 _
    cases e1
  · rename_i rest heq
    injection heq with _ e2
    rw [← e2]
    have h := quotedLoop_esc v.length v (Nat.le_refl _)
      ((escapeStr v ++ '"' :: tail).length + 1) [] tail ?hf
    case hf =>
      have := escapeStr_length v
      rw [List.length_append, List.length_cons]
      omega
    simpa using h
  · rename_i h1 h2 h3
    exact absurd rfl (h3 (escapeStr v ++ '"' :: tail))

theorem parse_string_bare (v tail : Chars) (h1 : v ≠ [])
    (h2 : ∀ c ∈ v, isAsciiWs c = false ∧ c ≠ ')' ∧ c ≠ '(' ∧ c ≠ '"')
    (h3 : delim tail = true) : parse_string (v ++ tail) = (.ok v, tail) := by
  obtain ⟨c0, v', hcons⟩ : ∃ c0 v', v = c0 :: v' := by
    cases v with
    | nil => exact absurd rfl h1
    | cons c0 v' => exact ⟨c0, v', rfl⟩
  have hhead := h2 c0 (by rw [hcons]; exact List.mem_cons_self ..)
  rw [hcons, List.cons_append]
  unfold parse_string
  split
  · rename_i heq; cases heq
  · rename_i heq
    injection heq with e1 _
    exact absurd e1 hhead.2.2.1
  · rename_i rest heq
    injection heq with e1 _
    exact absurd e1 hhead.2.2.2
  · rename_i hn1 hn2 hn3
    have hrun : atomRun (c0 :: (v' ++ tail)) = c0 :: v' := by
      rw [← List.cons_append, ← hcons]
      refine atomRun_append v tail ?_ h3
      intro c hc
      exact ⟨(h2 c hc).1, (h2 c hc).2.1⟩
    simp only [hrun]
    rw [if_neg (by simp [List.isEmpty_iff] : ¬(c0 :: v').isEmpty = true)]
    rw [show (c0 :: (v' ++ tail)).drop (c0 :: v').length = tail by
      rw [← List.cons_append, List.drop_left]]

/-! ### Token classification of emitted syntax -/

theorem peek_token_loop_string_head (c : Char) (r : Chars) (int : Bool)
    (hp : c ≠ '(') (hdot : c ≠ '.') (hdash : c ≠ '-')
    (hws : isAsciiWs c = false) (hdig : isAsciiDigit c = false) :
    peek_token_loop (c :: r) int = .String := by
  rw [peek_token_loop, if_neg hp, if_neg hdot, if_neg hdash,
    if_neg (by simp [hws]), if_neg (by simp [hdig])]

theorem peek_token_scan : ∀ (v tail : Chars) (int : Bool),
    (∀ c ∈ v, c ≠ '(' ∧ isAsciiWs c = false) →
    (∃ c ∈ v, ¬(isAsciiDigit c = true ∨ c = '.' ∨ c = '-')) →
    peek_token_loop (v ++ tail) int = .String
  | [], _, _, _, hex => by
    obtain ⟨c, hc, _⟩ := hex
    cases hc
  | c :: v', tail, int, hall, hex => by
    have hc := hall c (List.mem_cons_self ..)
    have hwit : (¬(isAsciiDigit c = true ∨ c = '.' ∨ c = '-')) ∨
        (∃ x ∈ v', ¬(isAsciiDigit x = true ∨ x = '.' ∨ x = '-')) := by
      obtain ⟨x, hx, hPx⟩ := hex
      rcases List.mem_cons.mp hx with hx | hx
      · exact Or.inl (hx ▸ hPx)
      · exact Or.inr ⟨x, hx, hPx⟩
    have htail : ∀ x ∈ v', x ≠ '(' ∧ isAsciiWs x = false :=
      fun x hx => hall x (List.mem_cons_of_mem c hx)
    by_cases hnum : isAsciiDigit c = true ∨ c = '.' ∨ c = '-'
    · have hwit' : ∃ x ∈ v', ¬(isAsciiDigit x = true ∨ x = '.' ∨ x = '-') := by
        rcases hwit with hw | hw
        · exact absurd hnum hw
        · exact hw
      rcases hnum with hdig | hdot | hdash
      · rw [List.cons_append, peek_token_loop, if_neg hc.1,
          if_neg (digit_ne c hdig '.' (by decide)), if_neg (digit_ne c hdig '-' (by decide)),
          if_neg (by simp [hc.2]), if_pos (by simp [hdig])]
        exact peek_token_scan v' tail int htail hwit'
      · subst hdot
        rw [List.cons_append, peek_token_loop, if_neg hc.1, if_pos rfl]
        exact peek_token_scan v' tail false htail hwit'
      · subst hdash
        rw [List.cons_append, peek_token_loop, if_neg hc.1,
          if_neg (by decide : ¬('-' : Char) = '.'), if_pos rfl]
        exact peek_token_scan v' tail int htail hwit'
    · push_neg at hnum
      rw [List.cons_append]
      exact peek_token_loop_string_head c _ int hc.1 hnum.2.1 hnum.2.2 hc.2
        (by simpa using hnum.1)

theorem peek_token_string_of_scan (v tail : Chars) (hne : v ≠ [])
    (hall : ∀ c ∈ v, c ≠ '(' ∧ isAsciiWs c = false)
    (hex : ∃ c ∈ v, ¬(isAsciiDigit c = true ∨ c = '.' ∨ c = '-')) :
    peek_token (v ++ tail) = .ok .String := by
  obtain ⟨c0, v', hcons⟩ : ∃ c0 v', v = c0 :: v' := by
    cases v with
    | nil => exact absurd rfl hne
    | cons c0 v' => exact ⟨c0, v', rfl⟩
  have hscan := peek_token_scan v tail true hall hex
  rw [hcons, List.cons_append] at hscan ⊢
  calc peek_token (c0 :: (v' ++ tail))
      = .ok (peek_token_loop (c0 :: (v' ++ tail)) true) := rfl
    _ = .ok .String := by rw [hscan]

theorem peek_token_quoted (rest : Chars) : peek_token ('"' :: rest) = .ok .String := by
  calc peek_token ('"' :: rest) = .ok (peek_token_loop ('"' :: rest) true) := rfl
    _ = .ok .String := by
        rw [peek_token_loop_string_head '"' rest true (by decide) (by decide) (by decide)
          (by decide) (by decide)]

/-! ### Matching an emitted `(name` -/

theorem identName_parts (nm : Chars) (h : identName nm = true) :
    nm ≠ [] ∧ ∀ c ∈ nm, isIdentChar c = true := by
  simp only [identName, Bool.and_eq_true] at h
  refine ⟨by simpa [List.isEmpty_iff] using h.1, List.all_eq_true.mp h.2⟩

theorem consume_beginning_exact (nm rest : Chars) (h1 : identName nm = true)
    (h2 : ∀ c r, rest = c :: r → isIdentChar c = false) :
    consume_beginning nm ('(' :: (nm ++ rest)) = (.ok (), rest) := by
  obtain ⟨hne, hall⟩ := identName_parts nm h1
  have hskip : skip_whitespace ('(' :: (nm ++ rest)) = '(' :: (nm ++ rest) :=
    skip_whitespace_eq_self _ (fun c r hcr => by injection hcr with e1 _; rw [← e1]; decide)
  have hpeek : peek_sexpr_identifier ('(' :: (nm ++ rest)) = .ok nm := by
    have hred : peek_sexpr_identifier ('(' :: (nm ++ rest)) =
        (if ((nm ++ rest).takeWhile isIdentChar).isEmpty = true then
          Except.error Err.ExpectedIdentifier
         else Except.ok ((nm ++ rest).takeWhile isIdentChar)) := rfl
    rw [hred, takeWhile_append_all nm rest hall,
      takeWhile_eq_nil rest (fun c r hcr => h2 c r hcr), List.append_nil,
      if_neg (by simpa [List.isEmpty_iff] using hne)]
  have hcons : consume ('(' :: (nm ++ rest)) (nm.length + 1) = .ok rest := by
    unfold consume
    rw [if_neg (by
      rw [List.length_cons, List.length_append]
      omega)]
    rw [List.drop_succ_cons, List.drop_left]
  simp only [consume_beginning]
  rw [hskip, hpeek]
  simp only
  rw [if_neg (by simp), hcons]

/-! ### The quoting decision -/

theorem need_quotes_false_aggressive (v : Chars) (h : need_quotes v true = false) :
    v ≠ [] ∧ ∀ c ∈ v, isIdentChar c = true := by
  simp only [need_quotes, Bool.or_eq_false_iff, if_pos rfl] at h
  obtain ⟨hne, hany⟩ := h
  refine ⟨by simpa [List.isEmpty_iff] using hne, ?_⟩
  intro c hc
  by_cases hab : isAsciiAlpha c = true
  · simp [isIdentChar, hab]
  · by_cases hu : c = '_'
    · simp [isIdentChar, hu]
    · exfalso
      have hab' : isAsciiAlpha c = false := by simpa using hab
      have hx : v.any (fun c => !isAsciiAlpha c && decide (c ≠ '_')) = true :=
        List.any_eq_true.mpr ⟨c, hc, by rw [Bool.and_eq_true]; exact ⟨by simp [hab'], by simp [hu]⟩⟩
      rw [hx] at hany
      cases hany

theorem need_quotes_false_plain (v : Chars) (h : need_quotes v false = false) :
    v ≠ [] ∧ ∀ c ∈ v,
      c ≠ ' ' ∧ c ≠ '\t' ∧ c ≠ '\n' ∧ c ≠ '\r' ∧ c ≠ '(' ∧ c ≠ ')' ∧ c ≠ '"' := by
  simp only [need_quotes, Bool.or_eq_false_iff, if_neg (by simp : ¬(false = true))] at h
  obtain ⟨hne, hany⟩ := h
  refine ⟨by simpa [List.isEmpty_iff] using hne, ?_⟩
  intro c hc
  have hca : ¬(quoteCHARS.contains c = true) := by
    intro hx
    have hy : v.any (fun c => quoteCHARS.contains c) = true :=
      List.any_eq_true.mpr ⟨c, hc, hx⟩
    rw [hy] at hany
    cases hany
  refine ⟨?_, ?_, ?_, ?_, ?_, ?_, ?_⟩ <;> (intro he; exact hca (by rw [he]; decide))

theorem write_str_decode (v : Chars) (agg : Bool) (tail : Chars) (hd : delim tail = true)
    (hbare : need_quotes v agg = false →
      v ≠ [] ∧ ∀ c ∈ v, isAsciiWs c = false ∧ c ≠ ')' ∧ c ≠ '(' ∧ c ≠ '"') :
    parse_string ((if need_quotes v agg then '"' :: (escapeStr v ++ ['"']) else v) ++ tail) =
      (.ok v, tail) := by
  by_cases hq : need_quotes v agg = true
  · rw [if_pos hq]
    have hassoc : ('"' :: (escapeStr v ++ ['"'])) ++ tail =
        '"' :: (escapeStr v ++ '"' :: tail) := by simp
    rw [hassoc]
    exact parse_string_quoted v tail
  · have hq' : need_quotes v agg = false := by simpa using hq
    rw [if_neg (by simp [hq'])]
    obtain ⟨hne, hall⟩ := hbare hq'
    exact parse_string_bare v tail hne hall hd

/-! ### The serializer succeeds on the supported fragment -/

theorem Values.ofList_toList : ∀ (vs : Values), Values.ofList (Values.toList vs) = vs
  | .nil => rfl
  | .cons v vs => by rw [Values.toList, Values.ofList, Values.ofList_toList vs]

theorem mkFields_length : ∀ (flds : Fields), (mkFields flds).length = sizeF flds
  | .nil => rfl
  | .cons _ _ rest => by rw [mkFields, List.length_cons, mkFields_length rest, sizeF]

theorem chunkOfN_eq (p : Bool) (l : Nat) (σ : FieldShape) (v : Value) (c : Chars)
    (h : mkE σ p l none v = .ok c) : chunkOfN p l σ v = c := by
  unfold chunkOfN
  rw [h]

theorem chunkOf_eq (p : Bool) (l : Nat) (nm : Chars) (σ : FieldShape) (v : Value) (c : Chars)
    (h : mkE σ p l (some nm) v = .ok c) : chunkOf p l nm σ v = c := by
  unfold chunkOf
  rw [h]

theorem wfEntry_of_wfShape (σ : FieldShape) (h : wfShape σ = true) : wfEntry σ = true := by
  cases σ <;> simp_all [wfEntry, wfShape]

theorem wfShape_fTuple (nm : Chars) (es : Shapes) :
    wfShape (.fTuple nm es) = (identName nm &&
      (match es with | .nil => false | .cons _ _ => true) && wfShapesAll es) := by
  cases es <;> rfl

theorem wfFields_cons (nm : Chars) (s : FieldShape) (rest : Fields) :
    wfFields (.cons nm s rest) =
      (if nm = ([] : Chars) then
        ((match s with | .fSeq e => wfShape e | _ => false) &&
         (match rest with | .nil => true | .cons _ _ _ => false))
       else
        (identName nm && (fieldNames rest).all (fun m => decide (m ≠ nm)) &&
         wfEntry s && wfFields rest)) := by
  cases s <;> cases rest <;> rfl

mutual
theorem mkE_ok (v : Value) (σ : FieldShape) (pretty : Bool) (lvl : Nat)
    (hwf : wfShape σ = true) (hfits : fits σ v = true) :
    ∃ c, ∀ name, mkE σ pretty lvl name v = .ok c := by
  cases σ with
  | fBool => exact absurd hwf (by simp [wfShape])
  | fFloat => exact absurd hwf (by simp [wfShape])
  | fOpt s => exact absurd hwf (by simp [wfShape])
  | fSeq e => exact absurd hwf (by simp [wfShape])
  | fInt lo hi tn =>
    cases v <;> simp only [fits, Bool.false_eq_true] at hfits
    rename_i n
    exact ⟨write_integer n, fun name => by simp [mkE]⟩
  | fStr =>
    cases v <;> simp only [fits, Bool.false_eq_true] at hfits
    rename_i s
    exact ⟨write_str s true, fun name => by simp [mkE]⟩
  | fUnit nm =>
    cases v <;> simp only [fits, Bool.false_eq_true] at hfits
    exact ⟨begin_sexpr pretty lvl nm ++ [')'], fun name => by simp [mkE]⟩
  | fStruct nm flds =>
    cases v with
    | vStruct vs =>
      simp only [wfShape, Bool.and_eq_true] at hwf
      simp only [fits, Bool.false_eq_true] at hfits
      have hrec := encRecord_ok vs flds pretty (lvl + 1) hwf.2 hfits
      refine ⟨begin_sexpr pretty lvl nm ++ chunksFields pretty (lvl + 1) flds vs ++ [')'],
        fun name => ?_⟩
      simp only [mkE.eq_def]
      rw [hrec]
    | vBool b => simp only [fits, Bool.false_eq_true] at hfits
    | vInt n => simp only [fits, Bool.false_eq_true] at hfits
    | vFloat a b => simp only [fits, Bool.false_eq_true] at hfits
    | vStr s => simp only [fits, Bool.false_eq_true] at hfits
    | vNone => simp only [fits, Bool.false_eq_true] at hfits
    | vSome v' => simp only [fits, Bool.false_eq_true] at hfits
    | vUnit => simp only [fits, Bool.false_eq_true] at hfits
    | vTuple vs => simp only [fits, Bool.false_eq_true] at hfits
    | vSeq vs => simp only [fits, Bool.false_eq_true] at hfits
    | vVariant i => simp only [fits, Bool.false_eq_true] at hfits
  | fTuple nm es =>
    cases v with
    | vTuple vs =>
      rw [wfShape_fTuple] at hwf
      simp only [Bool.and_eq_true] at hwf
      simp only [fits, Bool.false_eq_true] at hfits
      have hrec := encTup_ok vs es pretty (lvl + 1) hwf.2 hfits
      refine ⟨begin_sexpr pretty lvl nm ++ chunksTup pretty (lvl + 1) es vs ++ [')'],
        fun name => ?_⟩
      simp only [mkE.eq_def]
      rw [hrec]
    | vBool b => simp only [fits, Bool.false_eq_true] at hfits
    | vInt n => simp only [fits, Bool.false_eq_true] at hfits
    | vFloat a b => simp only [fits, Bool.false_eq_true] at hfits
    | vStr s => simp only [fits, Bool.false_eq_true] at hfits
    | vNone => simp only [fits, Bool.false_eq_true] at hfits
    | vSome v' => simp only [fits, Bool.false_eq_true] at hfits
    | vUnit => simp only [fits, Bool.false_eq_true] at hfits
    | vStruct vs => simp only [fits, Bool.false_eq_true] at hfits
    | vSeq vs => simp only [fits, Bool.false_eq_true] at hfits
    | vVariant i => simp only [fits, Bool.false_eq_true] at hfits
  | fEnum vars =>
    cases v with
    | vVariant i =>
      simp only [fits, decide_eq_true_eq] at hfits
      refine ⟨write_str vars[i] false, fun name => ?_⟩
      simp only [mkE.eq_def]
      rw [List.get?_eq_getElem?, List.getElem?_eq_getElem hfits]
    | vBool b => simp only [fits, Bool.false_eq_true] at hfits
    | vInt n => simp only [fits, Bool.false_eq_true] at hfits
    | vFloat a b => simp only [fits, Bool.false_eq_true] at hfits
    | vStr s => simp only [fits, Bool.false_eq_true] at hfits
    | vNone => simp only [fits, Bool.false_eq_true] at hfits
    | vSome v' => simp only [fits, Bool.false_eq_true] at hfits
    | vUnit => simp only [fits, Bool.false_eq_true] at hfits
    | vStruct vs => simp only [fits, Bool.false_eq_true] at hfits
    | vTuple vs => simp only [fits, Bool.false_eq_true] at hfits
    | vSeq vs => simp only [fits, Bool.false_eq_true] at hfits
termination_by 2 * sizeOf v
decreasing_by all_goals (subst_vars; simp_wf <;> omega)

theorem mkE_named_ok (v : Value) (nm : Chars) (σ : FieldShape) (pretty : Bool) (lvl : Nat)
    (hwf : wfEntry σ = true) (hfits : fits σ v = true) :
    ∃ c, mkE σ pretty lvl (some nm) v = .ok c := by
  cases σ with
  | fBool =>
    cases v <;> simp only [fits, Bool.false_eq_true] at hfits
    rename_i b
    exact ⟨if b then write_str nm true else [], by simp [mkE]⟩
  | fOpt s =>
    simp only [wfEntry] at hwf
    cases v <;> simp only [fits, Bool.false_eq_true] at hfits
    · exact ⟨[], by simp [mkE]⟩
    · rename_i v'
      obtain ⟨c, hc⟩ := mkE_ok v' s pretty lvl hwf hfits
      refine ⟨c, ?_⟩
      rw [mkE.eq_def]
      dsimp only
      exact hc (some nm)
  | fSeq e =>
    simp only [wfEntry] at hwf
    cases v <;> simp only [fits, Bool.false_eq_true] at hfits
    rename_i vs
    cases nm with
    | nil =>
      obtain hseq := encSeqE_ok vs e pretty lvl hwf hfits
      refine ⟨chunksSeqE pretty lvl e vs, ?_⟩
      rw [mkE.eq_def]
      dsimp only
      exact hseq
    | cons c0 nm' =>
      obtain hseq := encSeqE_ok vs e pretty (lvl + 1) hwf hfits
      refine ⟨begin_sexpr pretty lvl (c0 :: nm') ++ chunksSeqE pretty (lvl + 1) e vs ++ [')'],
        ?_⟩
      rw [mkE.eq_def]
      dsimp only
      rw [hseq]
  | fInt lo hi tn =>
    obtain ⟨c, hc⟩ := mkE_ok v _ pretty lvl (by simp [wfShape]) hfits
    exact ⟨c, hc (some nm)⟩
  | fStr =>
    obtain ⟨c, hc⟩ := mkE_ok v _ pretty lvl (by simp [wfShape]) hfits
    exact ⟨c, hc (some nm)⟩
  | fFloat => exact absurd hwf (by simp [wfEntry, wfShape])
  | fUnit nm' =>
    obtain ⟨c, hc⟩ := mkE_ok v _ pretty lvl (by simpa [wfEntry, wfShape] using hwf) hfits
    exact ⟨c, hc (some nm)⟩
  | fStruct nm' flds =>
    obtain ⟨c, hc⟩ := mkE_ok v _ pretty lvl (by simpa [wfEntry, wfShape] using hwf) hfits
    exact ⟨c, hc (some nm)⟩
  | fTuple nm' es =>
    obtain ⟨c, hc⟩ := mkE_ok v _ pretty lvl (by simpa [wfEntry, wfShape] using hwf) hfits
    exact ⟨c, hc (some nm)⟩
  | fEnum vars =>
    obtain ⟨c, hc⟩ := mkE_ok v _ pretty lvl (by simpa [wfEntry, wfShape] using hwf) hfits
    exact ⟨c, hc (some nm)⟩
termination_by 2 * sizeOf v + 1
decreasing_by all_goals (subst_vars; simp_wf <;> omega)

theorem encRecord_ok (vs : Values) (flds : Fields) (pretty : Bool) (lvl : Nat)
    (hwf : wfFields flds = true) (hfits : fitsRecord flds vs = true) :
    encRecordFields pretty lvl (mkFieldsE flds) vs.toList =
      .ok (chunksFields pretty lvl flds vs) := by
  cases flds with
  | nil =>
    cases vs with
    | nil => rfl
    | cons v vr => simp only [fitsRecord, Bool.false_eq_true] at hfits
  | cons nm σ fr =>
    cases vs with
    | nil => simp only [fitsRecord, Bool.false_eq_true] at hfits
    | cons v vr =>
      simp only [fitsRecord, Bool.and_eq_true] at hfits
      have hent : wfEntry σ = true ∧ wfFields fr = true := by
        rw [wfFields_cons] at hwf
        by_cases hnm : nm = ([] : Chars)
        · rw [if_pos hnm] at hwf
          simp only [Bool.and_eq_true] at hwf
          constructor
          · cases σ <;> simp_all [wfEntry]
          · cases fr with
            | nil => rfl
            | cons a b c => simp_all
        · rw [if_neg hnm] at hwf
          simp only [Bool.and_eq_true] at hwf
          exact ⟨hwf.1.2, hwf.2⟩
      obtain ⟨c, hc⟩ := mkE_named_ok v nm σ pretty lvl hent.1 hfits.1
      have hrest := encRecord_ok vr fr pretty lvl hent.2 hfits.2
      rw [Values.toList]
      simp only [mkFieldsE, encRecordFields]
      rw [hc, hrest]
      rw [show chunksFields pretty lvl (.cons nm σ fr) (.cons v vr) =
        chunkOf pretty lvl nm σ v ++ chunksFields pretty lvl fr vr from rfl]
      rw [chunkOf_eq pretty lvl nm σ v c hc]
termination_by 2 * sizeOf vs
decreasing_by all_goals (subst_vars; simp_wf <;> omega)

theorem encTup_ok (vs : Values) (es : Shapes) (pretty : Bool) (lvl : Nat)
    (hwf : wfShapesAll es = true) (hfits : fitsElems es vs = true) :
    encTupleElems pretty lvl (mkShapesE es) vs.toList = .ok (chunksTup pretty lvl es vs) := by
  cases es with
  | nil =>
    cases vs with
    | nil => rfl
    | cons v vr => simp only [fitsElems, Bool.false_eq_true] at hfits
  | cons σ es' =>
    cases vs with
    | nil => simp only [fitsElems, Bool.false_eq_true] at hfits
    | cons v vr =>
      simp only [fitsElems, Bool.and_eq_true] at hfits
      simp only [wfShapesAll, Bool.and_eq_true] at hwf
      obtain ⟨c, hc⟩ := mkE_ok v σ pretty lvl hwf.1 hfits.1
      have hrest := encTup_ok vr es' pretty lvl hwf.2 hfits.2
      rw [Values.toList]
      simp only [mkShapesE, encTupleElems]
      rw [hc none, hrest]
      rw [show chunksTup pretty lvl (.cons σ es') (.cons v vr) =
        chunkOfN pretty lvl σ v ++ chunksTup pretty lvl es' vr from rfl]
      rw [chunkOfN_eq pretty lvl σ v c (hc none)]
termination_by 2 * sizeOf vs
decreasing_by all_goals (subst_vars; simp_wf <;> omega)

theorem encSeqE_ok (vs : Values) (e : FieldShape) (pretty : Bool) (lvl : Nat)
    (hwf : wfShape e = true) (hfits : fitsSeq e vs = true) :
    encElems (mkE e) pretty lvl vs.toList = .ok (chunksSeqE pretty lvl e vs) := by
  cases vs with
  | nil => rfl
  | cons v vr =>
    simp only [fitsSeq, Bool.and_eq_true] at hfits
    obtain ⟨c, hc⟩ := mkE_ok v e pretty lvl hwf hfits.1
    have hrest := encSeqE_ok vr e pretty lvl hwf hfits.2
    rw [Values.toList]
    simp only [encElems]
    rw [hc none, hrest]
    rw [show chunksSeqE pretty lvl e (.cons v vr) =
      chunkOfN pretty lvl e v ++ chunksSeqE pretty lvl e vr from rfl]
    rw [chunkOfN_eq pretty lvl e v c (hc none)]
termination_by 2 * sizeOf vs
decreasing_by all_goals (subst_vars; simp_wf <;> omega)
end


/-! ### Small decode-step facts -/

theorem check_eoe_some (n : Nat) (I : Chars) (j : Nat) :
    check_eoe n I (some j) = .ok (skip_whitespace I, some j) := rfl

theorem check_eoe_close (n : Nat) (I rest : Chars) (h : skip_whitespace I = ')' :: rest) :
    check_eoe n I none = .ok (rest, some (n + 1)) := by
  simp only [check_eoe, h]

theorem check_eoe_open (n : Nat) (I : Chars) (c : Char) (rest : Chars)
    (h : skip_whitespace I = c :: rest) (hc : c ≠ ')') :
    check_eoe n I none = .ok (c :: rest, none) := by
  simp only [check_eoe, h]
  split
  · rename_i heq
    cases heq
  · rename_i r heq
    injection heq with e1 _
    exact absurd e1 hc
  · rfl

theorem skipEmpties_none (fds : List (Chars × D)) (cd i : Nat) :
    skipEmpties fds cd i none = ([], i, none) := by
  cases cd with
  | zero => rfl
  | succ cd' =>
    rw [skipEmpties]
    by_cases h : i < fds.length
    · rw [dif_pos h]
      by_cases hnm : (fds.get ⟨i, h⟩).1 = ([] : Chars)
      · rw [if_pos hnm]
      · rw [if_neg hnm]
    · rw [dif_neg h]

theorem skipEmpties_ge (fds : List (Chars × D)) (cd i : Nat) (st : Option Nat)
    (h : fds.length ≤ i) : skipEmpties fds cd i st = ([], i, st) := by
  cases cd with
  | zero => rfl
  | succ cd' =>
    rw [skipEmpties.eq_def]
    dsimp only
    rw [dif_neg (by omega)]

theorem skipEmpties_named (fds : List (Chars × D)) (cd i : Nat) (st : Option Nat)
    (h : i < fds.length) (hnm : (fds.get ⟨i, h⟩).1 ≠ []) :
    skipEmpties fds cd i st = ([], i, st) := by
  cases cd with
  | zero => rfl
  | succ cd' =>
    rw [skipEmpties.eq_def]
    dsimp only
    rw [dif_pos h, if_neg hnm]

theorem skipEmpties_empty_last (fds : List (Chars × D)) (cd i k : Nat)
    (h : i < fds.length) (hnm : (fds.get ⟨i, h⟩).1 = ([] : Chars)) (hk : k ≠ i)
    (hlast : fds.length ≤ i + 1) (hcd : 1 ≤ cd) :
    skipEmpties fds cd i (some k) = ([Value.vSeq .nil], i + 1, some k) := by
  cases cd with
  | zero => omega
  | succ cd' =>
    rw [skipEmpties.eq_def]
    dsimp only
    rw [dif_pos h, if_pos hnm]
    simp only [if_neg hk]
    rw [skipEmpties_ge fds cd' (i + 1) (some k) hlast]

theorem mkD_miss_wfShape (σ : FieldShape) (h : wfShape σ = true) :
    ∃ e, (mkD σ).miss = (.error e, false) := by
  cases σ with
  | fInt lo hi tn => exact ⟨_, rfl⟩
  | fStr => exact ⟨_, rfl⟩
  | fUnit nm => exact ⟨_, rfl⟩
  | fStruct nm flds => exact ⟨_, rfl⟩
  | fTuple nm es => exact ⟨_, rfl⟩
  | fEnum vars => exact ⟨_, rfl⟩
  | fBool => exact absurd h (by simp [wfShape])
  | fFloat => exact absurd h (by simp [wfShape])
  | fOpt s => exact absurd h (by simp [wfShape])
  | fSeq e => exact absurd h (by simp [wfShape])

theorem mkD_opt_miss (σ : FieldShape) (h : wfShape σ = true) :
    (mkD (.fOpt σ)).miss = (.ok .vNone, false) := by
  obtain ⟨e, he⟩ := mkD_miss_wfShape σ h
  have hred : (mkD (.fOpt σ)).miss = (match (mkD σ).miss with
    | (.ok v, t) => (.ok (.vSome v), t)
    | (.error e, t) => if t then (.error e, t) else (.ok .vNone, false)) := rfl
  rw [hred, he]
  rfl

theorem firstIdxFrom_lb {β : Type} (ident : Chars) : ∀ (l : List (Chars × β)) (b J : Nat),
    firstIdxFrom ident l b = some J → b ≤ J
  | [], _, _, h => by cases h
  | (nm, d) :: l, b, J, h => by
    rw [firstIdxFrom] at h
    split at h
    · injection h with h1
      omega
    · have := firstIdxFrom_lb ident l (b + 1) J h
      omega

theorem firstIdx_names_none (ident : Chars) : ∀ (flds : Fields) (b : Nat),
    (fieldNames flds).all (fun m => decide (m ≠ ident)) = true →
    firstIdxFrom ident (mkFields flds) b = none
  | .nil, _, _ => rfl
  | .cons nm σ fr, b, h => by
    simp only [fieldNames, List.all_cons, Bool.and_eq_true, decide_eq_true_eq] at h
    rw [mkFields, firstIdxFrom, if_neg h.1]
    exact firstIdx_names_none ident fr (b + 1) (List.all_eq_true.mpr
      (fun m hm => by simpa using List.all_eq_true.mp h.2 m hm))

theorem findIdx_distinct_go : ∀ (l : List Chars) (i : Nat) (h : i < l.length) (s : Nat),
    distinctNames l = true → l.findIdx? (fun v => v = l[i]) s = some (s + i)
  | n :: rest, 0, h, s, hd => by
    rw [List.findIdx?_cons]
    simp
  | n :: rest, i + 1, h, s, hd => by
    simp only [distinctNames, Bool.and_eq_true] at hd
    have hi : i < rest.length := by simpa using h
    have hmem : rest[i] ∈ rest := List.getElem_mem hi
    have hne : rest[i] ≠ n := by
      have hx := List.all_eq_true.mp hd.1 _ hmem
      simpa using hx
    simp only [List.getElem_cons_succ]
    rw [List.findIdx?_cons]
    rw [if_neg (by simp only [decide_eq_true_eq]; exact Ne.symm hne)]
    rw [findIdx_distinct_go rest i hi (s + 1) hd.2]
    have harith : s + 1 + i = s + (i + 1) := by omega
    rw [harith]

theorem findIdx_distinct (l : List Chars) (i : Nat) (h : i < l.length)
    (hd : distinctNames l = true) : l.findIdx? (fun v => v = l[i]) = some i := by
  have hx := findIdx_distinct_go l i h 0 hd
  simpa using hx

/-! ### The shape of emitted chunks -/

theorem mkE_name_irrel (σ : FieldShape) (hwf : wfShape σ = true) (p : Bool) (l : Nat)
    (name : Option Chars) (v : Value) : mkE σ p l name v = mkE σ p l none v := by
  cases σ with
  | fInt lo hi tn => rfl
  | fStr => rfl
  | fUnit nm => rfl
  | fStruct nm flds => rfl
  | fTuple nm es => rfl
  | fEnum vars => rfl
  | fBool => exact absurd hwf (by simp [wfShape])
  | fFloat => exact absurd hwf (by simp [wfShape])
  | fOpt s => exact absurd hwf (by simp [wfShape])
  | fSeq e => exact absurd hwf (by simp [wfShape])

theorem chunkOf_eq_chunkOfN (p : Bool) (l : Nat) (nm : Chars) (σ : FieldShape) (v : Value)
    (hwf : wfShape σ = true) : chunkOf p l nm σ v = chunkOfN p l σ v := by
  unfold chunkOf chunkOfN
  rw [mkE_name_irrel σ hwf p l (some nm) v]

theorem chunkOfN_int (p : Bool) (l : Nat) (lo hi : Int) (tn : String) (n : Int) :
    chunkOfN p l (.fInt lo hi tn) (.vInt n) = ' ' :: intToDec n :=
  chunkOfN_eq p l _ _ _ (by simp [mkE, write_integer])

theorem chunkOfN_str (p : Bool) (l : Nat) (s : Chars) :
    chunkOfN p l .fStr (.vStr s) = write_str s true :=
  chunkOfN_eq p l _ _ _ (by simp [mkE])

theorem chunkOfN_unit (p : Bool) (l : Nat) (nm : Chars) :
    chunkOfN p l (.fUnit nm) .vUnit = begin_sexpr p l nm ++ [')'] :=
  chunkOfN_eq p l _ _ _ (by simp [mkE])

theorem chunkOfN_struct (p : Bool) (l : Nat) (nm : Chars) (flds : Fields) (vs : Values)
    (hwf : wfFields flds = true) (hfits : fitsRecord flds vs = true) :
    chunkOfN p l (.fStruct nm flds) (.vStruct vs) =
      begin_sexpr p l nm ++ chunksFields p (l + 1) flds vs ++ [')'] := by
  apply chunkOfN_eq
  rw [mkE.eq_def]
  dsimp only
  rw [encRecord_ok vs flds p (l + 1) hwf hfits]

theorem chunkOfN_tuple (p : Bool) (l : Nat) (nm : Chars) (es : Shapes) (vs : Values)
    (hwf : wfShapesAll es = true) (hfits : fitsElems es vs = true) :
    chunkOfN p l (.fTuple nm es) (.vTuple vs) =
      begin_sexpr p l nm ++ chunksTup p (l + 1) es vs ++ [')'] := by
  apply chunkOfN_eq
  rw [mkE.eq_def]
  dsimp only
  rw [encTup_ok vs es p (l + 1) hwf hfits]

theorem chunkOfN_enum (p : Bool) (l : Nat) (vars : List Chars) (i : Nat)
    (h : i < vars.length) :
    chunkOfN p l (.fEnum vars) (.vVariant i) = write_str vars[i] false := by
  apply chunkOfN_eq
  rw [mkE.eq_def]
  dsimp only
  rw [List.get?_eq_getElem?, List.getElem?_eq_getElem h]

theorem chunkOf_bool (p : Bool) (l : Nat) (nm : Chars) (b : Bool) :
    chunkOf p l nm .fBool (.vBool b) = if b then write_str nm true else [] :=
  chunkOf_eq p l _ _ _ _ (by simp [mkE])

theorem chunkOf_opt_none (p : Bool) (l : Nat) (nm : Chars) (s : FieldShape) :
    chunkOf p l nm (.fOpt s) .vNone = [] :=
  chunkOf_eq p l _ _ _ _ (by simp [mkE])

theorem chunkOf_opt_some (p : Bool) (l : Nat) (nm : Chars) (s : FieldShape) (v' : Value)
    (hwf : wfShape s = true) :
    chunkOf p l nm (.fOpt s) (.vSome v') = chunkOfN p l s v' := by
  unfold chunkOf chunkOfN
  rw [show mkE (.fOpt s) p l (some nm) (.vSome v') = mkE s p l (some nm) v' from by
    rw [mkE.eq_def]]
  rw [mkE_name_irrel s hwf]

theorem chunkOf_seq_named (p : Bool) (l : Nat) (c0 : Char) (nm' : Chars) (e : FieldShape)
    (vs : Values) (hwf : wfShape e = true) (hfits : fitsSeq e vs = true) :
    chunkOf p l (c0 :: nm') (.fSeq e) (.vSeq vs) =
      begin_sexpr p l (c0 :: nm') ++ chunksSeqE p (l + 1) e vs ++ [')'] := by
  apply chunkOf_eq
  rw [mkE.eq_def]
  dsimp only
  rw [encSeqE_ok vs e p (l + 1) hwf hfits]

theorem chunkOf_seq_empty (p : Bool) (l : Nat) (e : FieldShape) (vs : Values)
    (hwf : wfShape e = true) (hfits : fitsSeq e vs = true) :
    chunkOf p l ([] : Chars) (.fSeq e) (.vSeq vs) = chunksSeqE p l e vs := by
  apply chunkOf_eq
  rw [mkE.eq_def]
  dsimp only
  rw [encSeqE_ok vs e p l hwf hfits]

theorem sepChunk_ws (p : Bool) (lvl : Nat) (hl : 0 < lvl) :
    sepChunk p lvl ≠ [] ∧ ∀ x ∈ sepChunk p lvl, isUniWs x = true ∧ isAsciiWs x = true := by
  unfold sepChunk
  rw [if_pos hl]
  cases p with
  | true =>
    rw [if_pos rfl]
    refine ⟨by simp [newlineChunk], ?_⟩
    intro x hx
    rw [newlineChunk] at hx
    rcases List.mem_cons.mp hx with hx | hx
    · subst hx; exact ⟨by decide, by decide⟩
    · rw [List.eq_of_mem_replicate hx]
      exact ⟨by decide, by decide⟩
  | false =>
    rw [if_neg (by simp)]
    refine ⟨by simp, ?_⟩
    intro x hx
    rcases List.mem_cons.mp hx with hx | hx
    · subst hx; exact ⟨by decide, by decide⟩
    · cases hx

theorem goodHead_parts (c : Chars) (h : goodHead c = true) :
    ∃ c0 r, c = c0 :: r ∧ isUniWs c0 = false ∧ isAsciiWs c0 = false ∧ c0 ≠ ')' := by
  cases c with
  | nil => cases h
  | cons c0 r =>
    simp only [goodHead, Bool.and_eq_true, Bool.not_eq_true', decide_eq_true_eq] at h
    exact ⟨c0, r, rfl, h.1.1, h.1.2, h.2⟩

theorem goodHead_cons (c0 : Char) (r : Chars) (h1 : isUniWs c0 = false)
    (h2 : isAsciiWs c0 = false) (h3 : c0 ≠ ')') : goodHead (c0 :: r) = true := by
  simp [goodHead, h1, h2, h3]

theorem goodHead_append (c x : Chars) (h : goodHead c = true) :
    goodHead (c ++ x) = true := by
  obtain ⟨c0, r, hc, h1, h2, h3⟩ := goodHead_parts c h
  rw [hc, List.cons_append]
  exact goodHead_cons c0 _ h1 h2 h3

theorem strip_ws_chunk (w c : Chars) (hw : ∀ x ∈ w, isUniWs x = true)
    (hc : goodHead c = true) (x : Chars) :
    skip_whitespace ((w ++ c) ++ x) = c ++ x := by
  obtain ⟨c0, r, hcc, h1, _, _⟩ := goodHead_parts c hc
  rw [List.append_assoc, skip_whitespace_append w _ hw, hcc, List.cons_append]
  exact dropWhile_head_false c0 _ h1

theorem intToDec_ne_nil (n : Int) : intToDec n ≠ [] := by
  unfold intToDec
  by_cases hn : n < 0
  · rw [if_pos hn]; simp
  · rw [if_neg hn]; exact (natToDec_spec _).2.1

theorem goodVariant_parts (vn : Chars) (h : goodVariant vn = true) :
    vn ≠ [] ∧ (need_quotes vn false = false →
      ((∀ c ∈ vn, isUniWs c = false ∧ isAsciiWs c = false) ∧
       ∃ c ∈ vn, ¬(isAsciiDigit c = true ∨ c = '.' ∨ c = '-'))) := by
  simp only [goodVariant, Bool.and_eq_true] at h
  obtain ⟨hne, hrest⟩ := h
  refine ⟨by simpa [List.isEmpty_iff] using hne, ?_⟩
  intro hq
  rw [if_neg (by simp [hq])] at hrest
  simp only [Bool.and_eq_true] at hrest
  constructor
  · intro c hc
    have hx := List.all_eq_true.mp hrest.1 c hc
    simpa [Bool.and_eq_true, Bool.not_eq_true'] using hx
  · obtain ⟨c, hc, hp⟩ := List.any_eq_true.mp hrest.2
    simp only [Bool.not_eq_true', Bool.or_eq_false_iff, decide_eq_false_iff_not] at hp
    exact ⟨c, hc, fun hcon => by
      rcases hcon with h | h | h
      · rw [hp.1.1] at h; exact Bool.noConfusion h
      · exact hp.1.2 h
      · exact hp.2 h⟩

theorem chunkN_split (pretty : Bool) (lvl : Nat) (σ : FieldShape) (v : Value)
    (hwf : wfShape σ = true) (hfits : fits σ v = true) (hl : 0 < lvl) :
    ∃ w c, chunkOfN pretty lvl σ v = w ++ c ∧ w ≠ [] ∧
      (∀ x ∈ w, isUniWs x = true ∧ isAsciiWs x = true) ∧ goodHead c = true := by
  have hsep := sepChunk_ws pretty lvl hl
  cases σ with
  | fBool => exact absurd hwf (by simp [wfShape])
  | fFloat => exact absurd hwf (by simp [wfShape])
  | fOpt s => exact absurd hwf (by simp [wfShape])
  | fSeq e => exact absurd hwf (by simp [wfShape])
  | fInt lo hi tn =>
    cases v <;> simp only [fits, Bool.false_eq_true] at hfits
    rename_i n
    refine ⟨[' '], intToDec n, by rw [chunkOfN_int]; rfl, by simp, ?_, ?_⟩
    · intro x hx
      rcases List.mem_cons.mp hx with hx | hx
      · subst hx; exact ⟨by decide, by decide⟩
      · cases hx
    · obtain ⟨d, rest, hcons⟩ : ∃ d rest, intToDec n = d :: rest := by
        cases hh : intToDec n with
        | nil => exact absurd hh (intToDec_ne_nil n)
        | cons d rest => exact ⟨d, rest, rfl⟩
      obtain ⟨ha, hu, hp, _⟩ := intToDec_chars n d (by rw [hcons]; exact List.mem_cons_self ..)
      rw [hcons]
      exact goodHead_cons d _ hu ha hp
  | fStr =>
    cases v <;> simp only [fits, Bool.false_eq_true] at hfits
    rename_i s
    rw [chunkOfN_str]
    by_cases hq : need_quotes s true = true
    · refine ⟨[' '], '"' :: (escapeStr s ++ ['"']), ?_, by simp, ?_, ?_⟩
      · rw [write_str, if_pos hq]; rfl
      · intro x hx
        rcases List.mem_cons.mp hx with hx | hx
        · subst hx; exact ⟨by decide, by decide⟩
        · cases hx
      · exact goodHead_cons _ _ (by decide) (by decide) (by decide)
    · have hq' : need_quotes s true = false := by simpa using hq
      obtain ⟨hne, hall⟩ := need_quotes_false_aggressive s hq'
      obtain ⟨c0, s', hcons⟩ : ∃ c0 s', s = c0 :: s' := by
        cases s with
        | nil => exact absurd rfl hne
        | cons c0 s' => exact ⟨c0, s', rfl⟩
      have hid := hall c0 (by rw [hcons]; exact List.mem_cons_self ..)
      obtain ⟨hu, ha, _⟩ := identChar_props c0 hid
      refine ⟨[' '], s, ?_, by simp, ?_, ?_⟩
      · rw [write_str, if_neg (by simp [hq'])]; rfl
      · intro x hx
        rcases List.mem_cons.mp hx with hx | hx
        · subst hx; exact ⟨by decide, by decide⟩
        · cases hx
      · rw [hcons]
        exact goodHead_cons c0 _ hu ha (identChar_ne c0 hid ')' (by decide))
  | fUnit nm =>
    cases v <;> simp only [fits, Bool.false_eq_true] at hfits
    refine ⟨sepChunk pretty lvl, '(' :: (nm ++ [')']), ?_, hsep.1, hsep.2, ?_⟩
    · rw [chunkOfN_unit, begin_sexpr]
      simp
    · exact goodHead_cons _ _ (by decide) (by decide) (by decide)
  | fStruct nm flds =>
    cases v <;> simp only [fits, Bool.false_eq_true] at hfits
    rename_i vs
    simp only [wfShape, Bool.and_eq_true] at hwf
    refine ⟨sepChunk pretty lvl,
      '(' :: (nm ++ (chunksFields pretty (lvl + 1) flds vs ++ [')'])), ?_, hsep.1, hsep.2, ?_⟩
    · rw [chunkOfN_struct pretty lvl nm flds vs hwf.2 hfits, begin_sexpr]
      simp
    · exact goodHead_cons _ _ (by decide) (by decide) (by decide)
  | fTuple nm es =>
    cases v <;> simp only [fits, Bool.false_eq_true] at hfits
    rename_i vs
    rw [wfShape_fTuple] at hwf
    simp only [Bool.and_eq_true] at hwf
    refine ⟨sepChunk pretty lvl,
      '(' :: (nm ++ (chunksTup pretty (lvl + 1) es vs ++ [')'])), ?_, hsep.1, hsep.2, ?_⟩
    · rw [chunkOfN_tuple pretty lvl nm es vs hwf.2 hfits, begin_sexpr]
      simp
    · exact goodHead_cons _ _ (by decide) (by decide) (by decide)
  | fEnum vars =>
    cases v <;> simp only [fits, Bool.false_eq_true] at hfits
    rename_i i
    simp only [decide_eq_true_eq] at hfits
    simp only [wfShape, Bool.and_eq_true] at hwf
    have hgv : goodVariant vars[i] = true :=
      List.all_eq_true.mp hwf.2 _ (List.getElem_mem hfits)
    obtain ⟨hvne, hvrest⟩ := goodVariant_parts _ hgv
    rw [chunkOfN_enum pretty lvl vars i hfits]
    by_cases hq : need_quotes vars[i] false = true
    · refine ⟨[' '], '"' :: (escapeStr vars[i] ++ ['"']), ?_, by simp, ?_, ?_⟩
      · rw [write_str, if_pos hq]; rfl
      · intro x hx
        rcases List.mem_cons.mp hx with hx | hx
        · subst hx; exact ⟨by decide, by decide⟩
        · cases hx
      · exact goodHead_cons _ _ (by decide) (by decide) (by decide)
    · have hq' : need_quotes vars[i] false = false := by simpa using hq
      obtain ⟨hnws, _⟩ := hvrest hq'
      obtain ⟨hnep, hnqall⟩ := need_quotes_false_plain _ hq'
      obtain ⟨c0, s', hcons⟩ : ∃ c0 s', vars[i] = c0 :: s' := by
        cases hh : vars[i] with
        | nil => exact absurd hh hvne
        | cons c0 s' => exact ⟨c0, s', rfl⟩
      have hw0 := hnws c0 (by rw [hcons]; exact List.mem_cons_self ..)
      have hp0 := (hnqall c0 (by rw [hcons]; exact List.mem_cons_self ..)).2.2.2.2.2.1
      refine ⟨[' '], vars[i], ?_, by simp, ?_, ?_⟩
      · rw [write_str, if_neg (by simp [hq'])]; rfl
      · intro x hx
        rcases List.mem_cons.mp hx with hx | hx
        · subst hx; exact ⟨by decide, by decide⟩
        · cases hx
      · rw [hcons]
        exact goodHead_cons c0 _ hw0.1 hw0.2 hp0

theorem wfFields_cons_parts (nm : Chars) (s : FieldShape) (rest : Fields)
    (h : wfFields (.cons nm s rest) = true) :
    (nm = [] ∧ (∃ e, s = .fSeq e ∧ wfShape e = true) ∧ rest = .nil) ∨
    (nm ≠ [] ∧ identName nm = true ∧
     (fieldNames rest).all (fun m => decide (m ≠ nm)) = true ∧
     wfEntry s = true ∧ wfFields rest = true) := by
  rw [wfFields_cons] at h
  by_cases hnm : nm = ([] : Chars)
  · rw [if_pos hnm] at h
    simp only [Bool.and_eq_true] at h
    left
    refine ⟨hnm, ?_, ?_⟩
    · cases s <;> first
        | exact Bool.noConfusion h.1
        | exact ⟨_, rfl, h.1⟩
    · cases rest with
      | nil => rfl
      | cons a b c => exact Bool.noConfusion h.2
  · rw [if_neg hnm] at h
    simp only [Bool.and_eq_true] at h
    right
    exact ⟨hnm, h.1.1.1, h.1.1.2, h.1.2, h.2⟩

theorem chunk_split (pretty : Bool) (lvl : Nat) (nm : Chars) (σ : FieldShape) (v : Value)
    (hwfe : wfEntry σ = true) (hfits : fits σ v = true) (hl : 0 < lvl)
    (hnm : identName nm = true)
    (hns : isSilentN nm σ v = false) (hta : isTrueAtom σ v = false) :
    ∃ w c, chunkOf pretty lvl nm σ v = w ++ c ∧ w ≠ [] ∧
      (∀ x ∈ w, isUniWs x = true ∧ isAsciiWs x = true) ∧ goodHead c = true := by
  cases σ with
  | fBool =>
    cases v <;> simp only [fits, Bool.false_eq_true] at hfits
    rename_i b
    cases b
    · exact absurd hns (by simp [isSilentN, isSilent])
    · exact absurd hta (by simp [isTrueAtom])
  | fFloat => exact absurd hwfe (by simp [wfEntry])
  | fOpt s =>
    cases v <;> simp only [fits, Bool.false_eq_true] at hfits
    · exact absurd hns (by simp [isSilentN, isSilent])
    · rename_i v'
      have hwfs : wfShape s = true := hwfe
      rw [chunkOf_opt_some pretty lvl nm s v' hwfs]
      exact chunkN_split pretty lvl s v' hwfs hfits hl
  | fSeq e =>
    cases v <;> simp only [fits, Bool.false_eq_true] at hfits
    rename_i vs
    have hwfs : wfShape e = true := hwfe
    obtain ⟨c0, nm', hcons⟩ : ∃ c0 nm', nm = c0 :: nm' := by
      cases nm with
      | nil => exact absurd hnm (by simp [identName])
      | cons c0 nm' => exact ⟨c0, nm', rfl⟩
    subst hcons
    have hsep := sepChunk_ws pretty lvl hl
    refine ⟨sepChunk pretty lvl,
      '(' :: (c0 :: nm' ++ (chunksSeqE pretty (lvl + 1) e vs ++ [')'])),
      ?_, hsep.1, hsep.2, goodHead_cons _ _ (by decide) (by decide) (by decide)⟩
    rw [chunkOf_seq_named pretty lvl c0 nm' e vs hwfs hfits, begin_sexpr]
    simp
  | fInt lo hi tn =>
    have hwfs : wfShape (.fInt lo hi tn) = true := hwfe
    rw [chunkOf_eq_chunkOfN pretty lvl nm _ v hwfs]
    exact chunkN_split pretty lvl _ v hwfs hfits hl
  | fStr =>
    have hwfs : wfShape .fStr = true := hwfe
    rw [chunkOf_eq_chunkOfN pretty lvl nm _ v hwfs]
    exact chunkN_split pretty lvl _ v hwfs hfits hl
  | fUnit snm =>
    have hwfs : wfShape (.fUnit snm) = true := hwfe
    rw [chunkOf_eq_chunkOfN pretty lvl nm _ v hwfs]
    exact chunkN_split pretty lvl _ v hwfs hfits hl
  | fStruct snm flds =>
    have hwfs : wfShape (.fStruct snm flds) = true := hwfe
    rw [chunkOf_eq_chunkOfN pretty lvl nm _ v hwfs]
    exact chunkN_split pretty lvl _ v hwfs hfits hl
  | fTuple snm es =>
    have hwfs : wfShape (.fTuple snm es) = true := by
      rw [wfShape_fTuple]
      exact hwfe
    rw [chunkOf_eq_chunkOfN pretty lvl nm _ v hwfs]
    exact chunkN_split pretty lvl _ v hwfs hfits hl
  | fEnum vars =>
    have hwfs : wfShape (.fEnum vars) = true := hwfe
    rw [chunkOf_eq_chunkOfN pretty lvl nm _ v hwfs]
    exact chunkN_split pretty lvl _ v hwfs hfits hl

theorem silentN_chunk (p : Bool) (l : Nat) (nm : Chars) (σ : FieldShape) (v : Value)
    (hs : isSilentN nm σ v = true) : chunkOf p l nm σ v = [] := by
  unfold isSilentN at hs
  simp only [Bool.or_eq_true, Bool.and_eq_true, decide_eq_true_eq] at hs
  rcases hs with hs | ⟨hnm, hm⟩
  · cases σ <;> cases v <;> first
      | exact Bool.noConfusion hs
      | skip
    case fBool.vBool b =>
      cases b
      · rw [chunkOf_bool]
        simp
      · exact Bool.noConfusion hs
    case fOpt.vNone s => exact chunkOf_opt_none p l nm s
  · cases σ <;> cases v <;> first
      | exact Bool.noConfusion hm
      | skip
    case fSeq.vSeq e vs =>
      cases vs with
      | nil =>
        subst hnm
        apply chunkOf_eq
        rw [mkE.eq_def]
        dsimp only
        rfl
      | cons v' vr => exact Bool.noConfusion hm

theorem splitSilent_none_cons (nm : Chars) (σ : FieldShape) (v : Value)
    (fr : Fields) (vr : Values)
    (h : splitSilent (.cons nm σ fr) (.cons v vr) = none) :
    isSilentN nm σ v = true ∧ splitSilent fr vr = none := by
  rw [splitSilent] at h
  by_cases hs : isSilentN nm σ v = true
  · rw [if_pos hs] at h
    exact ⟨hs, h⟩
  · rw [if_neg hs] at h
    cases h

theorem splitSilent_none_chunks (p : Bool) (l : Nat) : ∀ (flds : Fields) (vs : Values),
    splitSilent flds vs = none → chunksFields p l flds vs = []
  | .nil, .nil, _ => rfl
  | .nil, .cons _ _, _ => rfl
  | .cons _ _ _, .nil, _ => rfl
  | .cons nm σ fr, .cons v vr, h => by
    obtain ⟨hs, hrest⟩ := splitSilent_none_cons nm σ v fr vr h
    rw [chunksFields, silentN_chunk p l nm σ v hs,
        splitSilent_none_chunks p l fr vr hrest]
    rfl

theorem splitSilent_some_parts (p : Bool) (l : Nat) : ∀ (flds : Fields) (vs : Values)
    (nmj : Chars) (σj : FieldShape) (vj : Value) (fr' : Fields) (vr' : Values),
    splitSilent flds vs = some (nmj, σj, vj, fr', vr') →
    chunksFields p l flds vs = chunkOf p l nmj σj vj ++ chunksFields p l fr' vr' ∧
    isSilentN nmj σj vj = false
  | .nil, .nil, _, _, _, _, _, h => by cases h
  | .nil, .cons _ _, _, _, _, _, _, h => by cases h
  | .cons _ _ _, .nil, _, _, _, _, _, h => by cases h
  | .cons nm σ fr, .cons v vr, nmj, σj, vj, fr', vr', h => by
    rw [splitSilent] at h
    by_cases hs : isSilentN nm σ v = true
    · rw [if_pos hs] at h
      obtain ⟨hch, hns⟩ := splitSilent_some_parts p l fr vr nmj σj vj fr' vr' h
      rw [chunksFields, silentN_chunk p l nm σ v hs, hch]
      exact ⟨rfl, hns⟩
    · rw [if_neg hs] at h
      simp only [Option.some.injEq, Prod.mk.injEq] at h
      obtain ⟨h1, h2, h3, h4, h5⟩ := h
      subst h1; subst h2; subst h3; subst h4; subst h5
      exact ⟨by rw [chunksFields], by simpa using hs⟩

theorem chunksFields_cons (p : Bool) (l : Nat) (nm : Chars) (σ : FieldShape)
    (fr : Fields) (v : Value) (vr : Values) :
    chunksFields p l (.cons nm σ fr) (.cons v vr) =
      chunkOf p l nm σ v ++ chunksFields p l fr vr := rfl

theorem chunksTup_cons (p : Bool) (l : Nat) (σ : FieldShape) (es : Shapes)
    (v : Value) (vs : Values) :
    chunksTup p l (.cons σ es) (.cons v vs) =
      chunkOfN p l σ v ++ chunksTup p l es vs := rfl

theorem chunksSeqE_cons (p : Bool) (l : Nat) (e : FieldShape) (v : Value) (vs : Values) :
    chunksSeqE p l e (.cons v vs) = chunkOfN p l e v ++ chunksSeqE p l e vs := rfl

theorem chunksSeqE_nil (p : Bool) (l : Nat) (e : FieldShape) :
    chunksSeqE p l e .nil = [] := rfl

theorem fitsRecord_cons_elim (nm : Chars) (σ : FieldShape) (fr : Fields) (vs : Values)
    (h : fitsRecord (.cons nm σ fr) vs = true) :
    ∃ v vr, vs = .cons v vr ∧ fits σ v = true ∧ fitsRecord fr vr = true := by
  cases vs with
  | nil => exact Bool.noConfusion h
  | cons v vr =>
    have h' : (fits σ v && fitsRecord fr vr) = true := h
    simp only [Bool.and_eq_true] at h'
    exact ⟨v, vr, rfl, h'.1, h'.2⟩

theorem fitsElems_cons_elim (σ : FieldShape) (es : Shapes) (vs : Values)
    (h : fitsElems (.cons σ es) vs = true) :
    ∃ v vr, vs = .cons v vr ∧ fits σ v = true ∧ fitsElems es vr = true := by
  cases vs with
  | nil => exact Bool.noConfusion h
  | cons v vr =>
    have h' : (fits σ v && fitsElems es vr) = true := h
    simp only [Bool.and_eq_true] at h'
    exact ⟨v, vr, rfl, h'.1, h'.2⟩

theorem fitsSeq_cons_elim (e : FieldShape) (v : Value) (vs : Values)
    (h : fitsSeq e (.cons v vs) = true) : fits e v = true ∧ fitsSeq e vs = true := by
  have h' : (fits e v && fitsSeq e vs) = true := h
  simpa [Bool.and_eq_true] using h'

theorem condFields_cons_eq (p : Bool) (l : Nat) (nm : Chars) (σ : FieldShape)
    (fr : Fields) (v : Value) (vr : Values) (tail : Chars) :
    condFields p l (.cons nm σ fr) (.cons v vr) tail =
      (condAt p l nm σ v fr vr tail &&
       condValN p l nm σ v fr vr tail &&
       condFields p l fr vr tail) := by
  cases σ <;> cases v <;> rfl

theorem condFields_cons_elim (p : Bool) (l : Nat) (nm : Chars) (σ : FieldShape)
    (fr : Fields) (v : Value) (vr : Values) (tail : Chars)
    (h : condFields p l (.cons nm σ fr) (.cons v vr) tail = true) :
    condAt p l nm σ v fr vr tail = true ∧
    condValN p l nm σ v fr vr tail = true ∧
    condFields p l fr vr tail = true := by
  rw [condFields_cons_eq] at h
  simp only [Bool.and_eq_true] at h
  exact ⟨h.1.1, h.1.2, h.2⟩

theorem condValN_named (p : Bool) (l : Nat) (nm : Chars) (σ : FieldShape) (v : Value)
    (fr : Fields) (vr : Values) (tail : Chars) (hnm : nm ≠ [])
    (h : condValN p l nm σ v fr vr tail = true) :
    condVal p l σ v (chunksFields p l fr vr ++ ')' :: tail) = true := by
  unfold condValN at h
  rwa [if_neg hnm] at h

theorem condValN_empty_seq (p : Bool) (l : Nat) (e : FieldShape) (el : Values)
    (fr : Fields) (vr : Values) (tail : Chars)
    (h : condValN p l [] (.fSeq e) (.vSeq el) fr vr tail = true) :
    condSeq p l e el tail = true := by
  unfold condValN at h
  rwa [if_pos rfl] at h

theorem condElems_cons_elim (p : Bool) (l : Nat) (σ : FieldShape) (es : Shapes)
    (vs : Values) (tail : Chars) (h : condElems p l (.cons σ es) vs tail = true) :
    ∃ v vr, vs = .cons v vr ∧
      condVal p l σ v (chunksTup p l es vr ++ ')' :: tail) = true ∧
      condElems p l es vr tail = true := by
  cases vs with
  | nil => exact Bool.noConfusion h
  | cons v vr =>
    have h' : (condVal p l σ v (chunksTup p l es vr ++ ')' :: tail) &&
      condElems p l es vr tail) = true := h
    simp only [Bool.and_eq_true] at h'
    exact ⟨v, vr, rfl, h'.1, h'.2⟩

theorem condSeq_cons_elim (p : Bool) (l : Nat) (e : FieldShape) (v : Value)
    (vs : Values) (tail : Chars) (h : condSeq p l e (.cons v vs) tail = true) :
    condVal p l e v (chunksSeqE p l e vs ++ ')' :: tail) = true ∧
    condSeq p l e vs tail = true := by
  have h' : (condVal p l e v (chunksSeqE p l e vs ++ ')' :: tail) &&
    condSeq p l e vs tail) = true := h
  simpa [Bool.and_eq_true] using h'

theorem isTrueAtom_cases (σ : FieldShape) (v : Value) (h : isTrueAtom σ v = true) :
    σ = .fBool ∧ v = .vBool true := by
  cases σ <;> cases v <;> first
    | exact Bool.noConfusion h
    | skip
  case fBool.vBool b =>
    cases b
    · exact Bool.noConfusion h
    · exact ⟨rfl, rfl⟩

theorem isSilent_cases (σ : FieldShape) (v : Value) (h : isSilent σ v = true) :
    (σ = .fBool ∧ v = .vBool false) ∨ (∃ s, σ = .fOpt s ∧ v = .vNone) := by
  cases σ <;> cases v <;> first
    | exact Bool.noConfusion h
    | skip
  case fBool.vBool b =>
    cases b
    · exact Or.inl ⟨rfl, rfl⟩
    · exact Bool.noConfusion h
  case fOpt.vNone s => exact Or.inr ⟨s, rfl, rfl⟩

theorem need_quotes_ident (nm : Chars) (h : identName nm = true) :
    need_quotes nm true = false := by
  obtain ⟨hne, hall⟩ := identName_parts nm h
  have h1 : nm.isEmpty = false := by simpa [List.isEmpty_iff] using hne
  have h2 : nm.any (fun c => !isAsciiAlpha c && decide (c ≠ '_')) = false := by
    rw [← Bool.not_eq_true, List.any_eq_true]
    rintro ⟨c, hc, hp⟩
    have hid := hall c hc
    simp only [isIdentChar, Bool.or_eq_true, decide_eq_true_eq] at hid
    simp only [Bool.and_eq_true, Bool.not_eq_true', decide_eq_true_eq] at hp
    rcases hid with ha | hu
    · rw [ha] at hp; exact Bool.noConfusion hp.1
    · exact hp.2 hu
  unfold need_quotes
  rw [h1, if_pos rfl, h2]
  rfl

theorem trueAtom_chunk (p : Bool) (l : Nat) (nm : Chars) (h : identName nm = true) :
    chunkOf p l nm .fBool (.vBool true) = ' ' :: nm := by
  rw [chunkOf_bool, if_pos rfl, write_str, if_neg (by simp [need_quotes_ident nm h])]

theorem delim_close (t : Chars) : delim (')' :: t) = true := by
  simp [delim]

theorem delim_ws_head (c0 : Char) (r : Chars) (h : isAsciiWs c0 = true) :
    delim (c0 :: r) = true := by
  simp [delim, h]

theorem splitSilent_wf : ∀ (flds : Fields) (vs : Values)
    (nmj : Chars) (σj : FieldShape) (vj : Value) (frj : Fields) (vrj : Values),
    wfFields flds = true → fitsRecord flds vs = true →
    splitSilent flds vs = some (nmj, σj, vj, frj, vrj) →
    fits σj vj = true ∧ fitsRecord frj vrj = true ∧ wfFields frj = true ∧
    wfEntry σj = true ∧ nmj ∈ fieldNames flds ∧
    (nmj = [] → frj = .nil ∧ ∃ e, σj = .fSeq e) ∧
    (nmj ≠ [] → identName nmj = true ∧
      (fieldNames frj).all (fun m => decide (m ≠ nmj)) = true)
  | .nil, .nil, _, _, _, _, _, _, _, h => by cases h
  | .nil, .cons _ _, _, _, _, _, _, _, _, h => by cases h
  | .cons _ _ _, .nil, _, _, _, _, _, _, hfits, _ => Bool.noConfusion hfits
  | .cons nm σ fr, .cons v vr, nmj, σj, vj, frj, vrj, hwf, hfits, h => by
    rw [splitSilent] at h
    obtain ⟨v', vr', he, hfv, hfr⟩ := fitsRecord_cons_elim nm σ fr (.cons v vr) hfits
    injection he with he1 he2
    subst he1; subst he2
    rcases wfFields_cons_parts nm σ fr hwf with
      ⟨hnm0, ⟨e, hse, hwe⟩, hfr0⟩ | ⟨hnm, hid, hdist, hwe, hwfr⟩
    · subst hnm0; subst hse; subst hfr0
      cases vr with
      | cons _ _ => exact Bool.noConfusion hfr
      | nil =>
        by_cases hs : isSilentN [] (.fSeq e) v = true
        · rw [if_pos hs] at h
          cases h
        · rw [if_neg hs] at h
          simp only [Option.some.injEq, Prod.mk.injEq] at h
          obtain ⟨h1, h2, h3, h4, h5⟩ := h
          subst h1; subst h2; subst h3; subst h4; subst h5
          refine ⟨hfv, rfl, rfl, hwe, ?_, fun _ => ⟨rfl, e, rfl⟩,
            fun hc => absurd rfl hc⟩
          simp [fieldNames]
    · by_cases hs : isSilentN nm σ v = true
      · rw [if_pos hs] at h
        obtain ⟨h1, h2, h3, h4, h5, h6, h7⟩ :=
          splitSilent_wf fr vr nmj σj vj frj vrj hwfr hfr h
        refine ⟨h1, h2, h3, h4, ?_, h6, h7⟩
        rw [fieldNames]
        exact List.mem_cons_of_mem nm h5
      · rw [if_neg hs] at h
        simp only [Option.some.injEq, Prod.mk.injEq] at h
        obtain ⟨h1, h2, h3, h4, h5⟩ := h
        subst h1; subst h2; subst h3; subst h4; subst h5
        exact ⟨hfv, hfr, hwfr, hwe, by rw [fieldNames]; exact List.mem_cons_self ..,
          fun hc => absurd hc hnm, fun _ => ⟨hid, hdist⟩⟩

theorem firstIdx_splitSilent : ∀ (flds : Fields) (vs : Values) (b : Nat)
    (nmj : Chars) (σj : FieldShape) (vj : Value) (frj : Fields) (vrj : Values),
    wfFields flds = true → fitsRecord flds vs = true →
    splitSilent flds vs = some (nmj, σj, vj, frj, vrj) →
    firstIdxFrom nmj (mkFields flds) b = some (b + silentPrefixLen flds vs)
  | .nil, .nil, _, _, _, _, _, _, _, _, h => by cases h
  | .nil, .cons _ _, _, _, _, _, _, _, _, _, h => by cases h
  | .cons _ _ _, .nil, _, _, _, _, _, _, _, hfits, _ => Bool.noConfusion hfits
  | .cons nm σ fr, .cons v vr, b, nmj, σj, vj, frj, vrj, hwf, hfits, h => by
    rw [splitSilent] at h
    obtain ⟨v', vr', he, hfv, hfr⟩ := fitsRecord_cons_elim nm σ fr (.cons v vr) hfits
    injection he with he1 he2
    subst he1; subst he2
    rcases wfFields_cons_parts nm σ fr hwf with
      ⟨hnm0, ⟨e, hse, hwe⟩, hfr0⟩ | ⟨hnm, hid, hdist, hwe, hwfr⟩
    · subst hnm0; subst hse; subst hfr0
      cases vr with
      | cons _ _ => exact Bool.noConfusion hfr
      | nil =>
        by_cases hs : isSilentN [] (.fSeq e) v = true
        · rw [if_pos hs] at h
          cases h
        · rw [if_neg hs] at h
          simp only [Option.some.injEq, Prod.mk.injEq] at h
          obtain ⟨h1, _, _, _, _⟩ := h
          subst h1
          rw [mkFields, firstIdxFrom, if_pos rfl]
          have hz : silentPrefixLen (Fields.cons ([] : Chars) (.fSeq e) .nil)
              (Values.cons v .nil) = 0 := by
            rw [silentPrefixLen, if_neg hs]
          rw [hz, Nat.add_zero]
    · by_cases hs : isSilentN nm σ v = true
      · rw [if_pos hs] at h
        have hmem : nmj ∈ fieldNames fr :=
          (splitSilent_wf fr vr nmj σj vj frj vrj hwfr hfr h).2.2.2.2.1
        have hne : nm ≠ nmj := by
          intro hc
          have hx := List.all_eq_true.mp hdist nmj hmem
          rw [← hc] at hx
          simp at hx
        rw [mkFields, firstIdxFrom, if_neg hne]
        rw [firstIdx_splitSilent fr vr (b + 1) nmj σj vj frj vrj hwfr hfr h]
        have hsp : silentPrefixLen (Fields.cons nm σ fr) (Values.cons v vr) =
            silentPrefixLen fr vr + 1 := by
          rw [silentPrefixLen, if_pos hs]
        rw [hsp]
        have harith : b + 1 + silentPrefixLen fr vr = b + (silentPrefixLen fr vr + 1) := by
          omega
        rw [harith]
      · rw [if_neg hs] at h
        simp only [Option.some.injEq, Prod.mk.injEq] at h
        obtain ⟨h1, _, _, _, _⟩ := h
        subst h1
        rw [mkFields, firstIdxFrom, if_pos rfl]
        have hz : silentPrefixLen (Fields.cons nm σ fr) (Values.cons v vr) = 0 := by
          rw [silentPrefixLen, if_neg hs]
        rw [hz, Nat.add_zero]

theorem chunksSeqE_cons_head_ws (p : Bool) (l : Nat) (e : FieldShape) (v : Value)
    (vr : Values) (hwf : wfShape e = true) (hfv : fits e v = true) (hl : 0 < l) :
    ∃ c0 r, chunksSeqE p l e (.cons v vr) = c0 :: r ∧
      isUniWs c0 = true ∧ isAsciiWs c0 = true := by
  obtain ⟨w, c, hsplit, hwne, hwws, _⟩ := chunkN_split p l e v hwf hfv hl
  obtain ⟨c0, w', hw⟩ : ∃ c0 w', w = c0 :: w' := by
    cases w with
    | nil => exact absurd rfl hwne
    | cons c0 w' => exact ⟨c0, w', rfl⟩
  have hc0 := hwws c0 (by rw [hw]; exact List.mem_cons_self ..)
  refine ⟨c0, w' ++ c ++ chunksSeqE p l e vr, ?_, hc0.1, hc0.2⟩
  rw [chunksSeqE_cons, hsplit, hw]
  simp

theorem chunksTup_head_ws (p : Bool) (l : Nat) (es : Shapes) (vs : Values)
    (hwf : wfShapesAll es = true) (hfits : fitsElems es vs = true) (hl : 0 < l) :
    chunksTup p l es vs = [] ∨
    ∃ c0 r, chunksTup p l es vs = c0 :: r ∧ isUniWs c0 = true ∧ isAsciiWs c0 = true := by
  cases es with
  | nil =>
    cases vs with
    | nil => exact Or.inl rfl
    | cons _ _ => exact Bool.noConfusion hfits
  | cons σ es' =>
    obtain ⟨v, vr, he, hfv, _⟩ := fitsElems_cons_elim σ es' vs hfits
    subst he
    have hwf' : (wfShape σ && wfShapesAll es') = true := hwf
    simp only [Bool.and_eq_true] at hwf'
    obtain ⟨w, c, hsplit, hwne, hwws, _⟩ := chunkN_split p l σ v hwf'.1 hfv hl
    obtain ⟨c0, w', hw⟩ : ∃ c0 w', w = c0 :: w' := by
      cases w with
      | nil => exact absurd rfl hwne
      | cons c0 w' => exact ⟨c0, w', rfl⟩
    have hc0 := hwws c0 (by rw [hw]; exact List.mem_cons_self ..)
    refine Or.inr ⟨c0, w' ++ c ++ chunksTup p l es' vr, ?_, hc0.1, hc0.2⟩
    rw [chunksTup_cons, hsplit, hw]
    simp

theorem chunksFields_head_ws (p : Bool) (l : Nat) (flds : Fields) (vs : Values)
    (hwf : wfFields flds = true) (hfits : fitsRecord flds vs = true) (hl : 0 < l) :
    chunksFields p l flds vs = [] ∨
    ∃ c0 r, chunksFields p l flds vs = c0 :: r ∧
      isUniWs c0 = true ∧ isAsciiWs c0 = true := by
  cases hsp : splitSilent flds vs with
  | none => exact Or.inl (splitSilent_none_chunks p l flds vs hsp)
  | some q =>
    obtain ⟨nmj, σj, vj, frj, vrj⟩ := q
    obtain ⟨hch, hns⟩ := splitSilent_some_parts p l flds vs nmj σj vj frj vrj hsp
    obtain ⟨hfj, hfrj, hwfrj, hwej, hmem, hnil, hnnil⟩ :=
      splitSilent_wf flds vs nmj σj vj frj vrj hwf hfits hsp
    right
    rw [hch]
    by_cases hta : isTrueAtom σj vj = true
    · obtain ⟨he1, he2⟩ := isTrueAtom_cases σj vj hta
      subst he1; subst he2
      have hnmne : nmj ≠ [] := by
        intro hc
        obtain ⟨_, e, hse⟩ := hnil hc
        cases hse
      obtain ⟨hid, _⟩ := hnnil hnmne
      rw [trueAtom_chunk p l nmj hid]
      exact ⟨' ', nmj ++ chunksFields p l frj vrj, by simp, by decide, by decide⟩
    · by_cases hnmj : nmj = ([] : Chars)
      · obtain ⟨hfr0, e, hse⟩ := hnil hnmj
        subst hse; subst hfr0; subst hnmj
        cases vj <;> simp only [fits, Bool.false_eq_true] at hfj
        rename_i el
        have hwfe : wfShape e = true := hwej
        rw [chunkOf_seq_empty p l e el hwfe hfj]
        cases el with
        | nil => exact Bool.noConfusion hns
        | cons v0 vr0 =>
          obtain ⟨hfv0, _⟩ := fitsSeq_cons_elim e v0 vr0 hfj
          obtain ⟨c0, r, hc, h1, h2⟩ := chunksSeqE_cons_head_ws p l e v0 vr0 hwfe hfv0 hl
          refine ⟨c0, r ++ chunksFields p l .nil vrj, ?_, h1, h2⟩
          rw [hc]
          simp
      · obtain ⟨hid, _⟩ := hnnil hnmj
        have hta' : isTrueAtom σj vj = false := by simpa using hta
        obtain ⟨w, c, hsplit, hwne, hwws, _⟩ :=
          chunk_split p l nmj σj vj hwej hfj hl hid hns hta'
        obtain ⟨c0, w', hw⟩ : ∃ c0 w', w = c0 :: w' := by
          cases w with
          | nil => exact absurd rfl hwne
          | cons c0 w' => exact ⟨c0, w', rfl⟩
        have hc0 := hwws c0 (by rw [hw]; exact List.mem_cons_self ..)
        refine ⟨c0, w' ++ c ++ chunksFields p l frj vrj, ?_, hc0.1, hc0.2⟩
        rw [hsplit, hw]
        simp

theorem delim_chunksFields (p : Bool) (l : Nat) (flds : Fields) (vs : Values) (t : Chars)
    (hwf : wfFields flds = true) (hfits : fitsRecord flds vs = true) (hl : 0 < l) :
    delim (chunksFields p l flds vs ++ ')' :: t) = true := by
  rcases chunksFields_head_ws p l flds vs hwf hfits hl with h | ⟨c0, r, hc, _, hws⟩
  · rw [h, List.nil_append]; exact delim_close t
  · rw [hc, List.cons_append]; exact delim_ws_head c0 _ hws

theorem delim_chunksTup (p : Bool) (l : Nat) (es : Shapes) (vs : Values) (t : Chars)
    (hwf : wfShapesAll es = true) (hfits : fitsElems es vs = true) (hl : 0 < l) :
    delim (chunksTup p l es vs ++ ')' :: t) = true := by
  rcases chunksTup_head_ws p l es vs hwf hfits hl with h | ⟨c0, r, hc, _, hws⟩
  · rw [h, List.nil_append]; exact delim_close t
  · rw [hc, List.cons_append]; exact delim_ws_head c0 _ hws

theorem delim_chunksSeqE (p : Bool) (l : Nat) (e : FieldShape) (vs : Values) (t : Chars)
    (hwf : wfShape e = true) (hfits : fitsSeq e vs = true) (hl : 0 < l) :
    delim (chunksSeqE p l e vs ++ ')' :: t) = true := by
  cases vs with
  | nil => rw [chunksSeqE_nil, List.nil_append]; exact delim_close t
  | cons v vr =>
    obtain ⟨hfv, _⟩ := fitsSeq_cons_elim e v vr hfits
    obtain ⟨c0, r, hc, _, hws⟩ := chunksSeqE_cons_head_ws p l e v vr hwf hfv hl
    rw [hc, List.cons_append]
    exact delim_ws_head c0 _ hws

theorem chunksSeqE_len (p : Bool) (l : Nat) (e : FieldShape)
    (hwf : wfShape e = true) (hl : 0 < l) : ∀ (vs : Values), fitsSeq e vs = true →
    2 * countV vs ≤ (chunksSeqE p l e vs).length
  | .nil, _ => by simp [chunksSeqE_nil, countV]
  | .cons v vr, hfits => by
    obtain ⟨hfv, hfr⟩ := fitsSeq_cons_elim e v vr hfits
    obtain ⟨w, c, hsplit, hwne, _, hgh⟩ := chunkN_split p l e v hwf hfv hl
    have h1 : 1 ≤ w.length := List.length_pos.mpr hwne
    have h2 : 1 ≤ c.length := by
      obtain ⟨c0, r, hc, _⟩ := goodHead_parts c hgh
      rw [hc]
      simp
    have hrec := chunksSeqE_len p l e hwf hl vr hfr
    rw [chunksSeqE_cons, hsplit, countV]
    simp only [List.length_append]
    omega

theorem visit_map_silent : ∀ (flds : Fields) (vs : Values) (cd : Nat)
    (fds : List (Chars × D)) (i : Nat) (I : Chars),
    fds.drop i = mkFields flds → i ≤ fds.length → fds.length + 1 - i ≤ cd →
    wfFields flds = true → fitsRecord flds vs = true →
    splitSilent flds vs = none →
    visit_map fds cd i (some (fds.length + 1)) I =
      some (.ok (Values.toList vs), skip_whitespace I)
  | .nil, .nil, cd, fds, i, I, hdrop, hle, hcd, _, _, _ => by
    have hi : i = fds.length := by
      have := List.length_drop i fds
      rw [hdrop] at this
      simp only [mkFields, List.length_nil] at this
      omega
    cases cd with
    | zero => omega
    | succ cd' =>
      rw [visit_map, check_eoe_some]
      dsimp only
      rw [skipEmpties_ge fds _ i _ (by omega)]
      dsimp only
      rw [if_pos (by omega : i ≥ fds.length)]
      rfl
  | .nil, .cons _ _, _, _, _, _, _, _, _, _, hfits, _ => Bool.noConfusion hfits
  | .cons _ _ _, .nil, _, _, _, _, _, _, _, _, hfits, _ => Bool.noConfusion hfits
  | .cons nm σ fr, .cons v vr, cd, fds, i, I, hdrop, hle, hcd, hwf, hfits, hsp => by
    obtain ⟨hs, hrest⟩ := splitSilent_none_cons nm σ v fr vr hsp
    obtain ⟨v', vr', he, hfv, hfr⟩ := fitsRecord_cons_elim nm σ fr (.cons v vr) hfits
    injection he with he1 he2
    subst he1; subst he2
    have hdropc : fds.drop i = (nm, mkD σ) :: mkFields fr := by rw [hdrop, mkFields]
    obtain ⟨hi, hget⟩ := get_of_drop_cons fds i (nm, mkD σ) (mkFields fr) hdropc
    cases cd with
    | zero => omega
    | succ cd' =>
      rcases wfFields_cons_parts nm σ fr hwf with
        ⟨hnm0, ⟨e, hse, hwe⟩, hfr0⟩ | ⟨hnm, hid, hdist, hwe, hwfr⟩
      · subst hnm0; subst hse; subst hfr0
        cases vr with
        | cons _ _ => exact Bool.noConfusion hfr
        | nil =>
          cases v <;> simp only [fits, Bool.false_eq_true] at hfv
          rename_i el
          cases el with
          | cons _ _ => exact Bool.noConfusion hs
          | nil =>
            have hlast : fds.length ≤ i + 1 := by
              have := List.length_drop i fds
              rw [hdropc] at this
              simp only [mkFields, List.length_cons, List.length_nil] at this
              omega
            rw [visit_map, check_eoe_some]
            dsimp only
            rw [skipEmpties_empty_last fds _ i (fds.length + 1) hi
              (by rw [hget]) (by omega) hlast (by omega)]
            dsimp only
            rw [if_pos (by omega : i + 1 ≥ fds.length)]
            rfl
      · have hsil : isSilent σ v = true := by
          unfold isSilentN at hs
          simp only [Bool.or_eq_true, Bool.and_eq_true, decide_eq_true_eq] at hs
          rcases hs with hs | ⟨hc, _⟩
          · exact hs
          · exact absurd hc hnm
        have hmiss : (mkD σ).miss = (.ok v, false) ∨ (mkD σ).miss = (.ok v, true) := by
          rcases isSilent_cases σ v hsil with ⟨hσ, hv⟩ | ⟨s, hσ, hv⟩
          · subst hσ; subst hv
            exact Or.inr rfl
          · subst hσ; subst hv
            exact Or.inl (mkD_opt_miss s hwe)
        rw [visit_map, check_eoe_some]
        dsimp only
        rw [skipEmpties_named fds _ i _ hi (by rw [hget]; exact hnm)]
        dsimp only
        rw [if_neg (by omega : ¬ i ≥ fds.length)]
        have hne2 : ¬ (fds.length + 1 = i) := by omega
        have hnv : next_value_seed fds i (some (fds.length + 1)) (skip_whitespace I) =
            some ((mkD σ).miss.1, skip_whitespace I, some (fds.length + 1)) := by
          unfold next_value_seed
          rw [dif_pos hi]
          dsimp only
          rw [if_neg hne2, hget]
        rw [hnv]
        have hmv : (mkD σ).miss.1 = .ok v := by
          rcases hmiss with h | h <;> rw [h]
        rw [hmv]
        dsimp only
        rw [check_eoe_some]
        dsimp only
        rw [visit_map_silent fr vr cd' fds (i + 1) (skip_whitespace (skip_whitespace I))
          (drop_succ_of_drop_cons fds i _ _ hdropc) (by omega) (by omega) hwfr hfr hrest]
        rw [skip_whitespace_idem, skip_whitespace_idem]
        rfl

theorem tuple_check_eoe_ended (I : Chars) : tuple_check_eoe I true = .ok (I, true) := by
  rw [tuple_check_eoe, if_pos rfl]

theorem tuple_check_eoe_open (I : Chars) (c0 : Char) (r : Chars)
    (h : skip_whitespace I = c0 :: r) (hc : c0 ≠ ')') :
    tuple_check_eoe I false = .ok (c0 :: r, false) := by
  rw [tuple_check_eoe, if_neg (by simp)]
  simp only [h]
  split
  · rename_i heq
    cases heq
  · rename_i rr heq
    injection heq with e1 _
    exact absurd e1 hc
  · rfl

theorem tuple_check_eoe_close (I : Chars) (r : Chars)
    (h : skip_whitespace I = ')' :: r) :
    tuple_check_eoe I false = .ok (r, true) := by
  rw [tuple_check_eoe, if_neg (by simp)]
  simp only [h]

theorem visit_seq_tuple_ended (f : Chars → Option ((Except Err Value) × Chars × Bool))
    (fuel : Nat) (I : Chars) (h : 1 ≤ fuel) :
    visit_seq_tuple f fuel I true = some (.ok [], I) := by
  cases fuel with
  | zero => omega
  | succ fu =>
    rw [visit_seq_tuple, tuple_check_eoe_ended]
    rfl

theorem skipWs_space (x : Chars) : skip_whitespace (' ' :: x) = skip_whitespace x := by
  rw [skip_whitespace, List.dropWhile_cons, if_pos (by decide)]
  rfl

theorem identName_head (nm : Chars) (h : identName nm = true) :
    ∃ n0 nm', nm = n0 :: nm' ∧ isUniWs n0 = false ∧ isAsciiWs n0 = false ∧
      n0 ≠ ')' ∧ isIdentChar n0 = true := by
  obtain ⟨hne, hall⟩ := identName_parts nm h
  cases nm with
  | nil => exact absurd rfl hne
  | cons n0 nm' =>
    have h0 := hall n0 (List.mem_cons_self ..)
    obtain ⟨hu, ha, _⟩ := identChar_props n0 h0
    exact ⟨n0, nm', rfl, hu, ha, identChar_ne n0 h0 ')' (by decide), h0⟩

theorem ident_strip (nm x : Chars) (h : identName nm = true) :
    skip_whitespace (nm ++ x) = nm ++ x := by
  obtain ⟨n0, nm', hc, hu, _, _, _⟩ := identName_head nm h
  rw [hc, List.cons_append]
  exact dropWhile_head_false n0 _ hu

theorem trueatom_strip (nm x : Chars) (h : identName nm = true) :
    skip_whitespace ((' ' :: nm) ++ x) = nm ++ x := by
  rw [List.cons_append, skipWs_space]
  exact ident_strip nm x h

theorem begin_strip (p : Bool) (lvl : Nat) (nm x : Chars) (hl : 0 < lvl) :
    skip_whitespace (begin_sexpr p lvl nm ++ x) = '(' :: (nm ++ x) := by
  rw [begin_sexpr]
  have hsep := sepChunk_ws p lvl hl
  rw [List.append_assoc,
    skip_whitespace_append _ _ (fun c hc => (hsep.2 c hc).1), List.cons_append]
  exact dropWhile_head_false '(' _ (by decide)

theorem chunksFields_some_strip (p : Bool) (lvl : Nat) (fr : Fields) (vr : Values)
    (nmj : Chars) (σj : FieldShape) (vj : Value) (frj : Fields) (vrj : Values) (x : Chars)
    (hwf : wfFields fr = true) (hfits : fitsRecord fr vr = true) (hl : 0 < lvl)
    (hsp : splitSilent fr vr = some (nmj, σj, vj, frj, vrj)) :
    ∃ c0 r, skip_whitespace (chunksFields p lvl fr vr ++ x) = c0 :: r ∧
      isUniWs c0 = false ∧ isAsciiWs c0 = false ∧ c0 ≠ ')' := by
  obtain ⟨hch, hns⟩ := splitSilent_some_parts p lvl fr vr nmj σj vj frj vrj hsp
  obtain ⟨hfj, hfrj, hwfrj, hwej, hmem, hnil, hnnil⟩ :=
    splitSilent_wf fr vr nmj σj vj frj vrj hwf hfits hsp
  rw [hch, List.append_assoc]
  by_cases hta : isTrueAtom σj vj = true
  · obtain ⟨he1, he2⟩ := isTrueAtom_cases σj vj hta
    subst he1; subst he2
    have hnmne : nmj ≠ [] := by
      intro hc
      obtain ⟨_, e, hse⟩ := hnil hc
      cases hse
    obtain ⟨hid, _⟩ := hnnil hnmne
    obtain ⟨n0, nm', hc, hu, ha, hp, _⟩ := identName_head nmj hid
    rw [trueAtom_chunk p lvl nmj hid, trueatom_strip nmj _ hid, hc, List.cons_append]
    exact ⟨n0, _, rfl, hu, ha, hp⟩
  · by_cases hnmj : nmj = ([] : Chars)
    · obtain ⟨hfr0, e, hse⟩ := hnil hnmj
      subst hse; subst hfr0; subst hnmj
      cases vj <;> simp only [fits, Bool.false_eq_true] at hfj
      rename_i el
      have hwfe : wfShape e = true := hwej
      rw [chunkOf_seq_empty p lvl e el hwfe hfj]
      cases el with
      | nil => exact Bool.noConfusion hns
      | cons v0 vr0 =>
        obtain ⟨hfv0, _⟩ := fitsSeq_cons_elim e v0 vr0 hfj
        obtain ⟨w, c, hsplit, hwne, hwws, hgh⟩ := chunkN_split p lvl e v0 hwfe hfv0 hl
        obtain ⟨c0, r, hcc, h1, h2, h3⟩ := goodHead_parts c hgh
        rw [chunksSeqE_cons, hsplit]
        rw [show (w ++ c ++ chunksSeqE p lvl e vr0) ++
            (chunksFields p lvl .nil vrj ++ x) =
            (w ++ c) ++ (chunksSeqE p lvl e vr0 ++ (chunksFields p lvl .nil vrj ++ x))
          from by simp]
        rw [show (w ++ c) ++ (chunksSeqE p lvl e vr0 ++ (chunksFields p lvl .nil vrj ++ x)) =
            w ++ (c ++ (chunksSeqE p lvl e vr0 ++ (chunksFields p lvl .nil vrj ++ x)))
          from by simp,
          skip_whitespace_append _ _ (fun z hz => (hwws z hz).1), hcc, List.cons_append]
        exact ⟨c0, _, skip_whitespace_eq_self _ (fun cc rr hcr => by
          injection hcr with e1 _
          rw [← e1]
          exact h1), h1, h2, h3⟩
    · obtain ⟨hid, _⟩ := hnnil hnmj
      have hta' : isTrueAtom σj vj = false := by simpa using hta
      obtain ⟨w, c, hsplit, hwne, hwws, hgh⟩ :=
        chunk_split p lvl nmj σj vj hwej hfj hl hid hns hta'
      obtain ⟨c0, r, hcc, h1, h2, h3⟩ := goodHead_parts c hgh
      rw [hsplit,
        show (w ++ c) ++ (chunksFields p lvl frj vrj ++ x) =
          w ++ (c ++ (chunksFields p lvl frj vrj ++ x)) from by simp,
        skip_whitespace_append _ _ (fun z hz => (hwws z hz).1), hcc, List.cons_append]
      exact ⟨c0, _, skip_whitespace_eq_self _ (fun cc rr hcr => by
        injection hcr with e1 _
        rw [← e1]
        exact h1), h1, h2, h3⟩

theorem next_value_seed_fallthrough (fds : List (Chars × D)) (i : Nat) (input : Chars)
    (hi : i < fds.length)
    (hpk : ∀ h, peek_identifier input = some h →
      (fds.get ⟨i, hi⟩).1 ≠ h ∧ findLater fds (i + 1) h = none) :
    next_value_seed fds i none input =
      (match (fds.get ⟨i, hi⟩).2.field (some (fds.get ⟨i, hi⟩).1) input with
       | none => none
       | some (r, rest, _) => some (r, rest, none)) := by
  unfold next_value_seed
  rw [dif_pos hi]
  dsimp only
  cases hp : peek_identifier input with
  | none => rfl
  | some h =>
    obtain ⟨hne, hfl⟩ := hpk h hp
    dsimp only
    rw [if_neg hne, hfl]

theorem next_value_seed_hit (fds : List (Chars × D)) (i : Nat) (input : Chars)
    (ident : Chars) (hi : i < fds.length)
    (hp : peek_identifier input = some ident) (heq : (fds.get ⟨i, hi⟩).1 = ident) :
    next_value_seed fds i none input =
      some ((fds.get ⟨i, hi⟩).2.tru.1, input.drop ident.length, none) := by
  unfold next_value_seed
  rw [dif_pos hi]
  dsimp only
  rw [hp]
  dsimp only
  rw [if_pos heq]

theorem next_value_seed_jump (fds : List (Chars × D)) (i : Nat) (input : Chars)
    (ident : Chars) (J : Nat) (hi : i < fds.length)
    (hp : peek_identifier input = some ident) (hne : (fds.get ⟨i, hi⟩).1 ≠ ident)
    (hfl : findLater fds (i + 1) ident = some J) :
    next_value_seed fds i none input =
      some ((fds.get ⟨i, hi⟩).2.miss.1, input.drop ident.length, some J) := by
  unfold next_value_seed
  rw [dif_pos hi]
  dsimp only
  rw [hp]
  dsimp only
  rw [if_neg hne, hfl]

theorem next_value_seed_skip (fds : List (Chars × D)) (i : Nat) (input : Chars)
    (k : Nat) (hi : i < fds.length) (hk : ¬ (k = i)) :
    next_value_seed fds i (some k) input =
      some ((fds.get ⟨i, hi⟩).2.miss.1, input, some k) := by
  unfold next_value_seed
  rw [dif_pos hi]
  dsimp only
  rw [if_neg hk]

theorem next_value_seed_at (fds : List (Chars × D)) (i : Nat) (input : Chars)
    (hi : i < fds.length) :
    next_value_seed fds i (some i) input =
      some ((fds.get ⟨i, hi⟩).2.tru.1, input, none) := by
  unfold next_value_seed
  rw [dif_pos hi]
  dsimp only
  rw [if_pos rfl]

theorem condAt_emitting (p : Bool) (l : Nat) (nm : Chars) (σ : FieldShape) (v : Value)
    (fr : Fields) (vr : Values) (tail : Chars)
    (hta : isTrueAtom σ v = false) (hs : isSilentN nm σ v = false)
    (hcond : condAt p l nm σ v fr vr tail = true) :
    ∀ h, peek_identifier (skip_whitespace (chunkOf p l nm σ v ++
        (chunksFields p l fr vr ++ ')' :: tail))) = some h →
      h ≠ nm ∧ (fieldNames fr).all (fun m => decide (m ≠ h)) = true := by
  intro h hp
  simp only [condAt] at hcond
  rw [if_neg (by simp [hta]), if_neg (by simp [hs]), hp] at hcond
  simp only [Bool.and_eq_true, decide_eq_true_eq] at hcond
  exact hcond

theorem condAt_silent (p : Bool) (l : Nat) (nm : Chars) (σ : FieldShape) (v : Value)
    (fr : Fields) (vr : Values) (tail : Chars) (nmj : Chars) (σj : FieldShape)
    (vj : Value) (frj : Fields) (vrj : Values)
    (hta : isTrueAtom σ v = false) (hs : isSilentN nm σ v = true)
    (hsp : splitSilent fr vr = some (nmj, σj, vj, frj, vrj))
    (htaj : isTrueAtom σj vj = false)
    (hcond : condAt p l nm σ v fr vr tail = true) :
    (∀ h, peek_identifier (skip_whitespace (chunksFields p l fr vr ++ ')' :: tail)) =
        some h →
      h ≠ nm ∧ (fieldNames fr).all (fun m => decide (m ≠ h)) = true) ∧
    (∀ s, σ = .fOpt s → v = .vNone →
      trialRejects s nm (chunksFields p l fr vr ++ ')' :: tail) = true) := by
  simp only [condAt] at hcond
  rw [if_neg (by simp [hta]), if_pos hs, hsp] at hcond
  dsimp only at hcond
  rw [if_neg (by simp [htaj])] at hcond
  simp only [Bool.and_eq_true] at hcond
  constructor
  · intro h hp
    have h1 := hcond.1
    rw [hp] at h1
    simp only [Bool.and_eq_true, decide_eq_true_eq] at h1
    exact h1
  · intro s hσ hv
    subst hσ; subst hv
    exact hcond.2

theorem isSilentN_named (nm : Chars) (σ : FieldShape) (v : Value) (hnm : nm ≠ [])
    (hs : isSilentN nm σ v = true) : isSilent σ v = true := by
  unfold isSilentN at hs
  simp only [Bool.or_eq_true, Bool.and_eq_true, decide_eq_true_eq] at hs
  rcases hs with hs | ⟨hc, _⟩
  · exact hs
  · exact absurd hc hnm

theorem silent_miss (σ : FieldShape) (v : Value) (hwe : wfEntry σ = true)
    (hsil : isSilent σ v = true) : (mkD σ).miss.1 = .ok v := by
  rcases isSilent_cases σ v hsil with ⟨hσ, hv⟩ | ⟨s, hσ, hv⟩
  · subst hσ; subst hv
    rfl
  · subst hσ; subst hv
    rw [show (mkD (.fOpt s)).miss = (.ok .vNone, false) from mkD_opt_miss s hwe]

theorem trialRejects_elim (s : FieldShape) (nm : Chars) (after : Chars)
    (h : trialRejects s nm after = true) :
    ∃ e, (mkD s).field (some nm) (skip_whitespace after) =
      some (.error e, skip_whitespace after, false) := by
  unfold trialRejects at h
  split at h
  · rename_i e r heq
    simp only [decide_eq_true_eq] at h
    subst h
    exact ⟨e, heq⟩
  · exact Bool.noConfusion h


set_option maxRecDepth 8000 in
set_option maxHeartbeats 2000000 in
mutual

theorem mkD_rt (p : Bool) (lvl : Nat) (σ : FieldShape) (v : Value) (tail : Chars)
    (ident : Option Chars) (hwf : wfShape σ = true) (hfits : fits σ v = true)
    (hl : 0 < lvl) (hcond : condVal p lvl σ v tail = true) (hd : delim tail = true) :
    ∃ rest, (mkD σ).field ident (skip_whitespace (chunkOfN p lvl σ v ++ tail)) =
      some (.ok v, rest, true) ∧ (rest = tail ∨ rest = skip_whitespace tail) := by
  cases σ with
  | fBool => exact absurd hwf (by simp [wfShape])
  | fFloat => exact absurd hwf (by simp [wfShape])
  | fOpt s => exact absurd hwf (by simp [wfShape])
  | fSeq e => exact absurd hwf (by simp [wfShape])
  | fInt lo hi tn =>
    cases v <;> simp only [fits, Bool.false_eq_true] at hfits
    rename_i n
    simp only [Bool.and_eq_true, decide_eq_true_eq] at hfits
    obtain ⟨d, dr, hdcons⟩ : ∃ d dr, intToDec n = d :: dr := by
      cases hh : intToDec n with
      | nil => exact absurd hh (intToDec_ne_nil n)
      | cons d dr => exact ⟨d, dr, rfl⟩
    have hstrip : skip_whitespace (chunkOfN p lvl (.fInt lo hi tn) (.vInt n) ++ tail) =
        intToDec n ++ tail := by
      rw [chunkOfN_int, List.cons_append, skipWs_space, hdcons, List.cons_append]
      exact dropWhile_head_false d _
        (intToDec_chars n d (by rw [hdcons]; exact List.mem_cons_self ..)).2.1
    rw [hstrip]
    refine ⟨tail, ?_, Or.inl rfl⟩
    have hred : (mkD (.fInt lo hi tn)).field ident (intToDec n ++ tail) =
        (match parse_number (parseIntRange lo hi) (intToDec n ++ tail) with
         | (.error e, rest) => some (.error e, rest, false)
         | (.ok m, rest) => some (.ok (.vInt m), rest, true)) := rfl
    rw [hred, parse_number_intToDec lo hi n tail hfits.1 hfits.2 hd]
  | fStr =>
    cases v <;> simp only [fits, Bool.false_eq_true] at hfits
    rename_i s
    have hbare : need_quotes s true = false →
        s ≠ [] ∧ ∀ c ∈ s, isAsciiWs c = false ∧ c ≠ ')' ∧ c ≠ '(' ∧ c ≠ '"' := by
      intro hq
      obtain ⟨hne, hall⟩ := need_quotes_false_aggressive s hq
      refine ⟨hne, fun c hc => ?_⟩
      have hic := hall c hc
      exact ⟨(identChar_props c hic).2.1, identChar_ne c hic ')' (by decide),
        identChar_ne c hic '(' (by decide), identChar_ne c hic '"' (by decide)⟩
    have hstrip : skip_whitespace (chunkOfN p lvl .fStr (.vStr s) ++ tail) =
        (if need_quotes s true then '"' :: (escapeStr s ++ ['"']) else s) ++ tail := by
      rw [chunkOfN_str, write_str, List.cons_append, skipWs_space]
      by_cases hq : need_quotes s true = true
      · rw [if_pos hq, List.cons_append]
        exact dropWhile_head_false '"' _ (by decide)
      · have hq' : need_quotes s true = false := by simpa using hq
        rw [if_neg (by simp [hq'])]
        obtain ⟨hne, hall⟩ := need_quotes_false_aggressive s hq'
        obtain ⟨c0, s', hcs⟩ : ∃ c0 s', s = c0 :: s' := by
          cases s with
          | nil => exact absurd rfl hne
          | cons c0 s' => exact ⟨c0, s', rfl⟩
        rw [hcs, List.cons_append]
        exact dropWhile_head_false c0 _
          (identChar_props c0 (hall c0 (by rw [hcs]; exact List.mem_cons_self ..))).1
    rw [hstrip]
    refine ⟨tail, ?_, Or.inl rfl⟩
    have hred : (mkD .fStr).field ident
        ((if need_quotes s true then '"' :: (escapeStr s ++ ['"']) else s) ++ tail) =
        (match parse_string
            ((if need_quotes s true then '"' :: (escapeStr s ++ ['"']) else s) ++ tail) with
         | (.error e, rest) => some (.error e, rest, false)
         | (.ok s', rest) => some (.ok (.vStr s'), rest, true)) := rfl
    rw [hred, write_str_decode s true tail hd hbare]
  | fUnit snm =>
    cases v <;> simp only [fits, Bool.false_eq_true] at hfits
    have hid : identName snm = true := hwf
    have hstrip : skip_whitespace (chunkOfN p lvl (.fUnit snm) .vUnit ++ tail) =
        '(' :: (snm ++ (')' :: tail)) := by
      rw [chunkOfN_unit,
        show (begin_sexpr p lvl snm ++ [')']) ++ tail =
          begin_sexpr p lvl snm ++ (')' :: tail) from by simp]
      exact begin_strip p lvl snm _ hl
    rw [hstrip]
    refine ⟨tail, ?_, Or.inl rfl⟩
    have hred : (mkD (.fUnit snm)).field ident ('(' :: (snm ++ (')' :: tail))) =
        (match consume_beginning snm ('(' :: (snm ++ (')' :: tail))) with
         | (.error e, st) => some (.error e, st, false)
         | (.ok (), st) =>
           match st with
           | [] => some (.error .Eof, st, false)
           | c :: rest =>
             if c = ')' then some (.ok .vUnit, rest, true)
             else some (.error .ExpectedEoe, rest, false)) := rfl
    rw [hred, consume_beginning_exact snm (')' :: tail) hid
      (fun c r hcr => by injection hcr with e1 _; rw [← e1]; decide)]
    dsimp only
    rw [if_pos rfl]
  | fStruct snm flds =>
    cases v <;> simp only [fits, Bool.false_eq_true] at hfits
    rename_i vs
    have hwf' : (identName snm && wfFields flds) = true := hwf
    simp only [Bool.and_eq_true] at hwf'
    have hcond' : condFields p (lvl + 1) flds vs tail = true := hcond
    have hstrip : skip_whitespace
        (chunkOfN p lvl (.fStruct snm flds) (.vStruct vs) ++ tail) =
        '(' :: (snm ++ (chunksFields p (lvl + 1) flds vs ++ ')' :: tail)) := by
      rw [chunkOfN_struct p lvl snm flds vs hwf'.2 hfits,
        show (begin_sexpr p lvl snm ++ chunksFields p (lvl + 1) flds vs ++ [')']) ++ tail =
          begin_sexpr p lvl snm ++ (chunksFields p (lvl + 1) flds vs ++ ')' :: tail)
          from by simp]
      exact begin_strip p lvl snm _ hl
    rw [hstrip]
    obtain ⟨rest, hv, hdisj⟩ := visit_map_rt p (lvl + 1) ((mkFields flds).length + 1)
      (mkFields flds) 0 flds vs (chunksFields p (lvl + 1) flds vs ++ ')' :: tail) tail
      (by simp) (by omega) (by omega) hwf'.2 hfits hcond' (by omega) rfl
    refine ⟨rest, ?_, hdisj⟩
    have hred : (mkD (.fStruct snm flds)).field ident
        ('(' :: (snm ++ (chunksFields p (lvl + 1) flds vs ++ ')' :: tail))) =
        (match consume_beginning snm
            ('(' :: (snm ++ (chunksFields p (lvl + 1) flds vs ++ ')' :: tail))) with
         | (.error e, st) => some (.error e, st, false)
         | (.ok (), st) =>
           match visit_map (mkFields flds) ((mkFields flds).length + 1) 0 none st with
           | none => none
           | some (.error e, rest') => some (.error e, rest', true)
           | some (.ok vs', rest') =>
             some (.ok (.vStruct (.ofList vs')), rest', true)) := rfl
    rw [hred, consume_beginning_exact snm _ hwf'.1
      (fun c r hcr => delim_head_not_ident _
        (delim_chunksFields p (lvl + 1) flds vs tail hwf'.2 hfits (by omega)) c r hcr)]
    dsimp only
    rw [hv]
    dsimp only
    rw [Values.ofList_toList]
  | fTuple snm es =>
    cases v <;> simp only [fits, Bool.false_eq_true] at hfits
    rename_i vs
    rw [wfShape_fTuple] at hwf
    simp only [Bool.and_eq_true] at hwf
    obtain ⟨⟨hid, hnes⟩, hwe⟩ := hwf
    have hne : es ≠ .nil := by
      cases es with
      | nil => exact Bool.noConfusion hnes
      | cons _ _ => exact fun h => Shapes.noConfusion h
    have hcond' : condElems p (lvl + 1) es vs tail = true := hcond
    have hstrip : skip_whitespace
        (chunkOfN p lvl (.fTuple snm es) (.vTuple vs) ++ tail) =
        '(' :: (snm ++ (chunksTup p (lvl + 1) es vs ++ ')' :: tail)) := by
      rw [chunkOfN_tuple p lvl snm es vs hwe hfits,
        show (begin_sexpr p lvl snm ++ chunksTup p (lvl + 1) es vs ++ [')']) ++ tail =
          begin_sexpr p lvl snm ++ (chunksTup p (lvl + 1) es vs ++ ')' :: tail)
          from by simp]
      exact begin_strip p lvl snm _ hl
    rw [hstrip]
    have hrec := visit_tuple_rt p (lvl + 1) es vs
      (chunksTup p (lvl + 1) es vs ++ ')' :: tail) tail hwe hfits (by omega) hcond' hne rfl
    refine ⟨tail, ?_, Or.inl rfl⟩
    have hred : (mkD (.fTuple snm es)).field ident
        ('(' :: (snm ++ (chunksTup p (lvl + 1) es vs ++ ')' :: tail))) =
        (match consume_beginning snm
            ('(' :: (snm ++ (chunksTup p (lvl + 1) es vs ++ ')' :: tail))) with
         | (.error e, st) => some (.error e, st, false)
         | (.ok (), st) =>
           match visit_tuple (mkShapes es) st false with
           | none => none
           | some (.error e, rest', _) => some (.error e, rest', true)
           | some (.ok vs', rest', _) =>
             some (.ok (.vTuple (.ofList vs')), rest', true)) := rfl
    rw [hred, consume_beginning_exact snm _ hid
      (fun c r hcr => delim_head_not_ident _
        (delim_chunksTup p (lvl + 1) es vs tail hwe hfits (by omega)) c r hcr)]
    dsimp only
    rw [hrec]
    dsimp only
    rw [Values.ofList_toList]
  | fEnum vars =>
    cases v <;> simp only [fits, Bool.false_eq_true] at hfits
    rename_i i
    simp only [decide_eq_true_eq] at hfits
    simp only [wfShape, Bool.and_eq_true] at hwf
    have hgv := List.all_eq_true.mp hwf.2 _ (List.getElem_mem hfits)
    obtain ⟨hvne, hvrest⟩ := goodVariant_parts _ hgv
    have hbare : need_quotes vars[i] false = false →
        vars[i] ≠ [] ∧ ∀ c ∈ vars[i],
          isAsciiWs c = false ∧ c ≠ ')' ∧ c ≠ '(' ∧ c ≠ '"' := by
      intro hq
      obtain ⟨hnws, _⟩ := hvrest hq
      obtain ⟨_, hplain⟩ := need_quotes_false_plain _ hq
      exact ⟨hvne, fun c hc => ⟨(hnws c hc).2, (hplain c hc).2.2.2.2.2.1,
        (hplain c hc).2.2.2.2.1, (hplain c hc).2.2.2.2.2.2⟩⟩
    have hstrip : skip_whitespace (chunkOfN p lvl (.fEnum vars) (.vVariant i) ++ tail) =
        (if need_quotes vars[i] false then '"' :: (escapeStr vars[i] ++ ['"'])
         else vars[i]) ++ tail := by
      rw [chunkOfN_enum p lvl vars i hfits, write_str, List.cons_append, skipWs_space]
      by_cases hq : need_quotes vars[i] false = true
      · rw [if_pos hq, List.cons_append]
        exact dropWhile_head_false '"' _ (by decide)
      · have hq' : need_quotes vars[i] false = false := by simpa using hq
        rw [if_neg (by simp [hq'])]
        obtain ⟨hnws, _⟩ := hvrest hq'
        obtain ⟨c0, s', hcs⟩ : ∃ c0 s', vars[i] = c0 :: s' := by
          cases hh : vars[i] with
          | nil => exact absurd hh hvne
          | cons c0 s' => exact ⟨c0, s', rfl⟩
        rw [hcs, List.cons_append]
        exact dropWhile_head_false c0 _
          (hnws c0 (by rw [hcs]; exact List.mem_cons_self ..)).1
    rw [hstrip]
    have hpeek : peek_token ((if need_quotes vars[i] false then
        '"' :: (escapeStr vars[i] ++ ['"']) else vars[i]) ++ tail) = .ok .String := by
      by_cases hq : need_quotes vars[i] false = true
      · rw [if_pos hq,
          show ('"' :: (escapeStr vars[i] ++ ['"'])) ++ tail =
            '"' :: (escapeStr vars[i] ++ ['"'] ++ tail) from by simp]
        exact peek_token_quoted _
      · have hq' : need_quotes vars[i] false = false := by simpa using hq
        rw [if_neg (by simp [hq'])]
        obtain ⟨hnws, hex⟩ := hvrest hq'
        obtain ⟨_, hplain⟩ := need_quotes_false_plain _ hq'
        exact peek_token_string_of_scan vars[i] tail hvne
          (fun c hc => ⟨(hplain c hc).2.2.2.2.1, (hnws c hc).2⟩) hex
    have hparse : parse_string ((if need_quotes vars[i] false then
        '"' :: (escapeStr vars[i] ++ ['"']) else vars[i]) ++ tail) =
        (.ok vars[i], tail) := write_str_decode vars[i] false tail hd hbare
    refine ⟨tail, ?_, Or.inl rfl⟩
    have hred : (mkD (.fEnum vars)).field ident
        ((if need_quotes vars[i] false then '"' :: (escapeStr vars[i] ++ ['"'])
          else vars[i]) ++ tail) =
        (match peek_token ((if need_quotes vars[i] false then
            '"' :: (escapeStr vars[i] ++ ['"']) else vars[i]) ++ tail) with
         | .error e => some (.error e, (if need_quotes vars[i] false then
             '"' :: (escapeStr vars[i] ++ ['"']) else vars[i]) ++ tail, true)
         | .ok .SExpr =>
           match peek_sexpr_identifier ((if need_quotes vars[i] false then
               '"' :: (escapeStr vars[i] ++ ['"']) else vars[i]) ++ tail) with
           | .error e => some (.error e, (if need_quotes vars[i] false then
               '"' :: (escapeStr vars[i] ++ ['"']) else vars[i]) ++ tail, true)
           | .ok id =>
             if vars.contains id then
               some (.error .NonNewtypeEnumVariant, (if need_quotes vars[i] false then
                 '"' :: (escapeStr vars[i] ++ ['"']) else vars[i]) ++ tail, true)
             else some (.error (unknownVariantMsg id vars),
               (if need_quotes vars[i] false then
                 '"' :: (escapeStr vars[i] ++ ['"']) else vars[i]) ++ tail, true)
         | .ok .String =>
           match parse_string ((if need_quotes vars[i] false then
               '"' :: (escapeStr vars[i] ++ ['"']) else vars[i]) ++ tail) with
           | (.error e, rest) => some (.error e, rest, true)
           | (.ok s, rest) =>
             match vars.findIdx? (fun vv => vv = s) with
             | some j => some (.ok (.vVariant j), rest, true)
             | none => some (.error (unknownVariantMsg s vars), rest, true)
         | .ok .Int =>
           match (if need_quotes vars[i] false then
               '"' :: (escapeStr vars[i] ++ ['"']) else vars[i]) ++ tail with
           | '-' :: _ =>
             match parse_number (parseIntRange i64min i64max)
                 ((if need_quotes vars[i] false then
                   '"' :: (escapeStr vars[i] ++ ['"']) else vars[i]) ++ tail) with
             | (.error e, rest) => some (.error e, rest, true)
             | (.ok n, rest) =>
               some (.error (invalidType ("integer `" ++ toString n ++ "`")
                 "variant identifier"), rest, true)
           | _ =>
             match parse_number (parseIntRange 0 u64max)
                 ((if need_quotes vars[i] false then
                   '"' :: (escapeStr vars[i] ++ ['"']) else vars[i]) ++ tail) with
             | (.error e, rest) => some (.error e, rest, true)
             | (.ok n, rest) =>
               if n < vars.length then some (.ok (.vVariant n.toNat), rest, true)
               else
                 some (.error (.Message ("invalid value: integer `" ++ toString n ++
                   "`, expected variant index 0 <= i < " ++ toString vars.length)),
                   rest, true)
         | .ok .Float =>
           match parse_number parseFloat ((if need_quotes vars[i] false then
               '"' :: (escapeStr vars[i] ++ ['"']) else vars[i]) ++ tail) with
           | (.error e, rest) => some (.error e, rest, true)
           | (.ok _, rest) =>
             some (.error (invalidType "floating point value" "variant identifier"),
               rest, true)) := rfl
    rw [hred, hpeek]
    dsimp only
    rw [hparse]
    dsimp only
    rw [findIdx_distinct vars i hfits hwf.1]

termination_by 2 * sizeOf v
decreasing_by all_goals (subst_vars; simp_wf <;> omega)

theorem field_rt (p : Bool) (lvl : Nat) (nm : Chars) (σ : FieldShape) (v : Value)
    (tail : Chars) (hwe : wfEntry σ = true) (hfits : fits σ v = true) (hl : 0 < lvl)
    (hid : identName nm = true) (hns : isSilentN nm σ v = false)
    (hta : isTrueAtom σ v = false) (hcond : condVal p lvl σ v tail = true)
    (hd : delim tail = true) :
    ∃ rest, (mkD σ).field (some nm) (skip_whitespace (chunkOf p lvl nm σ v ++ tail)) =
      some (.ok v, rest, true) ∧ (rest = tail ∨ rest = skip_whitespace tail) := by
  cases σ with
  | fBool =>
    cases v <;> simp only [fits, Bool.false_eq_true] at hfits
    rename_i b
    cases b
    · exact absurd hns (by simp [isSilentN, isSilent])
    · exact absurd hta (by simp [isTrueAtom])
  | fFloat => exact absurd hwe (by simp [wfEntry])
  | fOpt s =>
    cases v <;> simp only [fits, Bool.false_eq_true] at hfits
    · exact absurd hns (by simp [isSilentN, isSilent])
    · rename_i v'
      have hwfs : wfShape s = true := hwe
      rw [chunkOf_opt_some p lvl nm s v' hwfs]
      have hcond' : condVal p lvl s v' tail = true := hcond
      obtain ⟨rest, hfield, hdisj⟩ := mkD_rt p lvl s v' tail (some nm) hwfs hfits hl hcond' hd
      refine ⟨rest, ?_, hdisj⟩
      have hred : (mkD (.fOpt s)).field (some nm)
          (skip_whitespace (chunkOfN p lvl s v' ++ tail)) =
          (match (mkD s).field (some nm) (skip_whitespace (chunkOfN p lvl s v' ++ tail)) with
           | none => none
           | some (.ok w, rest', t) => some (.ok (.vSome w), rest', t)
           | some (.error e, rest', t) =>
             if t then some (.error e, rest', t)
             else some (.ok .vNone, rest', false)) := rfl
      rw [hred, hfield]
  | fSeq e =>
    cases v <;> simp only [fits, Bool.false_eq_true] at hfits
    rename_i el
    have hwfs : wfShape e = true := hwe
    have hcond' : condSeq p (lvl + 1) e el tail = true := hcond
    have hX : delim (chunksSeqE p (lvl + 1) e el ++ ')' :: tail) = true :=
      delim_chunksSeqE p (lvl + 1) e el tail hwfs hfits (by omega)
    obtain ⟨n0, nm', hnc, _, _, _, _⟩ := identName_head nm hid
    subst hnc
    have hstrip : skip_whitespace (chunkOf p lvl (n0 :: nm') (.fSeq e) (.vSeq el) ++ tail) =
        '(' :: ((n0 :: nm') ++ (chunksSeqE p (lvl + 1) e el ++ ')' :: tail)) := by
      rw [chunkOf_seq_named p lvl n0 nm' e el hwfs hfits,
        show (begin_sexpr p lvl (n0 :: nm') ++ chunksSeqE p (lvl + 1) e el ++ [')']) ++ tail =
          begin_sexpr p lvl (n0 :: nm') ++ (chunksSeqE p (lvl + 1) e el ++ ')' :: tail)
          from by simp]
      exact begin_strip p lvl _ _ hl
    rw [hstrip]
    have hcb := consume_beginning_exact (n0 :: nm')
      (chunksSeqE p (lvl + 1) e el ++ ')' :: tail) hid
      (fun c r hcr => delim_head_not_ident _ hX c r hcr)
    have hfuel : countV el + 1 ≤ (chunksSeqE p (lvl + 1) e el ++ ')' :: tail).length + 1 := by
      have := chunksSeqE_len p (lvl + 1) e hwfs (by omega) el hfits
      simp only [List.length_append, List.length_cons]
      omega
    have hseq := visit_seq_tuple_rt p (lvl + 1) e el
      ((chunksSeqE p (lvl + 1) e el ++ ')' :: tail).length + 1)
      (chunksSeqE p (lvl + 1) e el ++ ')' :: tail) tail hwfs hfits (by omega) hcond'
      hfuel rfl
    refine ⟨tail, ?_, Or.inl rfl⟩
    have hred : (mkD (.fSeq e)).field (some (n0 :: nm'))
        ('(' :: ((n0 :: nm') ++ (chunksSeqE p (lvl + 1) e el ++ ')' :: tail))) =
        (match consume_beginning (n0 :: nm')
            ('(' :: ((n0 :: nm') ++ (chunksSeqE p (lvl + 1) e el ++ ')' :: tail))) with
         | (.error e', st) => some (.error e', st, false)
         | (.ok (), st) =>
           match visit_seq_tuple ((mkD e).field none) (st.length + 1) st false with
           | none => none
           | some (.error e', rest) => some (.error e', rest, true)
           | some (.ok vs', rest) => some (.ok (.vSeq (.ofList vs')), rest, true)) := rfl
    rw [hred, hcb]
    dsimp only
    rw [hseq]
    dsimp only
    rw [Values.ofList_toList]
  | fInt lo hi tn =>
    have hwfs : wfShape (.fInt lo hi tn) = true := hwe
    rw [chunkOf_eq_chunkOfN p lvl nm _ v hwfs]
    exact mkD_rt p lvl _ v tail (some nm) hwfs hfits hl hcond hd
  | fStr =>
    have hwfs : wfShape .fStr = true := hwe
    rw [chunkOf_eq_chunkOfN p lvl nm _ v hwfs]
    exact mkD_rt p lvl _ v tail (some nm) hwfs hfits hl hcond hd
  | fUnit snm =>
    have hwfs : wfShape (.fUnit snm) = true := hwe
    rw [chunkOf_eq_chunkOfN p lvl nm _ v hwfs]
    exact mkD_rt p lvl _ v tail (some nm) hwfs hfits hl hcond hd
  | fStruct snm flds =>
    have hwfs : wfShape (.fStruct snm flds) = true := hwe
    rw [chunkOf_eq_chunkOfN p lvl nm _ v hwfs]
    exact mkD_rt p lvl _ v tail (some nm) hwfs hfits hl hcond hd
  | fTuple snm es =>
    have hwfs : wfShape (.fTuple snm es) = true := by
      rw [wfShape_fTuple]
      exact hwe
    rw [chunkOf_eq_chunkOfN p lvl nm _ v hwfs]
    exact mkD_rt p lvl _ v tail (some nm) hwfs hfits hl hcond hd
  | fEnum vars =>
    have hwfs : wfShape (.fEnum vars) = true := hwe
    rw [chunkOf_eq_chunkOfN p lvl nm _ v hwfs]
    exact mkD_rt p lvl _ v tail (some nm) hwfs hfits hl hcond hd

termination_by 2 * sizeOf v + 1
decreasing_by all_goals (subst_vars; simp_wf <;> omega)

theorem visit_tuple_rt (p : Bool) (lvl : Nat) (es : Shapes) (vs : Values)
    (I tail : Chars) (hwf : wfShapesAll es = true) (hfits : fitsElems es vs = true)
    (hl : 0 < lvl) (hcond : condElems p lvl es vs tail = true) (hne : es ≠ .nil)
    (hI : skip_whitespace I = skip_whitespace (chunksTup p lvl es vs ++ ')' :: tail)) :
    visit_tuple (mkShapes es) I false = some (.ok (Values.toList vs), tail, true) := by
  cases es with
  | nil => exact absurd rfl hne
  | cons σ es' =>
    obtain ⟨v, vr, he, hfv, hfr⟩ := fitsElems_cons_elim σ es' vs hfits
    subst he
    have hc : (condVal p lvl σ v (chunksTup p lvl es' vr ++ ')' :: tail) &&
        condElems p lvl es' vr tail) = true := hcond
    simp only [Bool.and_eq_true] at hc
    have hwf' : (wfShape σ && wfShapesAll es') = true := hwf
    simp only [Bool.and_eq_true] at hwf'
    obtain ⟨w, c, hsplit, hwne, hwws, hgh⟩ := chunkN_split p lvl σ v hwf'.1 hfv hl
    obtain ⟨c0, r, hcc, h1, h2, h3⟩ := goodHead_parts c hgh
    have hstrip2 : skip_whitespace (chunkOfN p lvl σ v ++
        (chunksTup p lvl es' vr ++ ')' :: tail)) =
        c0 :: (r ++ (chunksTup p lvl es' vr ++ ')' :: tail)) := by
      rw [hsplit, strip_ws_chunk w c (fun z hz => (hwws z hz).1) hgh _, hcc,
        List.cons_append]
    have hIs : skip_whitespace I =
        c0 :: (r ++ (chunksTup p lvl es' vr ++ ')' :: tail)) := by
      rw [hI, chunksTup_cons,
        show (chunkOfN p lvl σ v ++ chunksTup p lvl es' vr) ++ ')' :: tail =
          chunkOfN p lvl σ v ++ (chunksTup p lvl es' vr ++ ')' :: tail) from by simp]
      exact hstrip2
    rw [show mkShapes (.cons σ es') = mkD σ :: mkShapes es' from rfl, visit_tuple,
      tuple_check_eoe_open I c0 _ hIs h3]
    dsimp only
    rw [if_neg (by simp)]
    obtain ⟨rest, hfield, hdisj⟩ := mkD_rt p lvl σ v
      (chunksTup p lvl es' vr ++ ')' :: tail) none hwf'.1 hfv hl hc.1
      (delim_chunksTup p lvl es' vr tail hwf'.2 hfr hl)
    rw [hstrip2] at hfield
    rw [hfield]
    dsimp only
    have hrest : skip_whitespace rest =
        skip_whitespace (chunksTup p lvl es' vr ++ ')' :: tail) := by
      rcases hdisj with rfl | rfl
      · rfl
      · exact skip_whitespace_idem _
    cases es' with
    | nil =>
      cases vr with
      | cons _ _ => exact Bool.noConfusion hfr
      | nil =>
        have hrc : skip_whitespace rest = ')' :: tail := by
          rw [hrest]
          exact skip_whitespace_eq_self _ (fun cch rr hcr => by
            injection hcr with e1 _
            rw [← e1]
            decide)
        rw [tuple_check_eoe_close rest tail hrc]
        dsimp only
        rw [show visit_tuple (mkShapes .nil) tail true = some (.ok [], tail, true)
          from rfl]
        rfl
    | cons σ2 es2 =>
      obtain ⟨v2, vr2, he2, hfv2, hfr2⟩ := fitsElems_cons_elim σ2 es2 vr hfr
      subst he2
      have hwf2 : (wfShape σ2 && wfShapesAll es2) = true := hwf'.2
      simp only [Bool.and_eq_true] at hwf2
      obtain ⟨w2, c2, hsplit2, hwne2, hwws2, hgh2⟩ := chunkN_split p lvl σ2 v2 hwf2.1 hfv2 hl
      obtain ⟨d0, r2, hcc2, g1, g2, g3⟩ := goodHead_parts c2 hgh2
      have hrs : skip_whitespace rest =
          d0 :: (r2 ++ (chunksTup p lvl es2 vr2 ++ ')' :: tail)) := by
        rw [hrest, chunksTup_cons, hsplit2,
          show (w2 ++ c2 ++ chunksTup p lvl es2 vr2) ++ ')' :: tail =
            (w2 ++ c2) ++ (chunksTup p lvl es2 vr2 ++ ')' :: tail) from by simp,
          strip_ws_chunk w2 c2 (fun z hz => (hwws2 z hz).1) hgh2 _, hcc2,
          List.cons_append]
      rw [tuple_check_eoe_open rest d0 _ hrs g3]
      dsimp only
      rw [← hrs]
      have hrec := visit_tuple_rt p lvl (.cons σ2 es2) (.cons v2 vr2)
        (skip_whitespace rest) tail hwf'.2 hfr hl hc.2
        (fun h => Shapes.noConfusion h)
        (by rw [skip_whitespace_idem]; exact hrest)
      rw [hrec]
      rfl

termination_by 2 * sizeOf vs + 1
decreasing_by all_goals (subst_vars; simp_wf <;> omega)

theorem visit_seq_tuple_rt (p : Bool) (lvl : Nat) (e : FieldShape) (vs : Values)
    (fuel : Nat) (I tail : Chars) (hwf : wfShape e = true) (hfits : fitsSeq e vs = true)
    (hl : 0 < lvl) (hcond : condSeq p lvl e vs tail = true)
    (hfuel : countV vs + 1 ≤ fuel)
    (hI : skip_whitespace I = skip_whitespace (chunksSeqE p lvl e vs ++ ')' :: tail)) :
    visit_seq_tuple ((mkD e).field none) fuel I false =
      some (.ok (Values.toList vs), tail) := by
  cases vs with
  | nil =>
    have hIr : skip_whitespace I = ')' :: tail := by
      rw [hI]
      exact skip_whitespace_eq_self _ (fun c r hcr => by
        injection hcr with e1 _
        rw [← e1]
        decide)
    cases fuel with
    | zero => omega
    | succ fu =>
      rw [visit_seq_tuple, tuple_check_eoe_close I tail hIr]
      dsimp only
      rw [if_pos rfl]
      rfl
  | cons v vr =>
    obtain ⟨hfv, hfr⟩ := fitsSeq_cons_elim e v vr hfits
    have hc : (condVal p lvl e v (chunksSeqE p lvl e vr ++ ')' :: tail) &&
        condSeq p lvl e vr tail) = true := hcond
    simp only [Bool.and_eq_true] at hc
    obtain ⟨w, c, hsplit, hwne, hwws, hgh⟩ := chunkN_split p lvl e v hwf hfv hl
    obtain ⟨c0, r, hcc, h1, h2, h3⟩ := goodHead_parts c hgh
    have hstrip2 : skip_whitespace (chunkOfN p lvl e v ++
        (chunksSeqE p lvl e vr ++ ')' :: tail)) =
        c0 :: (r ++ (chunksSeqE p lvl e vr ++ ')' :: tail)) := by
      rw [hsplit, strip_ws_chunk w c (fun z hz => (hwws z hz).1) hgh _, hcc,
        List.cons_append]
    have hIs : skip_whitespace I =
        c0 :: (r ++ (chunksSeqE p lvl e vr ++ ')' :: tail)) := by
      rw [hI, chunksSeqE_cons,
        show (chunkOfN p lvl e v ++ chunksSeqE p lvl e vr) ++ ')' :: tail =
          chunkOfN p lvl e v ++ (chunksSeqE p lvl e vr ++ ')' :: tail) from by simp]
      exact hstrip2
    have hlen1 : (skip_whitespace I).length ≤ I.length := skip_whitespace_length_le I
    have hlen2 : (skip_whitespace I).length =
        1 + r.length + (chunksSeqE p lvl e vr ++ ')' :: tail).length := by
      rw [hIs]
      simp [List.length_append]
      omega
    cases fuel with
    | zero => omega
    | succ fu =>
      rw [visit_seq_tuple, tuple_check_eoe_open I c0 _ hIs h3]
      dsimp only
      rw [if_neg (by simp)]
      obtain ⟨rest, hfield, hdisj⟩ := mkD_rt p lvl e v
        (chunksSeqE p lvl e vr ++ ')' :: tail) none hwf hfv hl hc.1
        (delim_chunksSeqE p lvl e vr tail hwf hfr hl)
      rw [hstrip2] at hfield
      rw [hfield]
      dsimp only
      have hrest : skip_whitespace rest =
          skip_whitespace (chunksSeqE p lvl e vr ++ ')' :: tail) := by
        rcases hdisj with rfl | rfl
        · rfl
        · exact skip_whitespace_idem _
      have hlenrest : rest.length ≤ (chunksSeqE p lvl e vr ++ ')' :: tail).length := by
        rcases hdisj with rfl | rfl
        · exact Nat.le_refl _
        · exact skip_whitespace_length_le _
      simp only [countV] at hfuel
      cases vr with
      | nil =>
        have hrc : skip_whitespace rest = ')' :: tail := by
          rw [hrest]
          exact skip_whitespace_eq_self _ (fun cch rr hcr => by
            injection hcr with e1 _
            rw [← e1]
            decide)
        rw [tuple_check_eoe_close rest tail hrc]
        dsimp only
        rw [if_pos ?hpr]
        case hpr =>
          have hx : (chunksSeqE p lvl e Values.nil ++ ')' :: tail).length =
              1 + tail.length := by
            rw [chunksSeqE_nil]
            simp only [List.nil_append, List.length_cons]
            omega
          omega
        simp only [countV] at hfuel
        rw [visit_seq_tuple_ended ((mkD e).field none) fu tail (by omega)]
        rfl
      | cons v2 vr2 =>
        obtain ⟨hfv2, hfr2⟩ := fitsSeq_cons_elim e v2 vr2 hfr
        obtain ⟨w2, c2, hsplit2, hwne2, hwws2, hgh2⟩ :=
          chunkN_split p lvl e v2 hwf hfv2 hl
        obtain ⟨d0, r2, hcc2, g1, g2, g3⟩ := goodHead_parts c2 hgh2
        have hrs : skip_whitespace rest =
            d0 :: (r2 ++ (chunksSeqE p lvl e vr2 ++ ')' :: tail)) := by
          rw [hrest, chunksSeqE_cons, hsplit2,
            show (w2 ++ c2 ++ chunksSeqE p lvl e vr2) ++ ')' :: tail =
              (w2 ++ c2) ++ (chunksSeqE p lvl e vr2 ++ ')' :: tail) from by simp,
            strip_ws_chunk w2 c2 (fun z hz => (hwws2 z hz).1) hgh2 _, hcc2,
            List.cons_append]
        rw [tuple_check_eoe_open rest d0 _ hrs g3]
        dsimp only
        rw [← hrs]
        rw [if_pos (by
          have := skip_whitespace_length_le rest
          omega)]
        have hrec := visit_seq_tuple_rt p lvl e (.cons v2 vr2) fu
          (skip_whitespace rest) tail hwf hfr hl hc.2
          (by simp only [countV] at hfuel ⊢; omega)
          (by rw [skip_whitespace_idem]; exact hrest)
        rw [hrec]
        rfl

termination_by 2 * sizeOf vs + 1
decreasing_by all_goals (subst_vars; simp_wf <;> omega)

theorem visit_seq_field_rt (p : Bool) (lvl : Nat) (e : FieldShape) (vs : Values)
    (fuel : Nat) (I tail : Chars) (hwf : wfShape e = true) (hfits : fitsSeq e vs = true)
    (hl : 0 < lvl) (hcond : condSeq p lvl e vs tail = true)
    (hfuel : countV vs + 1 ≤ fuel)
    (hI : skip_whitespace I = skip_whitespace (chunksSeqE p lvl e vs ++ ')' :: tail)) :
    visit_seq_field ((mkD e).field none) fuel I =
      some (.ok (Values.toList vs), ')' :: tail) := by
  cases vs with
  | nil =>
    have hIr : skip_whitespace I = ')' :: tail := by
      rw [hI]
      exact skip_whitespace_eq_self _ (fun c r hcr => by
        injection hcr with e1 _
        rw [← e1]
        decide)
    cases fuel with
    | zero => omega
    | succ fu =>
      rw [visit_seq_field]
      rw [hIr]
      split
      · rename_i heq
        cases heq
      · rfl
      · rename_i hne1 hne2
        exact absurd rfl (hne2 tail)
  | cons v vr =>
    obtain ⟨hfv, hfr⟩ := fitsSeq_cons_elim e v vr hfits
    have hc : (condVal p lvl e v (chunksSeqE p lvl e vr ++ ')' :: tail) &&
        condSeq p lvl e vr tail) = true := hcond
    simp only [Bool.and_eq_true] at hc
    obtain ⟨w, c, hsplit, hwne, hwws, hgh⟩ := chunkN_split p lvl e v hwf hfv hl
    obtain ⟨c0, r, hcc, h1, h2, h3⟩ := goodHead_parts c hgh
    have hstrip2 : skip_whitespace (chunkOfN p lvl e v ++
        (chunksSeqE p lvl e vr ++ ')' :: tail)) =
        c0 :: (r ++ (chunksSeqE p lvl e vr ++ ')' :: tail)) := by
      rw [hsplit, strip_ws_chunk w c (fun z hz => (hwws z hz).1) hgh _, hcc,
        List.cons_append]
    have hIs : skip_whitespace I =
        c0 :: (r ++ (chunksSeqE p lvl e vr ++ ')' :: tail)) := by
      rw [hI, chunksSeqE_cons,
        show (chunkOfN p lvl e v ++ chunksSeqE p lvl e vr) ++ ')' :: tail =
          chunkOfN p lvl e v ++ (chunksSeqE p lvl e vr ++ ')' :: tail) from by simp]
      exact hstrip2
    have hlen1 : (skip_whitespace I).length ≤ I.length := skip_whitespace_length_le I
    have hlen2 : (skip_whitespace I).length =
        1 + r.length + (chunksSeqE p lvl e vr ++ ')' :: tail).length := by
      rw [hIs]
      simp [List.length_append]
      omega
    simp only [countV] at hfuel
    cases fuel with
    | zero => omega
    | succ fu =>
      rw [visit_seq_field]
      rw [hIs]
      split
      · rename_i heq
        cases heq
      · rename_i x heq
        injection heq with e1 _
        exact absurd e1 h3
      · rename_i hne1 hne2
        obtain ⟨rest, hfield, hdisj⟩ := mkD_rt p lvl e v
          (chunksSeqE p lvl e vr ++ ')' :: tail) none hwf hfv hl hc.1
          (delim_chunksSeqE p lvl e vr tail hwf hfr hl)
        rw [hstrip2] at hfield
        rw [hfield]
        dsimp only
        have hrest : skip_whitespace rest =
            skip_whitespace (chunksSeqE p lvl e vr ++ ')' :: tail) := by
          rcases hdisj with rfl | rfl
          · rfl
          · exact skip_whitespace_idem _
        have hlenrest : rest.length ≤ (chunksSeqE p lvl e vr ++ ')' :: tail).length := by
          rcases hdisj with rfl | rfl
          · exact Nat.le_refl _
          · exact skip_whitespace_length_le _
        rw [if_pos (by omega)]
        have hrec := visit_seq_field_rt p lvl e vr fu rest tail hwf hfr hl hc.2
          (by omega) hrest
        rw [hrec]
        rfl

termination_by 2 * sizeOf vs + 1
decreasing_by all_goals (subst_vars; simp_wf <;> omega)

theorem visit_map_rt (p : Bool) (lvl : Nat) (cd : Nat) (fds : List (Chars × D)) (i : Nat)
    (flds : Fields) (vs : Values) (I tail : Chars)
    (hdrop : fds.drop i = mkFields flds) (hle : i ≤ fds.length)
    (hcd : fds.length + 1 - i ≤ cd)
    (hwf : wfFields flds = true) (hfits : fitsRecord flds vs = true)
    (hcond : condFields p lvl flds vs tail = true) (hl : 0 < lvl)
    (hI : skip_whitespace I = skip_whitespace (chunksFields p lvl flds vs ++ ')' :: tail)) :
    ∃ rest, visit_map fds cd i none I = some (.ok (Values.toList vs), rest) ∧
      (rest = tail ∨ rest = skip_whitespace tail) := by
  cases flds with
  | nil =>
    cases vs with
    | cons _ _ => exact Bool.noConfusion hfits
    | nil =>
      have hIr : skip_whitespace I = ')' :: tail := by
        rw [hI]
        exact skip_whitespace_eq_self _ (fun c r hcr => by
          injection hcr with e1 _
          rw [← e1]
          decide)
      cases cd with
      | zero => omega
      | succ cd' =>
        rw [visit_map, check_eoe_close fds.length I tail hIr]
        dsimp only
        rw [skipEmpties_ge fds _ i _ (by
          have := List.length_drop i fds
          rw [hdrop] at this
          simp only [mkFields, List.length_nil] at this
          omega)]
        dsimp only
        rw [if_pos (by
          have := List.length_drop i fds
          rw [hdrop] at this
          simp only [mkFields, List.length_nil] at this
          omega)]
        exact ⟨tail, rfl, Or.inl rfl⟩
  | cons nm σ fr =>
    obtain ⟨v, vr, he, hfv, hfr⟩ := fitsRecord_cons_elim nm σ fr vs hfits
    subst he
    obtain ⟨hcAt, hcVN, hcF⟩ := condFields_cons_elim p lvl nm σ fr v vr tail hcond
    have hdropc : fds.drop i = (nm, mkD σ) :: mkFields fr := by rw [hdrop, mkFields]
    obtain ⟨hi, hget⟩ := get_of_drop_cons fds i _ _ hdropc
    have hdrop1 : fds.drop (i + 1) = mkFields fr := drop_succ_of_drop_cons fds i _ _ hdropc
    cases cd with
    | zero => omega
    | succ cd' =>
    rcases wfFields_cons_parts nm σ fr hwf with
      ⟨hnm0, ⟨e, hse, hwe⟩, hfr0⟩ | ⟨hnm, hid, hdist, hwe, hwfr⟩
    · -- the trailing empty-named sequence field
      subst hnm0; subst hse; subst hfr0
      cases vr with
      | cons _ _ => exact Bool.noConfusion hfr
      | nil =>
      cases v <;> simp only [fits, Bool.false_eq_true] at hfv
      rename_i el
      have hwfe : wfShape e = true := hwe
      have hcSeq : condSeq p lvl e el tail = true := condValN_empty_seq p lvl e el
        .nil .nil tail hcVN
      have hchEq : chunksFields p lvl (.cons [] (.fSeq e) .nil)
          (.cons (.vSeq el) .nil) = chunksSeqE p lvl e el := by
        rw [chunksFields_cons, chunkOf_seq_empty p lvl e el hwfe hfv,
          show chunksFields p lvl .nil .nil = [] from rfl, List.append_nil]
      rw [hchEq] at hI
      have hlast : fds.length ≤ i + 1 := by
        have := List.length_drop i fds
        rw [hdropc] at this
        simp only [mkFields, List.length_cons, List.length_nil] at this
        omega
      cases el with
      | nil =>
        have hIr : skip_whitespace I = ')' :: tail := by
          rw [hI, show chunksSeqE p lvl e .nil = [] from rfl, List.nil_append]
          exact skip_whitespace_eq_self _ (fun c r hcr => by
            injection hcr with e1 _
            rw [← e1]
            decide)
        rw [visit_map, check_eoe_close fds.length I tail hIr]
        dsimp only
        rw [skipEmpties_empty_last fds _ i (fds.length + 1) hi (by rw [hget])
          (by omega) hlast (by omega)]
        dsimp only
        rw [if_pos (by omega : i + 1 ≥ fds.length)]
        exact ⟨tail, rfl, Or.inl rfl⟩
      | cons v0 vr0 =>
        obtain ⟨hfv0, hfr0'⟩ := fitsSeq_cons_elim e v0 vr0 hfv
        obtain ⟨w, c, hsplit, hwne, hwws, hgh⟩ := chunkN_split p lvl e v0 hwfe hfv0 hl
        obtain ⟨c0, r, hcc, h1, h2, h3⟩ := goodHead_parts c hgh
        have hIs : skip_whitespace I =
            c0 :: (r ++ (chunksSeqE p lvl e vr0 ++ ')' :: tail)) := by
          rw [hI, chunksSeqE_cons, hsplit,
            show (w ++ c ++ chunksSeqE p lvl e vr0) ++ ')' :: tail =
              (w ++ c) ++ (chunksSeqE p lvl e vr0 ++ ')' :: tail) from by simp,
            strip_ws_chunk w c (fun z hz => (hwws z hz).1) hgh _, hcc,
            List.cons_append]
        rw [visit_map, check_eoe_open fds.length I c0 _ hIs h3]
        dsimp only
        rw [skipEmpties_none]
        dsimp only
        rw [if_neg (by omega)]
        have hfall := next_value_seed_fallthrough fds i
          (c0 :: (r ++ (chunksSeqE p lvl e vr0 ++ ')' :: tail))) hi ?hpkA
        case hpkA =>
          intro h hp
          refine ⟨?_, ?_⟩
          · rw [hget]
            exact fun hc => peek_identifier_some_ne_nil _ h hp hc.symm
          · unfold findLater
            rw [hdrop1]
            rfl
        rw [hfall, hget]
        dsimp only
        have hfuel2 : countV (Values.cons v0 vr0) + 1 ≤
            (c0 :: (r ++ (chunksSeqE p lvl e vr0 ++ ')' :: tail))).length + 1 := by
          have := chunksSeqE_len p lvl e hwfe hl vr0 hfr0'
          simp only [countV, List.length_cons, List.length_append]
          omega
        have hseq := visit_seq_field_rt p lvl e (.cons v0 vr0)
          ((c0 :: (r ++ (chunksSeqE p lvl e vr0 ++ ')' :: tail))).length + 1)
          (c0 :: (r ++ (chunksSeqE p lvl e vr0 ++ ')' :: tail))) tail hwfe hfv hl
          hcSeq hfuel2
          (by
            rw [show c0 :: (r ++ (chunksSeqE p lvl e vr0 ++ ')' :: tail)) =
              skip_whitespace I from hIs.symm, skip_whitespace_idem]
            exact hI)
        have hfd : (mkD (.fSeq e)).field (some [])
            (c0 :: (r ++ (chunksSeqE p lvl e vr0 ++ ')' :: tail))) =
            some (.ok (.vSeq (Values.cons v0 vr0)), ')' :: tail, true) := by
          have hred : (mkD (.fSeq e)).field (some [])
              (c0 :: (r ++ (chunksSeqE p lvl e vr0 ++ ')' :: tail))) =
              (match visit_seq_field ((mkD e).field none)
                  ((c0 :: (r ++ (chunksSeqE p lvl e vr0 ++ ')' :: tail))).length + 1)
                  (c0 :: (r ++ (chunksSeqE p lvl e vr0 ++ ')' :: tail))) with
               | none => none
               | some (.error e', rest) => some (.error e', rest, true)
               | some (.ok vs', rest) =>
                 some (.ok (.vSeq (.ofList vs')), rest, true)) := rfl
          rw [hred, hseq]
          dsimp only
          rw [Values.ofList_toList]
        rw [hfd]
        dsimp only
        rw [check_eoe_close fds.length (')' :: tail) tail
          (skip_whitespace_eq_self _ (fun c' r' hcr => by
            injection hcr with e1 _
            rw [← e1]
            decide))]
        dsimp only
        rw [visit_map_silent .nil .nil cd' fds (i + 1) tail
          (by rw [hdrop1]) (by omega) (by omega) rfl rfl rfl]
        exact ⟨skip_whitespace tail, rfl, Or.inr rfl⟩
    · -- a named field
      by_cases hta0 : isTrueAtom σ v = true
      · -- boolean-presence true atom
        obtain ⟨hσ, hv⟩ := isTrueAtom_cases σ v hta0
        subst hσ; subst hv
        have hIs : skip_whitespace I =
            nm ++ (chunksFields p lvl fr vr ++ ')' :: tail) := by
          rw [hI, chunksFields_cons, trueAtom_chunk p lvl nm hid,
            show ((' ' :: nm) ++ chunksFields p lvl fr vr) ++ ')' :: tail =
              (' ' :: nm) ++ (chunksFields p lvl fr vr ++ ')' :: tail) from by simp]
          exact trueatom_strip nm _ hid
        obtain ⟨n0, nm', hnc, hu0, ha0, hp0, _⟩ := identName_head nm hid
        have hIs' : skip_whitespace I =
            n0 :: (nm' ++ (chunksFields p lvl fr vr ++ ')' :: tail)) := by
          rw [hIs, hnc, List.cons_append]
        rw [visit_map, check_eoe_open fds.length I n0 _ hIs' hp0]
        dsimp only
        rw [skipEmpties_named fds _ i _ hi (by rw [hget]; exact hnm)]
        dsimp only
        rw [if_neg (by omega)]
        rw [show n0 :: (nm' ++ (chunksFields p lvl fr vr ++ ')' :: tail)) =
          nm ++ (chunksFields p lvl fr vr ++ ')' :: tail) from by
            rw [hnc, List.cons_append]]
        have hpk : peek_identifier (nm ++ (chunksFields p lvl fr vr ++ ')' :: tail)) =
            some nm := peek_identifier_name nm _ (identName_parts nm hid).1
          (identName_parts nm hid).2
          (delim_chunksFields p lvl fr vr tail hwfr hfr hl)
        rw [next_value_seed_hit fds i _ nm hi hpk (by rw [hget])]
        rw [show (fds.get ⟨i, hi⟩).2.tru.1 = Except.ok (Value.vBool true) from by
          rw [hget]; rfl]
        dsimp only
        rw [List.drop_left]
        obtain ⟨rest2, st4, rest', hce, hv', hdisj⟩ := record_cont p lvl cd' fds i fr vr
          (chunksFields p lvl fr vr ++ ')' :: tail) tail hdrop1 (by omega) (by omega)
          hwfr hfr hcF hl rfl
        rw [hce]
        dsimp only
        rw [hv']
        exact ⟨rest', rfl, hdisj⟩
      · have hta0' : isTrueAtom σ v = false := by simpa using hta0
        by_cases hs : isSilentN nm σ v = true
        · -- a silent field
          have hsil := isSilentN_named nm σ v hnm hs
          have hchz : chunkOf p lvl nm σ v = [] := silentN_chunk p lvl nm σ v hs
          have hI' : skip_whitespace I =
              skip_whitespace (chunksFields p lvl fr vr ++ ')' :: tail) := by
            rw [hI, chunksFields_cons, hchz, List.nil_append]
          cases hsp : splitSilent fr vr with
          | none =>
            have hch0 : chunksFields p lvl fr vr = [] :=
              splitSilent_none_chunks p lvl fr vr hsp
            have hIr : skip_whitespace I = ')' :: tail := by
              rw [hI', hch0, List.nil_append]
              exact skip_whitespace_eq_self _ (fun c r hcr => by
                injection hcr with e1 _
                rw [← e1]
                decide)
            rw [visit_map, check_eoe_close fds.length I tail hIr]
            dsimp only
            rw [skipEmpties_named fds _ i _ hi (by rw [hget]; exact hnm)]
            dsimp only
            rw [if_neg (by omega)]
            rw [next_value_seed_skip fds i tail (fds.length + 1) hi (by omega)]
            rw [show (fds.get ⟨i, hi⟩).2.miss.1 = Except.ok v from by
              rw [hget]; exact silent_miss σ v hwe hsil]
            dsimp only
            rw [check_eoe_some]
            dsimp only
            rw [visit_map_silent fr vr cd' fds (i + 1) (skip_whitespace tail)
              hdrop1 (by omega) (by omega) hwfr hfr hsp, skip_whitespace_idem]
            exact ⟨skip_whitespace tail, rfl, Or.inr rfl⟩
          | some q =>
            obtain ⟨nmj, σj, vj, frj, vrj⟩ := q
            obtain ⟨hchsp, hnsj⟩ :=
              splitSilent_some_parts p lvl fr vr nmj σj vj frj vrj hsp
            obtain ⟨hfj, hfrj2, hwfrj, hwej, hmemj, hnilj, hnnilj⟩ :=
              splitSilent_wf fr vr nmj σj vj frj vrj hwfr hfr hsp
            by_cases htaj : isTrueAtom σj vj = true
            · -- skip-ahead to a boolean-presence field
              obtain ⟨hσj, hvj⟩ := isTrueAtom_cases σj vj htaj
              subst hσj; subst hvj
              have hnmjne : nmj ≠ [] := by
                intro hc
                obtain ⟨_, e', hse'⟩ := hnilj hc
                cases hse'
              obtain ⟨hidj, _⟩ := hnnilj hnmjne
              have hIs : skip_whitespace I =
                  nmj ++ (chunksFields p lvl frj vrj ++ ')' :: tail) := by
                rw [hI', hchsp, trueAtom_chunk p lvl nmj hidj,
                  show ((' ' :: nmj) ++ chunksFields p lvl frj vrj) ++ ')' :: tail =
                    (' ' :: nmj) ++ (chunksFields p lvl frj vrj ++ ')' :: tail)
                    from by simp]
                exact trueatom_strip nmj _ hidj
              obtain ⟨n0, nmj', hnjc, hju, hja, hjp, _⟩ := identName_head nmj hidj
              have hIs' : skip_whitespace I =
                  n0 :: (nmj' ++ (chunksFields p lvl frj vrj ++ ')' :: tail)) := by
                rw [hIs, hnjc, List.cons_append]
              rw [visit_map, check_eoe_open fds.length I n0 _ hIs' hjp]
              dsimp only
              rw [skipEmpties_named fds _ i _ hi (by rw [hget]; exact hnm)]
              dsimp only
              rw [if_neg (by omega)]
              rw [show n0 :: (nmj' ++ (chunksFields p lvl frj vrj ++ ')' :: tail)) =
                nmj ++ (chunksFields p lvl frj vrj ++ ')' :: tail) from by
                  rw [hnjc, List.cons_append]]
              have hpk : peek_identifier
                  (nmj ++ (chunksFields p lvl frj vrj ++ ')' :: tail)) = some nmj :=
                peek_identifier_name nmj _ hnmjne (identName_parts nmj hidj).2
                  (delim_chunksFields p lvl frj vrj tail hwfrj hfrj2 hl)
              have hne0 : (fds.get ⟨i, hi⟩).1 ≠ nmj := by
                rw [hget]
                intro hc
                have hx := List.all_eq_true.mp hdist nmj hmemj
                rw [← hc] at hx
                simp at hx
              have hfl : findLater fds (i + 1) nmj =
                  some ((i + 1) + silentPrefixLen fr vr) := by
                unfold findLater
                rw [hdrop1]
                exact firstIdx_splitSilent fr vr (i + 1) nmj _ _ frj vrj hwfr hfr hsp
              rw [next_value_seed_jump fds i _ nmj ((i + 1) + silentPrefixLen fr vr)
                hi hpk hne0 hfl]
              rw [show (fds.get ⟨i, hi⟩).2.miss.1 = Except.ok v from by
                rw [hget]; exact silent_miss σ v hwe hsil]
              dsimp only
              rw [List.drop_left]
              rw [check_eoe_some]
              dsimp only
              obtain ⟨rest, hv', hdisj⟩ := visit_map_jump p lvl cd' fds (i + 1) fr vr
                nmj .fBool (.vBool true) frj vrj
                (skip_whitespace (chunksFields p lvl frj vrj ++ ')' :: tail)) tail
                hdrop1 (by omega) (by omega) hwfr hfr hcF hl hsp htaj
                (skip_whitespace_idem _)
              rw [hv']
              exact ⟨rest, rfl, hdisj⟩
            · -- the emitter is decoded by a later iteration; fall through now
              have htaj' : isTrueAtom σj vj = false := by simpa using htaj
              obtain ⟨hpkcond, htrial⟩ := condAt_silent p lvl nm σ v fr vr tail
                nmj σj vj frj vrj hta0' hs hsp htaj' hcAt
              obtain ⟨c0, r0, hcs, hcu, hca, hcp0⟩ := chunksFields_some_strip p lvl fr vr
                nmj σj vj frj vrj (')' :: tail) hwfr hfr hl hsp
              have hIs : skip_whitespace I = c0 :: r0 := by rw [hI']; exact hcs
              rw [visit_map, check_eoe_open fds.length I c0 r0 hIs hcp0]
              dsimp only
              rw [skipEmpties_named fds _ i _ hi (by rw [hget]; exact hnm)]
              dsimp only
              rw [if_neg (by omega)]
              have hfall := next_value_seed_fallthrough fds i (c0 :: r0) hi ?hpkB
              case hpkB =>
                intro h hp
                have hp' : peek_identifier
                    (skip_whitespace (chunksFields p lvl fr vr ++ ')' :: tail)) =
                    some h := by
                  rw [hcs]; exact hp
                obtain ⟨hne1, hall1⟩ := hpkcond h hp'
                refine ⟨by rw [hget]; exact Ne.symm hne1, ?_⟩
                unfold findLater
                rw [hdrop1]
                exact firstIdx_names_none h fr (i + 1) hall1
              rw [hfall, hget]
              dsimp only
              have hIs2 : skip_whitespace (c0 :: r0) = c0 :: r0 :=
                skip_whitespace_eq_self _ (fun cc rr hcr => by
                  injection hcr with e1 _
                  rw [← e1]
                  exact hcu)
              have hinv2 : skip_whitespace (c0 :: r0) =
                  skip_whitespace (chunksFields p lvl fr vr ++ ')' :: tail) := by
                rw [hIs2]
                exact hcs.symm
              rcases isSilent_cases σ v hsil with ⟨hσ, hv⟩ | ⟨s, hσ, hv⟩
              · subst hσ; subst hv
                rw [show (mkD .fBool).field (some nm) (c0 :: r0) =
                  some (.ok (.vBool false), c0 :: r0, true) from rfl]
                dsimp only
                rw [check_eoe_open fds.length (c0 :: r0) c0 r0 hIs2 hcp0]
                dsimp only
                obtain ⟨rest, hv', hdisj⟩ := visit_map_rt p lvl cd' fds (i + 1) fr vr
                  (c0 :: r0) tail hdrop1 (by omega) (by omega) hwfr hfr hcF hl hinv2
                rw [hv']
                exact ⟨rest, rfl, hdisj⟩
              · subst hσ; subst hv
                have htr := htrial s rfl rfl
                obtain ⟨er, hfe⟩ := trialRejects_elim s nm _ htr
                rw [hcs] at hfe
                rw [show (mkD (.fOpt s)).field (some nm) (c0 :: r0) =
                  (match (mkD s).field (some nm) (c0 :: r0) with
                   | none => none
                   | some (.ok w', rest', t) => some (.ok (.vSome w'), rest', t)
                   | some (.error e', rest', t) =>
                     if t then some (.error e', rest', t)
                     else some (.ok .vNone, rest', false)) from rfl]
                rw [hfe]
                dsimp only
                rw [if_neg (by simp)]
                dsimp only
                rw [check_eoe_open fds.length (c0 :: r0) c0 r0 hIs2 hcp0]
                dsimp only
                obtain ⟨rest, hv', hdisj⟩ := visit_map_rt p lvl cd' fds (i + 1) fr vr
                  (c0 :: r0) tail hdrop1 (by omega) (by omega) hwfr hfr hcF hl hinv2
                rw [hv']
                exact ⟨rest, rfl, hdisj⟩
        · -- an emitting named field
          have hs' : isSilentN nm σ v = false := by simpa using hs
          have hcV : condVal p lvl σ v (chunksFields p lvl fr vr ++ ')' :: tail) = true :=
            condValN_named p lvl nm σ v fr vr tail hnm hcVN
          obtain ⟨rest1, hfield, hdisj1⟩ := field_rt p lvl nm σ v
            (chunksFields p lvl fr vr ++ ')' :: tail) hwe hfv hl hid hs' hta0' hcV
            (delim_chunksFields p lvl fr vr tail hwfr hfr hl)
          obtain ⟨w, c, hsplit, hwne, hwws, hgh⟩ :=
            chunk_split p lvl nm σ v hwe hfv hl hid hs' hta0'
          obtain ⟨c0, r0, hcc, h1, h2, h3⟩ := goodHead_parts c hgh
          have hstrip2 : skip_whitespace (chunkOf p lvl nm σ v ++
              (chunksFields p lvl fr vr ++ ')' :: tail)) =
              c0 :: (r0 ++ (chunksFields p lvl fr vr ++ ')' :: tail)) := by
            rw [hsplit, strip_ws_chunk w c (fun z hz => (hwws z hz).1) hgh _, hcc,
              List.cons_append]
          have hIs : skip_whitespace I =
              c0 :: (r0 ++ (chunksFields p lvl fr vr ++ ')' :: tail)) := by
            rw [hI, chunksFields_cons,
              show (chunkOf p lvl nm σ v ++ chunksFields p lvl fr vr) ++ ')' :: tail =
                chunkOf p lvl nm σ v ++ (chunksFields p lvl fr vr ++ ')' :: tail)
                from by simp]
            exact hstrip2
          rw [visit_map, check_eoe_open fds.length I c0 _ hIs h3]
          dsimp only
          rw [skipEmpties_named fds _ i _ hi (by rw [hget]; exact hnm)]
          dsimp only
          rw [if_neg (by omega)]
          have hfall := next_value_seed_fallthrough fds i
            (c0 :: (r0 ++ (chunksFields p lvl fr vr ++ ')' :: tail))) hi ?hpkC
          case hpkC =>
            intro h hp
            have hp' : peek_identifier (skip_whitespace (chunkOf p lvl nm σ v ++
                (chunksFields p lvl fr vr ++ ')' :: tail))) = some h := by
              rw [hstrip2]; exact hp
            obtain ⟨hne1, hall1⟩ :=
              condAt_emitting p lvl nm σ v fr vr tail hta0' hs' hcAt h hp'
            refine ⟨by rw [hget]; exact Ne.symm hne1, ?_⟩
            unfold findLater
            rw [hdrop1]
            exact firstIdx_names_none h fr (i + 1) hall1
          rw [hfall, hget]
          dsimp only
          rw [← hstrip2, hfield]
          dsimp only
          have hrest1 : skip_whitespace rest1 =
              skip_whitespace (chunksFields p lvl fr vr ++ ')' :: tail) := by
            rcases hdisj1 with rfl | rfl
            · rfl
            · exact skip_whitespace_idem _
          obtain ⟨rest2, st4, rest', hce, hv', hdisj'⟩ := record_cont p lvl cd' fds i
            fr vr rest1 tail hdrop1 (by omega) (by omega) hwfr hfr hcF hl hrest1
          rw [hce]
          dsimp only
          rw [hv']
          exact ⟨rest', rfl, hdisj'⟩

termination_by 2 * sizeOf vs
decreasing_by all_goals (subst_vars; simp_wf <;> omega)

theorem visit_map_jump (p : Bool) (lvl : Nat) (cd : Nat) (fds : List (Chars × D))
    (i : Nat) (flds : Fields) (vs : Values) (nmj : Chars) (σj : FieldShape) (vj : Value)
    (frj : Fields) (vrj : Values) (I tail : Chars)
    (hdrop : fds.drop i = mkFields flds) (hle : i ≤ fds.length)
    (hcd : fds.length + 1 - i ≤ cd)
    (hwf : wfFields flds = true) (hfits : fitsRecord flds vs = true)
    (hcond : condFields p lvl flds vs tail = true) (hl : 0 < lvl)
    (hsp : splitSilent flds vs = some (nmj, σj, vj, frj, vrj))
    (hta : isTrueAtom σj vj = true)
    (hI : skip_whitespace I =
      skip_whitespace (chunksFields p lvl frj vrj ++ ')' :: tail)) :
    ∃ rest, visit_map fds cd i (some (i + silentPrefixLen flds vs)) I =
      some (.ok (Values.toList vs), rest) ∧
      (rest = tail ∨ rest = skip_whitespace tail) := by
  cases flds with
  | nil =>
    cases vs with
    | nil => exact Option.noConfusion hsp
    | cons _ _ => exact Bool.noConfusion hfits
  | cons nm σ fr =>
    obtain ⟨v, vr, he, hfv, hfr⟩ := fitsRecord_cons_elim nm σ fr vs hfits
    subst he
    obtain ⟨hcAt, hcVN, hcF⟩ := condFields_cons_elim p lvl nm σ fr v vr tail hcond
    have hdropc : fds.drop i = (nm, mkD σ) :: mkFields fr := by rw [hdrop, mkFields]
    obtain ⟨hi, hget⟩ := get_of_drop_cons fds i _ _ hdropc
    have hdrop1 : fds.drop (i + 1) = mkFields fr := drop_succ_of_drop_cons fds i _ _ hdropc
    rw [splitSilent] at hsp
    cases cd with
    | zero => omega
    | succ cd' =>
    by_cases hs : isSilentN nm σ v = true
    · -- skip over one silent field
      rw [if_pos hs] at hsp
      rcases wfFields_cons_parts nm σ fr hwf with
        ⟨hnm0, ⟨e, hse, hwe⟩, hfr0⟩ | ⟨hnm, hid, hdist, hwe, hwfr⟩
      · subst hfr0
        cases vr with
        | nil => exact Option.noConfusion hsp
        | cons _ _ => exact Bool.noConfusion hfr
      · have hsil := isSilentN_named nm σ v hnm hs
        have hL : silentPrefixLen (.cons nm σ fr) (.cons v vr) =
            silentPrefixLen fr vr + 1 := by
          rw [silentPrefixLen, if_pos hs]
        rw [hL]
        rw [visit_map, check_eoe_some]
        dsimp only
        rw [skipEmpties_named fds _ i _ hi (by rw [hget]; exact hnm)]
        dsimp only
        rw [if_neg (by omega)]
        rw [next_value_seed_skip fds i (skip_whitespace I)
          (i + (silentPrefixLen fr vr + 1)) hi (by omega)]
        rw [show (fds.get ⟨i, hi⟩).2.miss.1 = Except.ok v from by
          rw [hget]; exact silent_miss σ v hwe hsil]
        dsimp only
        rw [check_eoe_some]
        dsimp only
        obtain ⟨rest, hv', hdisj⟩ := visit_map_jump p lvl cd' fds (i + 1) fr vr
          nmj σj vj frj vrj (skip_whitespace (skip_whitespace I)) tail
          hdrop1 (by omega) (by omega) hwfr hfr hcF hl hsp hta
          (by rw [skip_whitespace_idem, skip_whitespace_idem]; exact hI)
        rw [show i + (silentPrefixLen fr vr + 1) = (i + 1) + silentPrefixLen fr vr
          from by omega]
        rw [hv']
        exact ⟨rest, rfl, hdisj⟩
    · -- the jump target itself
      rw [if_neg hs] at hsp
      simp only [Option.some.injEq, Prod.mk.injEq] at hsp
      obtain ⟨e1, e2, e3, e4, e5⟩ := hsp
      subst e1; subst e2; subst e3; subst e4; subst e5
      obtain ⟨hσ, hv⟩ := isTrueAtom_cases σ v hta
      subst hσ; subst hv
      rcases wfFields_cons_parts nm .fBool fr hwf with
        ⟨_, ⟨e', hse', _⟩, _⟩ | ⟨hnm, hid, hdist, hwe, hwfr⟩
      · cases hse'
      have hL : silentPrefixLen (.cons nm .fBool fr) (.cons (.vBool true) vr) = 0 := by
        rw [silentPrefixLen, if_neg hs]
      rw [show i + silentPrefixLen (Fields.cons nm .fBool fr)
        (Values.cons (.vBool true) vr) = i from by simp [hL]]
      rw [visit_map, check_eoe_some]
      dsimp only
      rw [skipEmpties_named fds _ i _ hi (by rw [hget]; exact hnm)]
      dsimp only
      rw [if_neg (by omega)]
      rw [next_value_seed_at fds i (skip_whitespace I) hi]
      rw [show (fds.get ⟨i, hi⟩).2.tru.1 = Except.ok (Value.vBool true) from by
        rw [hget]; rfl]
      dsimp only
      obtain ⟨rest2, st4, rest', hce, hv', hdisj⟩ := record_cont p lvl cd' fds i fr vr
        (skip_whitespace I) tail hdrop1 (by omega) (by omega) hwfr hfr hcF hl
        (by rw [skip_whitespace_idem]; exact hI)
      rw [hce]
      dsimp only
      rw [hv']
      exact ⟨rest', rfl, hdisj⟩

termination_by 2 * sizeOf vs
decreasing_by all_goals (subst_vars; simp_wf <;> omega)

theorem record_cont (p : Bool) (lvl : Nat) (cd : Nat) (fds : List (Chars × D)) (i : Nat)
    (fr : Fields) (vr : Values) (rest0 tail : Chars)
    (hdrop : fds.drop (i + 1) = mkFields fr) (hle : i + 1 ≤ fds.length)
    (hcd : fds.length + 1 - (i + 1) ≤ cd)
    (hwf : wfFields fr = true) (hfits : fitsRecord fr vr = true)
    (hcond : condFields p lvl fr vr tail = true) (hl : 0 < lvl)
    (hrest : skip_whitespace rest0 =
      skip_whitespace (chunksFields p lvl fr vr ++ ')' :: tail)) :
    ∃ rest2 st4 rest', check_eoe fds.length rest0 none = .ok (rest2, st4) ∧
      visit_map fds cd (i + 1) st4 rest2 = some (.ok (Values.toList vr), rest') ∧
      (rest' = tail ∨ rest' = skip_whitespace tail) := by
  cases hsp : splitSilent fr vr with
  | none =>
    have hch : chunksFields p lvl fr vr = [] := splitSilent_none_chunks p lvl fr vr hsp
    have hrc : skip_whitespace rest0 = ')' :: tail := by
      rw [hrest, hch, List.nil_append]
      exact skip_whitespace_eq_self _ (fun c r hcr => by
        injection hcr with e1 _
        rw [← e1]
        decide)
    exact ⟨tail, some (fds.length + 1), skip_whitespace tail,
      check_eoe_close fds.length rest0 tail hrc,
      visit_map_silent fr vr cd fds (i + 1) tail hdrop hle hcd hwf hfits hsp,
      Or.inr rfl⟩
  | some q =>
    obtain ⟨nmj, σj, vj, frj, vrj⟩ := q
    obtain ⟨c0, r, hcs, hu, ha, hp⟩ := chunksFields_some_strip p lvl fr vr
      nmj σj vj frj vrj (')' :: tail) hwf hfits hl hsp
    have hrc : skip_whitespace rest0 = c0 :: r := by rw [hrest]; exact hcs
    obtain ⟨rest', hv, hdisj⟩ := visit_map_rt p lvl cd fds (i + 1) fr vr (c0 :: r) tail
      hdrop hle hcd hwf hfits hcond hl
      (by
        rw [show c0 :: r = skip_whitespace rest0 from hrc.symm, skip_whitespace_idem]
        exact hrest)
    exact ⟨c0 :: r, none, rest', check_eoe_open fds.length rest0 c0 r hrc hp, hv, hdisj⟩

termination_by 2 * sizeOf vr + 1
decreasing_by all_goals (subst_vars; simp_wf <;> omega)
end

theorem roundtrip_with (pretty : Bool) (t : TopShape) (v : Value)
    (hwf : wfTop t = true) (hfits : fitsTop t v = true)
    (hcond : condTop t v pretty = true) :
    ∃ out, to_string_with pretty t v = .ok out ∧ from_str t out = some (.ok v) := by
  cases t with
  | tPrim => exact absurd hwf (by simp [wfTop])
  | tUnitStruct nm =>
    cases v <;> simp only [fitsTop, Bool.false_eq_true] at hfits
    have hid : identName nm = true := hwf
    refine ⟨'(' :: nm ++ [')'], rfl, ?_⟩
    unfold from_str
    have hform : ('(' :: nm ++ [')'] : Chars) = '(' :: (nm ++ (')' :: [])) := by simp
    rw [hform]
    have hred : topDecode (.tUnitStruct nm) ('(' :: (nm ++ (')' :: []))) =
        (match consume_beginning nm ('(' :: (nm ++ (')' :: []))) with
         | (.error e, st) => some (.error e, st)
         | (.ok (), st) =>
           match st with
           | [] => some (.error .Eof, st)
           | c :: rest =>
             if c = ')' then
               match check_no_trailing_tokens rest with
               | (.error e, rest') => some (.error e, rest')
               | (.ok (), rest') => some (.ok .vUnit, rest')
             else some (.error .ExpectedEoe, rest)) := rfl
    rw [hred, consume_beginning_exact nm (')' :: []) hid
      (fun c r hcr => by injection hcr with e1 _; rw [← e1]; decide)]
    rfl
  | tStruct nm flds =>
    cases v <;> simp only [fitsTop, Bool.false_eq_true] at hfits
    rename_i vs
    have hwf' : (identName nm && wfFields flds) = true := hwf
    simp only [Bool.and_eq_true] at hwf'
    have hcond' : condFields pretty 1 flds vs [] = true := hcond
    have henc := encRecord_ok vs flds pretty 1 hwf'.2 hfits
    refine ⟨'(' :: nm ++ chunksFields pretty 1 flds vs ++ [')'], ?_, ?_⟩
    · have hred : to_string_with pretty (.tStruct nm flds) (.vStruct vs) =
          (match encRecordFields pretty 1 (mkFieldsE flds) vs.toList with
           | .error e => .error e
           | .ok body => .ok ('(' :: nm ++ body ++ [')'])) := rfl
      rw [hred, henc]
    · obtain ⟨rest, hv, hdisj⟩ := visit_map_rt pretty 1 ((mkFields flds).length + 1)
        (mkFields flds) 0 flds vs
        (chunksFields pretty 1 flds vs ++ ')' :: []) []
        (by simp) (by omega) (by omega) hwf'.2 hfits hcond' (by omega) rfl
      have hrest : rest = ([] : Chars) := by
        rcases hdisj with rfl | rfl
        · rfl
        · rfl
      subst hrest
      unfold from_str
      have hform : ('(' :: nm ++ chunksFields pretty 1 flds vs ++ [')'] : Chars) =
          '(' :: (nm ++ (chunksFields pretty 1 flds vs ++ ')' :: [])) := by simp
      rw [hform]
      have hred : topDecode (.tStruct nm flds)
          ('(' :: (nm ++ (chunksFields pretty 1 flds vs ++ ')' :: []))) =
          (match consume_beginning nm
              ('(' :: (nm ++ (chunksFields pretty 1 flds vs ++ ')' :: []))) with
           | (.error e, st) => some (.error e, st)
           | (.ok (), st) =>
             match visit_map (mkFields flds) ((mkFields flds).length + 1) 0 none st with
             | none => none
             | some (.error e, rest') => some (.error e, rest')
             | some (.ok vs', rest') =>
               match check_no_trailing_tokens rest' with
               | (.error e, rest'') => some (.error e, rest'')
               | (.ok (), rest'') => some (.ok (.vStruct (.ofList vs')), rest'')) := rfl
      rw [hred, consume_beginning_exact nm _ hwf'.1
        (fun c r hcr => delim_head_not_ident _
          (delim_chunksFields pretty 1 flds vs [] hwf'.2 hfits (by omega)) c r hcr)]
      dsimp only
      rw [hv]
      dsimp only
      rw [Values.ofList_toList]
      rfl
  | tTupleStruct nm es =>
    cases v <;> simp only [fitsTop, Bool.false_eq_true] at hfits
    rename_i vs
    have hwe : wfShapesAll es = true := by
      cases es with
      | nil =>
        exact absurd (show (identName nm && false && wfShapesAll Shapes.nil) = true from hwf)
          (by simp)
      | cons σ0 es0 =>
        have h' : (identName nm && true && wfShapesAll (.cons σ0 es0)) = true := hwf
        simp only [Bool.and_true, Bool.and_eq_true] at h'
        exact h'.2
    have hid : identName nm = true := by
      cases es with
      | nil =>
        exact absurd (show (identName nm && false && wfShapesAll Shapes.nil) = true from hwf)
          (by simp)
      | cons σ0 es0 =>
        have h' : (identName nm && true && wfShapesAll (.cons σ0 es0)) = true := hwf
        simp only [Bool.and_true, Bool.and_eq_true] at h'
        exact h'.1
    have hne : es ≠ .nil := by
      intro h
      subst h
      exact absurd (show (identName nm && false && wfShapesAll Shapes.nil) = true from hwf)
        (by simp)
    have hcond' : condElems pretty 1 es vs [] = true := hcond
    have henc := encTup_ok vs es pretty 1 hwe hfits
    refine ⟨'(' :: nm ++ chunksTup pretty 1 es vs ++ [')'], ?_, ?_⟩
    · have hred : to_string_with pretty (.tTupleStruct nm es) (.vTuple vs) =
          (match encTupleElems pretty 1 (mkShapesE es) vs.toList with
           | .error e => .error e
           | .ok body => .ok ('(' :: nm ++ body ++ [')'])) := rfl
      rw [hred, henc]
    · have hrec := visit_tuple_rt pretty 1 es vs
        (chunksTup pretty 1 es vs ++ ')' :: []) [] hwe hfits (by omega) hcond' hne rfl
      unfold from_str
      have hform : ('(' :: nm ++ chunksTup pretty 1 es vs ++ [')'] : Chars) =
          '(' :: (nm ++ (chunksTup pretty 1 es vs ++ ')' :: [])) := by simp
      rw [hform]
      have hred : topDecode (.tTupleStruct nm es)
          ('(' :: (nm ++ (chunksTup pretty 1 es vs ++ ')' :: []))) =
          (match consume_beginning nm
              ('(' :: (nm ++ (chunksTup pretty 1 es vs ++ ')' :: []))) with
           | (.error e, st) => some (.error e, st)
           | (.ok (), st) =>
             match visit_tuple (mkShapes es) st false with
             | none => none
             | some (.error e, rest', _) => some (.error e, rest')
             | some (.ok vs', rest', _) =>
               match check_no_trailing_tokens rest' with
               | (.error e, rest'') => some (.error e, rest'')
               | (.ok (), rest'') => some (.ok (.vTuple (.ofList vs')), rest'')) := rfl
      rw [hred, consume_beginning_exact nm _ hid
        (fun c r hcr => delim_head_not_ident _
          (delim_chunksTup pretty 1 es vs [] hwe hfits (by omega)) c r hcr)]
      dsimp only
      rw [hrec]
      dsimp only
      rw [Values.ofList_toList]
      rfl

/-- C1 counterexample: the schema `(s (a: string))` — a struct with one
plain string field, squarely inside the claim's "supported shape" — and
the value `a = "a"` encode to `(s a)`, but decoding peeks the bare
identifier `a`, finds it equal to the declared field name, and resolves
the field through the boolean-presence `TrueField` deserializer, which
fails with serde's `invalid type: boolean `true`, expected a string`
instead of returning the original value. -/
theorem C1_counterexample :
    to_string (.tStruct ("s".toList) (.cons ("a".toList) .fStr .nil))
        (.vStruct (.cons (.vStr ("a".toList)) .nil)) = .ok ("(s a)".toList) ∧
    from_str (.tStruct ("s".toList) (.cons ("a".toList) .fStr .nil)) ("(s a)".toList) =
      some (.error (invalidType boolTrueUnexp "a string")) := by decide

/-- C1 (amended): on the unambiguous fragment — identifier names, distinct
and with at most one trailing empty-named sequence field; booleans,
sequences and optionals only as named fields; no floats; values fitting
the schema; and, per position, the absence of the name-collision and
option-trial ambiguities (`condTop`) — deserializing the serializer's
output returns the original value, both compact and pretty. -/
theorem C1_amended (t : TopShape) (v : Value)
    (hwf : wfTop t = true) (hfits : fitsTop t v = true)
    (hc0 : condTop t v false = true) (hc1 : condTop t v true = true) :
    (∃ out, to_string t v = .ok out ∧ from_str t out = some (.ok v)) ∧
    (∃ out, to_string_pretty t v = .ok out ∧ from_str t out = some (.ok v)) :=
  ⟨roundtrip_with false t v hwf hfits hc0, roundtrip_with true t v hwf hfits hc1⟩

/-- Witness for `C1_amended`: the sample schema (boolean presence, absent
boolean, nested tuple struct, absent optional, unit-variant enum, nested
record, present optional unit, trailing empty-named string sequence)
satisfies the hypotheses, and the round trip holds for both modes. -/
theorem C1_amended_witness :
    (wfTop sampleShape = true ∧ fitsTop sampleShape sampleValue = true ∧
     condTop sampleShape sampleValue false = true ∧
     condTop sampleShape sampleValue true = true) ∧
    ((∃ out, to_string sampleShape sampleValue = .ok out ∧
        from_str sampleShape out = some (.ok sampleValue)) ∧
     (∃ out, to_string_pretty sampleShape sampleValue = .ok out ∧
        from_str sampleShape out = some (.ok sampleValue))) :=
  ⟨⟨by decide, by decide, by decide, by decide⟩,
   C1_amended sampleShape sampleValue (by decide) (by decide) (by decide) (by decide)⟩


end SexprCodec
